import Mathlib

/-!
SimpleAllocator: a boundary-tag arena allocator with an intrusive free list.

Shallow embedding of `SimpleAllocator.hpp` / `SimpleAllocator.cpp`.

Memory model
* Addresses are absolute byte addresses (natural numbers); `nullptr` marker
  pointers are `none`.
* The arena is viewed through its two record types: `beginAt a` is the
  `BeginMarker` stored at address `a`, `endAt a` the `EndMarker` stored at
  address `a`.  Payload bytes carry no information for the allocator and are
  not modelled.
* Record layout is the LP64 one: `sizeof(BeginMarker) = 32`,
  `sizeof(EndMarker) = 16`, and `size_t` arithmetic is performed modulo `2^64`.
* Every marker access is bounds checked against
  `[memoryBegin, memoryBegin + totalMemorySize)`.  An access outside the arena
  is undefined behaviour in C++; the embedding then yields `none`.
  A `while` loop that does not finish within its iteration budget yields `none`
  as well.
* Pointer subtraction is natural-number subtraction: a pointer that would fall
  below address `0` is clamped to `0`, which lies below every arena with a
  positive base address and is rejected by the bounds check.
-/

/-- Modulus of `size_t` arithmetic. -/
def SIZE_MOD : Nat := 18446744073709551616

/-- The value of `sizeof(BeginMarker)`. -/
def sizeofBeginMarker : Nat := 32

/-- The value of `sizeof(EndMarker)`. -/
def sizeofEndMarker : Nat := 16

/-- Subtraction of `size_t` values (wraps modulo `2^64`). -/
def subSize (a b : Nat) : Nat := (a + SIZE_MOD - b % SIZE_MOD) % SIZE_MOD

/-- Addition of `size_t` values (wraps modulo `2^64`). -/
def addSize (a b : Nat) : Nat := (a + b) % SIZE_MOD

/-- Record marking the beginning of a memory block (`struct BeginMarker`). -/
structure BeginMarker where
  blockSize : Nat
  isFree : Bool
  nextFreeBlock : Option Nat
  prevFreeBlock : Option Nat
deriving DecidableEq

/-- Record marking the end of a memory block (`struct EndMarker`). -/
structure EndMarker where
  blockSize : Nat
  isFree : Bool
deriving DecidableEq

/-- The allocator object together with the arena it manages
(`class SimpleAllocator`): the three data members and the typed view of the
buffer. -/
structure SimpleAllocator where
  head : Option Nat
  memoryBegin : Nat
  totalMemorySize : Nat
  beginAt : Nat → BeginMarker
  endAt : Nat → EndMarker

namespace SimpleAllocator

/-- A `BeginMarker` at address `a` lies wholly inside the arena. -/
def validBegin (st : SimpleAllocator) (a : Nat) : Prop :=
  st.memoryBegin ≤ a ∧ a + sizeofBeginMarker ≤ st.memoryBegin + st.totalMemorySize

/-- An `EndMarker` at address `a` lies wholly inside the arena. -/
def validEnd (st : SimpleAllocator) (a : Nat) : Prop :=
  st.memoryBegin ≤ a ∧ a + sizeofEndMarker ≤ st.memoryBegin + st.totalMemorySize

instance (st : SimpleAllocator) (a : Nat) : Decidable (st.validBegin a) :=
  inferInstanceAs (Decidable (_ ∧ _))

instance (st : SimpleAllocator) (a : Nat) : Decidable (st.validEnd a) :=
  inferInstanceAs (Decidable (_ ∧ _))

/-- Unchecked in-place modification of the `BeginMarker` at `a`. -/
def updBegin (st : SimpleAllocator) (a : Nat) (f : BeginMarker → BeginMarker) :
    SimpleAllocator :=
  { st with beginAt := fun x => if x = a then f (st.beginAt a) else st.beginAt x }

/-- Unchecked in-place modification of the `EndMarker` at `a`. -/
def updEnd (st : SimpleAllocator) (a : Nat) (f : EndMarker → EndMarker) :
    SimpleAllocator :=
  { st with endAt := fun x => if x = a then f (st.endAt a) else st.endAt x }

/-- Assignment to the data member `head`. -/
def setHead (st : SimpleAllocator) (h : Option Nat) : SimpleAllocator :=
  { st with head := h }

/-- Unchecked field write `a->blockSize = v` on a `BeginMarker`. -/
def setBlockSize (st : SimpleAllocator) (a v : Nat) : SimpleAllocator :=
  st.updBegin a (fun m => { m with blockSize := v })

/-- Unchecked field write `a->isFree = v` on a `BeginMarker`. -/
def setIsFree (st : SimpleAllocator) (a : Nat) (v : Bool) : SimpleAllocator :=
  st.updBegin a (fun m => { m with isFree := v })

/-- Unchecked field write `a->nextFreeBlock = v`. -/
def setNext (st : SimpleAllocator) (a : Nat) (v : Option Nat) : SimpleAllocator :=
  st.updBegin a (fun m => { m with nextFreeBlock := v })

/-- Unchecked field write `a->prevFreeBlock = v`. -/
def setPrev (st : SimpleAllocator) (a : Nat) (v : Option Nat) : SimpleAllocator :=
  st.updBegin a (fun m => { m with prevFreeBlock := v })

/-- Unchecked field write `a->blockSize = v` on an `EndMarker`. -/
def setEndBlockSize (st : SimpleAllocator) (a v : Nat) : SimpleAllocator :=
  st.updEnd a (fun e => { e with blockSize := v })

/-- Unchecked field write `a->isFree = v` on an `EndMarker`. -/
def setEndIsFree (st : SimpleAllocator) (a : Nat) (v : Bool) : SimpleAllocator :=
  st.updEnd a (fun e => { e with isFree := v })

/-- Unchecked `if (p != nullptr) p->nextFreeBlock = v`. -/
def setNextOpt (st : SimpleAllocator) (p : Option Nat) (v : Option Nat) : SimpleAllocator :=
  match p with
  | some a => st.setNext a v
  | none => st

/-- Unchecked `if (p != nullptr) p->prevFreeBlock = v`. -/
def setPrevOpt (st : SimpleAllocator) (p : Option Nat) (v : Option Nat) : SimpleAllocator :=
  match p with
  | some a => st.setPrev a v
  | none => st

/-- Read through a `BeginMarker*`. -/
def loadBegin (st : SimpleAllocator) (a : Nat) : Option BeginMarker :=
  if st.validBegin a then some (st.beginAt a) else none

/-- Read through an `EndMarker*`. -/
def loadEnd (st : SimpleAllocator) (a : Nat) : Option EndMarker :=
  if st.validEnd a then some (st.endAt a) else none

/-- The write `a->blockSize = v` through a `BeginMarker*`. -/
def writeBlockSize (st : SimpleAllocator) (a v : Nat) : Option SimpleAllocator :=
  if st.validBegin a then some (st.setBlockSize a v) else none

/-- The write `a->isFree = v` through a `BeginMarker*`. -/
def writeIsFree (st : SimpleAllocator) (a : Nat) (v : Bool) : Option SimpleAllocator :=
  if st.validBegin a then some (st.setIsFree a v) else none

/-- The write `a->nextFreeBlock = v`. -/
def writeNext (st : SimpleAllocator) (a : Nat) (v : Option Nat) : Option SimpleAllocator :=
  if st.validBegin a then some (st.setNext a v) else none

/-- The write `a->prevFreeBlock = v`. -/
def writePrev (st : SimpleAllocator) (a : Nat) (v : Option Nat) : Option SimpleAllocator :=
  if st.validBegin a then some (st.setPrev a v) else none

/-- The write `a->blockSize = v` through an `EndMarker*`. -/
def writeEndBlockSize (st : SimpleAllocator) (a v : Nat) : Option SimpleAllocator :=
  if st.validEnd a then some (st.setEndBlockSize a v) else none

/-- The write `a->isFree = v` through an `EndMarker*`. -/
def writeEndIsFree (st : SimpleAllocator) (a : Nat) (v : Bool) : Option SimpleAllocator :=
  if st.validEnd a then some (st.setEndIsFree a v) else none

/-- The guarded write `if (p != nullptr) p->nextFreeBlock = v`. -/
def writeNextOpt (st : SimpleAllocator) (p : Option Nat) (v : Option Nat) :
    Option SimpleAllocator :=
  match p with
  | some a => st.writeNext a v
  | none => some st

/-- The guarded write `if (p != nullptr) p->prevFreeBlock = v`. -/
def writePrevOpt (st : SimpleAllocator) (p : Option Nat) (v : Option Nat) :
    Option SimpleAllocator :=
  match p with
  | some a => st.writePrev a v
  | none => some st

/-- The allocator object after the assignments to its data members in the
constructor (lines 17, 18 and 23), the buffer still holding its previous
contents. -/
def attach (beginAt0 : Nat → BeginMarker) (endAt0 : Nat → EndMarker)
    (memoryBuffer size : Nat) : SimpleAllocator :=
  { head := some memoryBuffer, memoryBegin := memoryBuffer, totalMemorySize := size,
    beginAt := beginAt0, endAt := endAt0 }

/-- The constructor `SimpleAllocator(void* memoryBuffer, size_t size)`
(SimpleAllocator.cpp lines 15-33), run on a buffer with arbitrary previous
contents `beginAt0`, `endAt0`. -/
def new (beginAt0 : Nat → BeginMarker) (endAt0 : Nat → EndMarker)
    (memoryBuffer size : Nat) : Option SimpleAllocator := do
  let st0 := attach beginAt0 endAt0 memoryBuffer size
  let st1 ← st0.writeBlockSize memoryBuffer
    (subSize (subSize size sizeofBeginMarker) sizeofEndMarker)
  let st2 ← st1.writeIsFree memoryBuffer true
  let st3 ← st2.writeNext memoryBuffer none
  let st4 ← st3.writePrev memoryBuffer none
  let endMarker := memoryBuffer + size - sizeofEndMarker
  let h ← st4.loadBegin memoryBuffer
  let st5 ← st4.writeEndBlockSize endMarker h.blockSize
  st5.writeEndIsFree endMarker h.isFree

/-- The method `hasPreviousMemoryBlock` (lines 178-181). -/
def hasPreviousMemoryBlock (st : SimpleAllocator) (ptr : Nat) : Bool :=
  decide (st.memoryBegin < ptr - sizeofBeginMarker)

/-- The method `hasNextMemoryBlock` (lines 184-190). -/
def hasNextMemoryBlock (st : SimpleAllocator) (ptr : Nat) : Option Bool := do
  let beginMarker ← st.loadBegin (ptr - sizeofBeginMarker)
  let size := beginMarker.blockSize
  pure (decide (ptr + size + sizeofEndMarker < st.memoryBegin + st.totalMemorySize))

/-- The method `getBeginMarker` (lines 193-198). -/
def getBeginMarker (st : SimpleAllocator) (endMarker : Nat) : Option Nat := do
  let e ← st.loadEnd endMarker
  let size := e.blockSize
  pure (endMarker - size - sizeofBeginMarker)

/-- The method `getEndMarker` (lines 201-206). -/
def getEndMarker (st : SimpleAllocator) (beginMarker : Nat) : Option Nat := do
  let b ← st.loadBegin beginMarker
  let size := b.blockSize
  pure (beginMarker + size + sizeofBeginMarker)

/-- The method `getMemoryBlockBounds` (lines 209-215). -/
def getMemoryBlockBounds (st : SimpleAllocator) (ptr : Nat) : Option (Nat × Nat) := do
  let blockBeginMarker := ptr - sizeofBeginMarker
  let b ← st.loadBegin blockBeginMarker
  let blockEndMarker := ptr + b.blockSize
  pure (blockBeginMarker, blockEndMarker)

/-- The method `addFreeMemoryBlock` (lines 218-230). -/
def addFreeMemoryBlock (st : SimpleAllocator) (marker : Nat) : Option SimpleAllocator :=
  match st.head with
  | some currentHead => do
    let st1 ← st.writePrev currentHead (some marker)
    let st2 ← st1.writeNext marker (some currentHead)
    let st3 ← st2.writePrev marker none
    pure (st3.setHead (some marker))
  | none => pure (st.setHead (some marker))

/-- The method `removeFreeMemoryBlock` (lines 233-255). -/
def removeFreeMemoryBlock (st : SimpleAllocator) (node : Nat) : Option SimpleAllocator := do
  let n ← st.loadBegin node
  let st1 : SimpleAllocator :=
    if st.head = some node then st.setHead n.nextFreeBlock else st
  let prevNode := n.prevFreeBlock
  let nextNode := n.nextFreeBlock
  let st2 ← st1.writeNextOpt prevNode nextNode
  let st3 ← st2.writePrevOpt nextNode prevNode
  let st4 ← st3.writeNext node none
  st4.writePrev node none

/-- First branch of the loop body of `alloc` (lines 49-65): the candidate block
is handed out whole. -/
def takeWholeBlock (st : SimpleAllocator) (cur : Nat) :
    Option (Option Nat × SimpleAllocator) := do
  let st1 ← st.removeFreeMemoryBlock cur
  let st2 ← st1.writeIsFree cur false
  let st3 ← st2.writeNext cur none
  let st4 ← st3.writePrev cur none
  let blockEndMarker ← st4.getEndMarker cur
  let st5 ← st4.writeEndIsFree blockEndMarker false
  pure (some (cur + sizeofBeginMarker), st5)

/-- Second branch of the loop body of `alloc` (lines 66-90): the candidate block
is shrunk and a used block is carved from its tail. -/
def splitBlock (st : SimpleAllocator) (cur size : Nat) :
    Option (Option Nat × SimpleAllocator) := do
  let m ← st.loadBegin cur
  let newSize := subSize (subSize (subSize m.blockSize size) sizeofBeginMarker) sizeofEndMarker
  let st1 ← st.writeBlockSize cur newSize
  let newEndMarker := cur + sizeofBeginMarker + newSize
  let st2 ← st1.writeEndIsFree newEndMarker true
  let st3 ← st2.writeEndBlockSize newEndMarker newSize
  let newBeginMarker := newEndMarker + sizeofEndMarker
  let st4 ← st3.writeIsFree newBeginMarker false
  let st5 ← st4.writeNext newBeginMarker none
  let st6 ← st5.writePrev newBeginMarker none
  let st7 ← st6.writeBlockSize newBeginMarker size
  let endMarker := newBeginMarker + sizeofBeginMarker + size
  let st8 ← st7.writeEndIsFree endMarker false
  let st9 ← st8.writeEndBlockSize endMarker size
  pure (some (newBeginMarker + sizeofBeginMarker), st9)

/-- The `while` loop of `alloc` (lines 45-93) with an iteration budget. -/
def allocLoop : Nat → SimpleAllocator → Option Nat → Nat →
    Option (Option Nat × SimpleAllocator)
  | 0, _, _, _ => none
  | _ + 1, st, none, _ => some (none, st)
  | fuel + 1, st, some cur, size => do
    let m ← st.loadBegin cur
    if m.blockSize = size
        ∨ m.blockSize = addSize (addSize size sizeofBeginMarker) sizeofEndMarker then
      st.takeWholeBlock cur
    else if addSize (addSize size sizeofBeginMarker) sizeofEndMarker < m.blockSize then
      st.splitBlock cur size
    else
      allocLoop fuel st m.nextFreeBlock size

/-- The method `alloc` (lines 36-96).  The result is `none` when the call has
no defined result, otherwise the returned pointer (`none` for `nullptr`) and
the state after the call.  A walk over pairwise distinct markers inside the
arena visits at most `totalMemorySize` of them, so the budget
`totalMemorySize + 1` is only exhausted by a walk that revisits a marker. -/
def alloc (st : SimpleAllocator) (size : Nat) : Option (Option Nat × SimpleAllocator) :=
  if size = 0 then some (none, st)
  else allocLoop (st.totalMemorySize + 1) st st.head size

/-- Backward coalescing step of `free` (lines 114-139); returns the state and
the new value of `currentBlockPointer`. -/
def coalesceBackward (st : SimpleAllocator) (currentBlockPointer : Nat) :
    Option (SimpleAllocator × Nat) :=
  if st.hasPreviousMemoryBlock currentBlockPointer then do
    let (blockBeginMarker, blockEndMarker) ← st.getMemoryBlockBounds currentBlockPointer
    let prevBlockEndMarker := blockBeginMarker - sizeofEndMarker
    let pe ← st.loadEnd prevBlockEndMarker
    if pe.isFree then do
      let prevBlockBeginMarker ← st.getBeginMarker prevBlockEndMarker
      let st1 ← st.removeFreeMemoryBlock prevBlockBeginMarker
      let st2 ← st1.writeIsFree prevBlockBeginMarker false
      let pb ← st2.loadBegin prevBlockBeginMarker
      let b ← st2.loadBegin blockBeginMarker
      let st3 ← st2.writeBlockSize prevBlockBeginMarker
        (addSize pb.blockSize (addSize (addSize b.blockSize sizeofBeginMarker) sizeofEndMarker))
      let pb3 ← st3.loadBegin prevBlockBeginMarker
      let st4 ← st3.writeEndBlockSize blockEndMarker pb3.blockSize
      pure (st4, prevBlockBeginMarker + sizeofBeginMarker)
    else pure (st, currentBlockPointer)
  else pure (st, currentBlockPointer)

/-- Forward coalescing step of `free` (lines 141-164). -/
def coalesceForward (st : SimpleAllocator) (currentBlockPointer : Nat) :
    Option SimpleAllocator := do
  if (← st.hasNextMemoryBlock currentBlockPointer) then
    let blockBeginMarker := currentBlockPointer - sizeofBeginMarker
    let b ← st.loadBegin blockBeginMarker
    let nextBlockPointer :=
      currentBlockPointer + b.blockSize + sizeofEndMarker + sizeofBeginMarker
    let (nextBlockBeginMarker, nextBlockEndMarker) ← st.getMemoryBlockBounds nextBlockPointer
    let nb ← st.loadBegin nextBlockBeginMarker
    if nb.isFree then
      let st1 ← st.removeFreeMemoryBlock nextBlockBeginMarker
      let b1 ← st1.loadBegin blockBeginMarker
      let nb1 ← st1.loadBegin nextBlockBeginMarker
      let st2 ← st1.writeBlockSize blockBeginMarker
        (addSize b1.blockSize (addSize (addSize nb1.blockSize sizeofBeginMarker) sizeofEndMarker))
      let b2 ← st2.loadBegin blockBeginMarker
      let st3 ← st2.writeEndBlockSize nextBlockEndMarker b2.blockSize
      st3.writeEndIsFree nextBlockEndMarker false
    else pure st
  else pure st

/-- Final step of `free` (lines 166-174): mark the block free and push it on
the free list. -/
def markFreeAndInsert (st : SimpleAllocator) (currentBlockPointer : Nat) :
    Option SimpleAllocator := do
  let (blockBeginMarker, blockEndMarker) ← st.getMemoryBlockBounds currentBlockPointer
  let st1 ← st.writeIsFree blockBeginMarker true
  let st2 ← st1.writeEndIsFree blockEndMarker true
  st2.addFreeMemoryBlock blockBeginMarker

/-- The method `free` (lines 99-175). -/
def free (st : SimpleAllocator) (ptr : Nat) : Option SimpleAllocator := do
  let blockBeginMarker ← st.loadBegin (ptr - sizeofBeginMarker)
  if blockBeginMarker.isFree then
    pure st
  else
    let (st1, currentBlockPointer) ← st.coalesceBackward ptr
    let st2 ← st1.coalesceForward currentBlockPointer
    st2.markFreeAndInsert currentBlockPointer

/-! ## Specification side: the block tiling and the free list -/

/-- Number of arena bytes occupied by a run of blocks, each given by its payload
size and free flag: payload plus one begin tag and one end tag per block. -/
def span : List (Nat × Bool) → Nat
  | [] => 0
  | b :: r => b.1 + 48 + span r

/-- The blocks of a run laid out from address `a`: address of the begin tag,
payload size, free flag. -/
def blocksFrom : Nat → List (Nat × Bool) → List (Nat × Nat × Bool)
  | _, [] => []
  | a, b :: r => (a, b.1, b.2) :: blocksFrom (a + b.1 + 48) r

/-- The tags stored in the arena describe the block `t`: the begin tag records
its size and flag, the end tag mirrors both, and a used block has no list
links. -/
def TagOK (st : SimpleAllocator) (t : Nat × Nat × Bool) : Prop :=
  (st.beginAt t.1).blockSize = t.2.1 ∧ (st.beginAt t.1).isFree = t.2.2 ∧
  st.endAt (t.1 + 32 + t.2.1) = ⟨t.2.1, t.2.2⟩ ∧
  (t.2.2 = false →
    (st.beginAt t.1).nextFreeBlock = none ∧ (st.beginAt t.1).prevFreeBlock = none)

/-- The markers `l`, in this order, form a doubly linked chain that is entered
through the pointer `cur` and whose first member points back to `prev`. -/
def DLL (B : Nat → BeginMarker) : Option Nat → Option Nat → List Nat → Prop
  | _, cur, [] => cur = none
  | prev, cur, a :: r =>
    cur = some a ∧ (B a).prevFreeBlock = prev ∧ DLL B (some a) (B a).nextFreeBlock r

/-- The representation invariant: the blocks `bs` tile the arena in address
order and `fl` is the free list in list order. -/
structure Inv (st : SimpleAllocator) (bs : List (Nat × Bool)) (fl : List Nat) : Prop where
  total_lt : st.totalMemorySize < 18446744073709551616
  span_eq : span bs = st.totalMemorySize
  tags : ∀ t ∈ blocksFrom st.memoryBegin bs, TagOK st t
  dll : DLL st.beginAt none st.head fl
  nodup : fl.Nodup
  mem_fl : ∀ x, x ∈ fl ↔ ∃ s, (x, s, true) ∈ blocksFrom st.memoryBegin bs

/-- The live allocations match the used blocks of the tiling `bl`: `live` lists
every pointer handed out and not yet released together with the size that was
requested.  Distinct entries have distinct pointers, every entry points at the
payload of a used block that is large enough, and every used block has an
entry. -/
def LiveOK (bl : List (Nat × Nat × Bool)) (live : List (Nat × Nat)) : Prop :=
  (live.map Prod.fst).Nodup
  ∧ (∀ p n, (p, n) ∈ live → 32 ≤ p ∧ ∃ s, (p - 32, s, false) ∈ bl ∧ n ≤ s)
  ∧ (∀ a s, (a, s, false) ∈ bl → ∃ n, (a + 32, n) ∈ live)

/-- States reached from construction by in-contract calls, together with the
live allocations: the arena holds at least one tag pair, every request size
`n` has `n + tagOverhead` representable in `size_t`, and only live pointers
are released. -/
inductive Reach : SimpleAllocator → List (Nat × Nat) → Prop
  | init (beginAt0 : Nat → BeginMarker) (endAt0 : Nat → EndMarker) (memoryBuffer size : Nat)
      (st : SimpleAllocator) :
      48 ≤ size → size < 18446744073709551616 →
      SimpleAllocator.new beginAt0 endAt0 memoryBuffer size = some st → Reach st []
  | allocSome (st st2 : SimpleAllocator) (live : List (Nat × Nat)) (n p : Nat) :
      Reach st live → n + 48 < 18446744073709551616 →
      st.alloc n = some (some p, st2) → Reach st2 ((p, n) :: live)
  | allocNone (st st2 : SimpleAllocator) (live : List (Nat × Nat)) (n : Nat) :
      Reach st live → n + 48 < 18446744073709551616 →
      st.alloc n = some (none, st2) → Reach st2 live
  | release (st st2 : SimpleAllocator) (live : List (Nat × Nat)) (p n : Nat) :
      Reach st live → (p, n) ∈ live →
      st.free p = some st2 → Reach st2 (live.erase (p, n))

/-- Walk over the arena from address `a`, stepping from each begin tag to the
next by the recorded block size; the result lists address, recorded size and
recorded flag of the blocks visited.  The walk succeeds only if it ends exactly
at the arena end. -/
def walkFrom : Nat → SimpleAllocator → Nat → Option (List (Nat × Nat × Bool))
  | 0, _, _ => none
  | fuel + 1, st, a =>
    if a = st.memoryBegin + st.totalMemorySize then some []
    else
      match st.loadBegin a with
      | none => none
      | some m =>
        (walkFrom fuel st (a + sizeofBeginMarker + m.blockSize + sizeofEndMarker)).map
          (fun l => (a, m.blockSize, m.isFree) :: l)

/-- The tiling of the arena as found by walking it from its first byte. -/
def tiling (st : SimpleAllocator) : Option (List (Nat × Nat × Bool)) :=
  walkFrom (st.totalMemorySize + 1) st st.memoryBegin

/-- Walk along `nextFreeBlock` pointers starting from `cur`. -/
def chainFrom : Nat → SimpleAllocator → Option Nat → Option (List Nat)
  | 0, _, _ => none
  | _ + 1, _, none => some []
  | fuel + 1, st, some a =>
    match st.loadBegin a with
    | none => none
    | some m => (chainFrom fuel st m.nextFreeBlock).map (fun l => a :: l)

/-- The free list as found by walking it from `head`. -/
def freeList (st : SimpleAllocator) : Option (List Nat) :=
  chainFrom (st.totalMemorySize + 1) st st.head

/-- A buffer filled with zero bytes, viewed as begin markers. -/
def zeroBegin : Nat → BeginMarker := fun _ => ⟨0, false, none, none⟩

/-- A buffer filled with zero bytes, viewed as end markers. -/
def zeroEnd : Nat → EndMarker := fun _ => ⟨0, false⟩

/-- The combined size of one begin tag and one end tag. -/
def tagOverhead : Nat := sizeofBeginMarker + sizeofEndMarker

/-- Example: an allocator constructed over a zeroed 200-byte buffer at address
4096. -/
def exampleFresh : SimpleAllocator :=
  (SimpleAllocator.new zeroBegin zeroEnd 4096 200).getD (attach zeroBegin zeroEnd 4096 200)

/-- Example: the state of `exampleFresh` after `alloc(10)`. -/
def exampleOne : SimpleAllocator := ((exampleFresh.alloc 10).map Prod.snd).getD exampleFresh

/-- Example: the state of `exampleOne` after `alloc(20)`. -/
def exampleTwo : SimpleAllocator := ((exampleOne.alloc 20).map Prod.snd).getD exampleOne

/-- Example: the state of `exampleTwo` after `alloc(26)`. -/
def exampleThree : SimpleAllocator := ((exampleTwo.alloc 26).map Prod.snd).getD exampleTwo

/-- Example: the state of `exampleTwo` after `free(4202)`, the release of the
20-byte block, which is merged into its free predecessor. -/
def exampleMerged : SimpleAllocator := (exampleTwo.free 4202).getD exampleTwo

/-- Example: the state of `exampleMerged` after `free(4270)`, the release of the
last live pointer. -/
def exampleDrained : SimpleAllocator := (exampleMerged.free 4270).getD exampleMerged

/-! ## Elementary facts about the memory primitives -/

theorem updBegin_beginAt (st : SimpleAllocator) (a : Nat) (f : BeginMarker → BeginMarker)
    (x : Nat) :
    (st.updBegin a f).beginAt x = if x = a then f (st.beginAt a) else st.beginAt x := rfl

theorem updEnd_endAt (st : SimpleAllocator) (a : Nat) (f : EndMarker → EndMarker)
    (x : Nat) :
    (st.updEnd a f).endAt x = if x = a then f (st.endAt a) else st.endAt x := rfl

@[simp] theorem setHead_head (st : SimpleAllocator) (h : Option Nat) :
    (st.setHead h).head = h := rfl
@[simp] theorem setHead_memoryBegin (st : SimpleAllocator) (h : Option Nat) :
    (st.setHead h).memoryBegin = st.memoryBegin := rfl
@[simp] theorem setHead_totalMemorySize (st : SimpleAllocator) (h : Option Nat) :
    (st.setHead h).totalMemorySize = st.totalMemorySize := rfl
@[simp] theorem setHead_beginAt (st : SimpleAllocator) (h : Option Nat) :
    (st.setHead h).beginAt = st.beginAt := rfl
@[simp] theorem setHead_endAt (st : SimpleAllocator) (h : Option Nat) :
    (st.setHead h).endAt = st.endAt := rfl

@[simp] theorem setBlockSize_head (st : SimpleAllocator) (a : Nat) (v : Nat) :
    (st.setBlockSize a v).head = st.head := rfl
@[simp] theorem setBlockSize_memoryBegin (st : SimpleAllocator) (a : Nat) (v : Nat) :
    (st.setBlockSize a v).memoryBegin = st.memoryBegin := rfl
@[simp] theorem setBlockSize_totalMemorySize (st : SimpleAllocator) (a : Nat) (v : Nat) :
    (st.setBlockSize a v).totalMemorySize = st.totalMemorySize := rfl
@[simp] theorem setBlockSize_endAt (st : SimpleAllocator) (a : Nat) (v : Nat) :
    (st.setBlockSize a v).endAt = st.endAt := rfl
@[simp] theorem setBlockSize_blockSize (st : SimpleAllocator) (a : Nat) (v : Nat) (x : Nat) :
    ((st.setBlockSize a v).beginAt x).blockSize = if x = a then v else (st.beginAt x).blockSize := by
  simp only [setBlockSize, updBegin_beginAt]
  by_cases h : x = a
  · subst h; simp
  · simp [h]
@[simp] theorem setBlockSize_isFree (st : SimpleAllocator) (a : Nat) (v : Nat) (x : Nat) :
    ((st.setBlockSize a v).beginAt x).isFree = (st.beginAt x).isFree := by
  simp only [setBlockSize, updBegin_beginAt]
  by_cases h : x = a
  · subst h; simp
  · simp [h]
@[simp] theorem setBlockSize_nextFreeBlock (st : SimpleAllocator) (a : Nat) (v : Nat) (x : Nat) :
    ((st.setBlockSize a v).beginAt x).nextFreeBlock = (st.beginAt x).nextFreeBlock := by
  simp only [setBlockSize, updBegin_beginAt]
  by_cases h : x = a
  · subst h; simp
  · simp [h]
@[simp] theorem setBlockSize_prevFreeBlock (st : SimpleAllocator) (a : Nat) (v : Nat) (x : Nat) :
    ((st.setBlockSize a v).beginAt x).prevFreeBlock = (st.beginAt x).prevFreeBlock := by
  simp only [setBlockSize, updBegin_beginAt]
  by_cases h : x = a
  · subst h; simp
  · simp [h]
theorem setBlockSize_beginAt_ne (st : SimpleAllocator) (a : Nat) (v : Nat) (x : Nat) (h : x ≠ a) :
    (st.setBlockSize a v).beginAt x = st.beginAt x := by
  simp [setBlockSize, updBegin_beginAt, h]

@[simp] theorem setIsFree_head (st : SimpleAllocator) (a : Nat) (v : Bool) :
    (st.setIsFree a v).head = st.head := rfl
@[simp] theorem setIsFree_memoryBegin (st : SimpleAllocator) (a : Nat) (v : Bool) :
    (st.setIsFree a v).memoryBegin = st.memoryBegin := rfl
@[simp] theorem setIsFree_totalMemorySize (st : SimpleAllocator) (a : Nat) (v : Bool) :
    (st.setIsFree a v).totalMemorySize = st.totalMemorySize := rfl
@[simp] theorem setIsFree_endAt (st : SimpleAllocator) (a : Nat) (v : Bool) :
    (st.setIsFree a v).endAt = st.endAt := rfl
@[simp] theorem setIsFree_blockSize (st : SimpleAllocator) (a : Nat) (v : Bool) (x : Nat) :
    ((st.setIsFree a v).beginAt x).blockSize = (st.beginAt x).blockSize := by
  simp only [setIsFree, updBegin_beginAt]
  by_cases h : x = a
  · subst h; simp
  · simp [h]
@[simp] theorem setIsFree_isFree (st : SimpleAllocator) (a : Nat) (v : Bool) (x : Nat) :
    ((st.setIsFree a v).beginAt x).isFree = if x = a then v else (st.beginAt x).isFree := by
  simp only [setIsFree, updBegin_beginAt]
  by_cases h : x = a
  · subst h; simp
  · simp [h]
@[simp] theorem setIsFree_nextFreeBlock (st : SimpleAllocator) (a : Nat) (v : Bool) (x : Nat) :
    ((st.setIsFree a v).beginAt x).nextFreeBlock = (st.beginAt x).nextFreeBlock := by
  simp only [setIsFree, updBegin_beginAt]
  by_cases h : x = a
  · subst h; simp
  · simp [h]
@[simp] theorem setIsFree_prevFreeBlock (st : SimpleAllocator) (a : Nat) (v : Bool) (x : Nat) :
    ((st.setIsFree a v).beginAt x).prevFreeBlock = (st.beginAt x).prevFreeBlock := by
  simp only [setIsFree, updBegin_beginAt]
  by_cases h : x = a
  · subst h; simp
  · simp [h]
theorem setIsFree_beginAt_ne (st : SimpleAllocator) (a : Nat) (v : Bool) (x : Nat) (h : x ≠ a) :
    (st.setIsFree a v).beginAt x = st.beginAt x := by
  simp [setIsFree, updBegin_beginAt, h]

@[simp] theorem setNext_head (st : SimpleAllocator) (a : Nat) (v : Option Nat) :
    (st.setNext a v).head = st.head := rfl
@[simp] theorem setNext_memoryBegin (st : SimpleAllocator) (a : Nat) (v : Option Nat) :
    (st.setNext a v).memoryBegin = st.memoryBegin := rfl
@[simp] theorem setNext_totalMemorySize (st : SimpleAllocator) (a : Nat) (v : Option Nat) :
    (st.setNext a v).totalMemorySize = st.totalMemorySize := rfl
@[simp] theorem setNext_endAt (st : SimpleAllocator) (a : Nat) (v : Option Nat) :
    (st.setNext a v).endAt = st.endAt := rfl
@[simp] theorem setNext_blockSize (st : SimpleAllocator) (a : Nat) (v : Option Nat) (x : Nat) :
    ((st.setNext a v).beginAt x).blockSize = (st.beginAt x).blockSize := by
  simp only [setNext, updBegin_beginAt]
  by_cases h : x = a
  · subst h; simp
  · simp [h]
@[simp] theorem setNext_isFree (st : SimpleAllocator) (a : Nat) (v : Option Nat) (x : Nat) :
    ((st.setNext a v).beginAt x).isFree = (st.beginAt x).isFree := by
  simp only [setNext, updBegin_beginAt]
  by_cases h : x = a
  · subst h; simp
  · simp [h]
@[simp] theorem setNext_nextFreeBlock (st : SimpleAllocator) (a : Nat) (v : Option Nat) (x : Nat) :
    ((st.setNext a v).beginAt x).nextFreeBlock = if x = a then v else (st.beginAt x).nextFreeBlock := by
  simp only [setNext, updBegin_beginAt]
  by_cases h : x = a
  · subst h; simp
  · simp [h]
@[simp] theorem setNext_prevFreeBlock (st : SimpleAllocator) (a : Nat) (v : Option Nat) (x : Nat) :
    ((st.setNext a v).beginAt x).prevFreeBlock = (st.beginAt x).prevFreeBlock := by
  simp only [setNext, updBegin_beginAt]
  by_cases h : x = a
  · subst h; simp
  · simp [h]
theorem setNext_beginAt_ne (st : SimpleAllocator) (a : Nat) (v : Option Nat) (x : Nat) (h : x ≠ a) :
    (st.setNext a v).beginAt x = st.beginAt x := by
  simp [setNext, updBegin_beginAt, h]

@[simp] theorem setPrev_head (st : SimpleAllocator) (a : Nat) (v : Option Nat) :
    (st.setPrev a v).head = st.head := rfl
@[simp] theorem setPrev_memoryBegin (st : SimpleAllocator) (a : Nat) (v : Option Nat) :
    (st.setPrev a v).memoryBegin = st.memoryBegin := rfl
@[simp] theorem setPrev_totalMemorySize (st : SimpleAllocator) (a : Nat) (v : Option Nat) :
    (st.setPrev a v).totalMemorySize = st.totalMemorySize := rfl
@[simp] theorem setPrev_endAt (st : SimpleAllocator) (a : Nat) (v : Option Nat) :
    (st.setPrev a v).endAt = st.endAt := rfl
@[simp] theorem setPrev_blockSize (st : SimpleAllocator) (a : Nat) (v : Option Nat) (x : Nat) :
    ((st.setPrev a v).beginAt x).blockSize = (st.beginAt x).blockSize := by
  simp only [setPrev, updBegin_beginAt]
  by_cases h : x = a
  · subst h; simp
  · simp [h]
@[simp] theorem setPrev_isFree (st : SimpleAllocator) (a : Nat) (v : Option Nat) (x : Nat) :
    ((st.setPrev a v).beginAt x).isFree = (st.beginAt x).isFree := by
  simp only [setPrev, updBegin_beginAt]
  by_cases h : x = a
  · subst h; simp
  · simp [h]
@[simp] theorem setPrev_nextFreeBlock (st : SimpleAllocator) (a : Nat) (v : Option Nat) (x : Nat) :
    ((st.setPrev a v).beginAt x).nextFreeBlock = (st.beginAt x).nextFreeBlock := by
  simp only [setPrev, updBegin_beginAt]
  by_cases h : x = a
  · subst h; simp
  · simp [h]
@[simp] theorem setPrev_prevFreeBlock (st : SimpleAllocator) (a : Nat) (v : Option Nat) (x : Nat) :
    ((st.setPrev a v).beginAt x).prevFreeBlock = if x = a then v else (st.beginAt x).prevFreeBlock := by
  simp only [setPrev, updBegin_beginAt]
  by_cases h : x = a
  · subst h; simp
  · simp [h]
theorem setPrev_beginAt_ne (st : SimpleAllocator) (a : Nat) (v : Option Nat) (x : Nat) (h : x ≠ a) :
    (st.setPrev a v).beginAt x = st.beginAt x := by
  simp [setPrev, updBegin_beginAt, h]

@[simp] theorem setEndBlockSize_head (st : SimpleAllocator) (a : Nat) (v : Nat) :
    (st.setEndBlockSize a v).head = st.head := rfl
@[simp] theorem setEndBlockSize_memoryBegin (st : SimpleAllocator) (a : Nat) (v : Nat) :
    (st.setEndBlockSize a v).memoryBegin = st.memoryBegin := rfl
@[simp] theorem setEndBlockSize_totalMemorySize (st : SimpleAllocator) (a : Nat) (v : Nat) :
    (st.setEndBlockSize a v).totalMemorySize = st.totalMemorySize := rfl
@[simp] theorem setEndBlockSize_beginAt (st : SimpleAllocator) (a : Nat) (v : Nat) :
    (st.setEndBlockSize a v).beginAt = st.beginAt := rfl
@[simp] theorem setEndBlockSize_blockSize (st : SimpleAllocator) (a : Nat) (v : Nat) (x : Nat) :
    ((st.setEndBlockSize a v).endAt x).blockSize = if x = a then v else (st.endAt x).blockSize := by
  simp only [setEndBlockSize, updEnd_endAt]
  by_cases h : x = a
  · subst h; simp
  · simp [h]
@[simp] theorem setEndBlockSize_isFree (st : SimpleAllocator) (a : Nat) (v : Nat) (x : Nat) :
    ((st.setEndBlockSize a v).endAt x).isFree = (st.endAt x).isFree := by
  simp only [setEndBlockSize, updEnd_endAt]
  by_cases h : x = a
  · subst h; simp
  · simp [h]
theorem setEndBlockSize_endAt_ne (st : SimpleAllocator) (a : Nat) (v : Nat) (x : Nat) (h : x ≠ a) :
    (st.setEndBlockSize a v).endAt x = st.endAt x := by
  simp [setEndBlockSize, updEnd_endAt, h]

@[simp] theorem setEndIsFree_head (st : SimpleAllocator) (a : Nat) (v : Bool) :
    (st.setEndIsFree a v).head = st.head := rfl
@[simp] theorem setEndIsFree_memoryBegin (st : SimpleAllocator) (a : Nat) (v : Bool) :
    (st.setEndIsFree a v).memoryBegin = st.memoryBegin := rfl
@[simp] theorem setEndIsFree_totalMemorySize (st : SimpleAllocator) (a : Nat) (v : Bool) :
    (st.setEndIsFree a v).totalMemorySize = st.totalMemorySize := rfl
@[simp] theorem setEndIsFree_beginAt (st : SimpleAllocator) (a : Nat) (v : Bool) :
    (st.setEndIsFree a v).beginAt = st.beginAt := rfl
@[simp] theorem setEndIsFree_blockSize (st : SimpleAllocator) (a : Nat) (v : Bool) (x : Nat) :
    ((st.setEndIsFree a v).endAt x).blockSize = (st.endAt x).blockSize := by
  simp only [setEndIsFree, updEnd_endAt]
  by_cases h : x = a
  · subst h; simp
  · simp [h]
@[simp] theorem setEndIsFree_isFree (st : SimpleAllocator) (a : Nat) (v : Bool) (x : Nat) :
    ((st.setEndIsFree a v).endAt x).isFree = if x = a then v else (st.endAt x).isFree := by
  simp only [setEndIsFree, updEnd_endAt]
  by_cases h : x = a
  · subst h; simp
  · simp [h]
theorem setEndIsFree_endAt_ne (st : SimpleAllocator) (a : Nat) (v : Bool) (x : Nat) (h : x ≠ a) :
    (st.setEndIsFree a v).endAt x = st.endAt x := by
  simp [setEndIsFree, updEnd_endAt, h]

@[simp] theorem setNextOpt_head (st : SimpleAllocator) (p v : Option Nat) :
    (st.setNextOpt p v).head = st.head := by
  cases p <;> rfl
@[simp] theorem setNextOpt_memoryBegin (st : SimpleAllocator) (p v : Option Nat) :
    (st.setNextOpt p v).memoryBegin = st.memoryBegin := by
  cases p <;> rfl
@[simp] theorem setNextOpt_totalMemorySize (st : SimpleAllocator) (p v : Option Nat) :
    (st.setNextOpt p v).totalMemorySize = st.totalMemorySize := by
  cases p <;> rfl
@[simp] theorem setNextOpt_endAt (st : SimpleAllocator) (p v : Option Nat) :
    (st.setNextOpt p v).endAt = st.endAt := by
  cases p <;> rfl
@[simp] theorem setNextOpt_blockSize (st : SimpleAllocator) (p v : Option Nat) (x : Nat) :
    ((st.setNextOpt p v).beginAt x).blockSize = (st.beginAt x).blockSize := by
  cases p with
  | none => simp [setNextOpt]
  | some a => simp [setNextOpt]
@[simp] theorem setNextOpt_isFree (st : SimpleAllocator) (p v : Option Nat) (x : Nat) :
    ((st.setNextOpt p v).beginAt x).isFree = (st.beginAt x).isFree := by
  cases p with
  | none => simp [setNextOpt]
  | some a => simp [setNextOpt]
@[simp] theorem setNextOpt_nextFreeBlock (st : SimpleAllocator) (p v : Option Nat) (x : Nat) :
    ((st.setNextOpt p v).beginAt x).nextFreeBlock = if p = some x then v else (st.beginAt x).nextFreeBlock := by
  cases p with
  | none => simp [setNextOpt]
  | some a =>
    simp only [setNextOpt, setNext_nextFreeBlock, Option.some.injEq]
    by_cases h : x = a
    · subst h; simp
    · simp [h, Ne.symm h]
@[simp] theorem setNextOpt_prevFreeBlock (st : SimpleAllocator) (p v : Option Nat) (x : Nat) :
    ((st.setNextOpt p v).beginAt x).prevFreeBlock = (st.beginAt x).prevFreeBlock := by
  cases p with
  | none => simp [setNextOpt]
  | some a => simp [setNextOpt]
theorem setNextOpt_beginAt_ne (st : SimpleAllocator) (p v : Option Nat) (x : Nat)
    (h : p ≠ some x) : (st.setNextOpt p v).beginAt x = st.beginAt x := by
  cases p with
  | none => rfl
  | some a =>
    have : x ≠ a := by rintro rfl; exact h rfl
    simp [setNextOpt, setNext_beginAt_ne, this]

@[simp] theorem setPrevOpt_head (st : SimpleAllocator) (p v : Option Nat) :
    (st.setPrevOpt p v).head = st.head := by
  cases p <;> rfl
@[simp] theorem setPrevOpt_memoryBegin (st : SimpleAllocator) (p v : Option Nat) :
    (st.setPrevOpt p v).memoryBegin = st.memoryBegin := by
  cases p <;> rfl
@[simp] theorem setPrevOpt_totalMemorySize (st : SimpleAllocator) (p v : Option Nat) :
    (st.setPrevOpt p v).totalMemorySize = st.totalMemorySize := by
  cases p <;> rfl
@[simp] theorem setPrevOpt_endAt (st : SimpleAllocator) (p v : Option Nat) :
    (st.setPrevOpt p v).endAt = st.endAt := by
  cases p <;> rfl
@[simp] theorem setPrevOpt_blockSize (st : SimpleAllocator) (p v : Option Nat) (x : Nat) :
    ((st.setPrevOpt p v).beginAt x).blockSize = (st.beginAt x).blockSize := by
  cases p with
  | none => simp [setPrevOpt]
  | some a => simp [setPrevOpt]
@[simp] theorem setPrevOpt_isFree (st : SimpleAllocator) (p v : Option Nat) (x : Nat) :
    ((st.setPrevOpt p v).beginAt x).isFree = (st.beginAt x).isFree := by
  cases p with
  | none => simp [setPrevOpt]
  | some a => simp [setPrevOpt]
@[simp] theorem setPrevOpt_nextFreeBlock (st : SimpleAllocator) (p v : Option Nat) (x : Nat) :
    ((st.setPrevOpt p v).beginAt x).nextFreeBlock = (st.beginAt x).nextFreeBlock := by
  cases p with
  | none => simp [setPrevOpt]
  | some a => simp [setPrevOpt]
@[simp] theorem setPrevOpt_prevFreeBlock (st : SimpleAllocator) (p v : Option Nat) (x : Nat) :
    ((st.setPrevOpt p v).beginAt x).prevFreeBlock = if p = some x then v else (st.beginAt x).prevFreeBlock := by
  cases p with
  | none => simp [setPrevOpt]
  | some a =>
    simp only [setPrevOpt, setPrev_prevFreeBlock, Option.some.injEq]
    by_cases h : x = a
    · subst h; simp
    · simp [h, Ne.symm h]
theorem setPrevOpt_beginAt_ne (st : SimpleAllocator) (p v : Option Nat) (x : Nat)
    (h : p ≠ some x) : (st.setPrevOpt p v).beginAt x = st.beginAt x := by
  cases p with
  | none => rfl
  | some a =>
    have : x ≠ a := by rintro rfl; exact h rfl
    simp [setPrevOpt, setPrev_beginAt_ne, this]

theorem loadBegin_eq (st : SimpleAllocator) (a : Nat)
    (h : st.memoryBegin ≤ a ∧ a + 32 ≤ st.memoryBegin + st.totalMemorySize) :
    st.loadBegin a = some (st.beginAt a) := if_pos h

theorem loadEnd_eq (st : SimpleAllocator) (a : Nat)
    (h : st.memoryBegin ≤ a ∧ a + 16 ≤ st.memoryBegin + st.totalMemorySize) :
    st.loadEnd a = some (st.endAt a) := if_pos h

theorem loadBegin_none (st : SimpleAllocator) (a : Nat)
    (h : ¬ (st.memoryBegin ≤ a ∧ a + 32 ≤ st.memoryBegin + st.totalMemorySize)) :
    st.loadBegin a = none := if_neg h

theorem loadEnd_none (st : SimpleAllocator) (a : Nat)
    (h : ¬ (st.memoryBegin ≤ a ∧ a + 16 ≤ st.memoryBegin + st.totalMemorySize)) :
    st.loadEnd a = none := if_neg h

theorem writeBlockSize_eq (st : SimpleAllocator) (a : Nat) (v : Nat)
    (h : st.memoryBegin ≤ a ∧ a + 32 ≤ st.memoryBegin + st.totalMemorySize) :
    st.writeBlockSize a v = some (st.setBlockSize a v) := if_pos h

theorem writeBlockSize_none (st : SimpleAllocator) (a : Nat) (v : Nat)
    (h : ¬ (st.memoryBegin ≤ a ∧ a + 32 ≤ st.memoryBegin + st.totalMemorySize)) :
    st.writeBlockSize a v = none := if_neg h

theorem writeIsFree_eq (st : SimpleAllocator) (a : Nat) (v : Bool)
    (h : st.memoryBegin ≤ a ∧ a + 32 ≤ st.memoryBegin + st.totalMemorySize) :
    st.writeIsFree a v = some (st.setIsFree a v) := if_pos h

theorem writeIsFree_none (st : SimpleAllocator) (a : Nat) (v : Bool)
    (h : ¬ (st.memoryBegin ≤ a ∧ a + 32 ≤ st.memoryBegin + st.totalMemorySize)) :
    st.writeIsFree a v = none := if_neg h

theorem writeNext_eq (st : SimpleAllocator) (a : Nat) (v : Option Nat)
    (h : st.memoryBegin ≤ a ∧ a + 32 ≤ st.memoryBegin + st.totalMemorySize) :
    st.writeNext a v = some (st.setNext a v) := if_pos h

theorem writeNext_none (st : SimpleAllocator) (a : Nat) (v : Option Nat)
    (h : ¬ (st.memoryBegin ≤ a ∧ a + 32 ≤ st.memoryBegin + st.totalMemorySize)) :
    st.writeNext a v = none := if_neg h

theorem writePrev_eq (st : SimpleAllocator) (a : Nat) (v : Option Nat)
    (h : st.memoryBegin ≤ a ∧ a + 32 ≤ st.memoryBegin + st.totalMemorySize) :
    st.writePrev a v = some (st.setPrev a v) := if_pos h

theorem writePrev_none (st : SimpleAllocator) (a : Nat) (v : Option Nat)
    (h : ¬ (st.memoryBegin ≤ a ∧ a + 32 ≤ st.memoryBegin + st.totalMemorySize)) :
    st.writePrev a v = none := if_neg h

theorem writeEndBlockSize_eq (st : SimpleAllocator) (a : Nat) (v : Nat)
    (h : st.memoryBegin ≤ a ∧ a + 16 ≤ st.memoryBegin + st.totalMemorySize) :
    st.writeEndBlockSize a v = some (st.setEndBlockSize a v) := if_pos h

theorem writeEndBlockSize_none (st : SimpleAllocator) (a : Nat) (v : Nat)
    (h : ¬ (st.memoryBegin ≤ a ∧ a + 16 ≤ st.memoryBegin + st.totalMemorySize)) :
    st.writeEndBlockSize a v = none := if_neg h

theorem writeEndIsFree_eq (st : SimpleAllocator) (a : Nat) (v : Bool)
    (h : st.memoryBegin ≤ a ∧ a + 16 ≤ st.memoryBegin + st.totalMemorySize) :
    st.writeEndIsFree a v = some (st.setEndIsFree a v) := if_pos h

theorem writeEndIsFree_none (st : SimpleAllocator) (a : Nat) (v : Bool)
    (h : ¬ (st.memoryBegin ≤ a ∧ a + 16 ≤ st.memoryBegin + st.totalMemorySize)) :
    st.writeEndIsFree a v = none := if_neg h

theorem writeNextOpt_eq (st : SimpleAllocator) (p v : Option Nat)
    (h : ∀ a, p = some a →
      st.memoryBegin ≤ a ∧ a + 32 ≤ st.memoryBegin + st.totalMemorySize) :
    st.writeNextOpt p v = some (st.setNextOpt p v) := by
  cases p with
  | none => rfl
  | some a => exact writeNext_eq st a v (h a rfl)

theorem writePrevOpt_eq (st : SimpleAllocator) (p v : Option Nat)
    (h : ∀ a, p = some a →
      st.memoryBegin ≤ a ∧ a + 32 ≤ st.memoryBegin + st.totalMemorySize) :
    st.writePrevOpt p v = some (st.setPrevOpt p v) := by
  cases p with
  | none => rfl
  | some a => exact writePrev_eq st a v (h a rfl)

/-! ## The layout of a run of blocks -/

theorem span_append (l1 l2 : List (Nat × Bool)) : span (l1 ++ l2) = span l1 + span l2 := by
  induction l1 with
  | nil => simp [span]
  | cons b r ih => simp [span, ih]; omega

theorem blocksFrom_append (a : Nat) (l1 l2 : List (Nat × Bool)) :
    blocksFrom a (l1 ++ l2) = blocksFrom a l1 ++ blocksFrom (a + span l1) l2 := by
  induction l1 generalizing a with
  | nil => simp [blocksFrom, span]
  | cons b r ih =>
    show (a, b.1, b.2) :: blocksFrom (a + b.1 + 48) (r ++ l2) = _
    rw [ih]
    have : a + b.1 + 48 + span r = a + (b.1 + 48 + span r) := by omega
    simp only [blocksFrom, span, List.cons_append, this]

theorem mem_blocksFrom_bounds {a : Nat} {l : List (Nat × Bool)} {t : Nat × Nat × Bool}
    (h : t ∈ blocksFrom a l) : a ≤ t.1 ∧ t.1 + t.2.1 + 48 ≤ a + span l := by
  induction l generalizing a with
  | nil => simp [blocksFrom] at h
  | cons b r ih =>
    simp only [blocksFrom, List.mem_cons] at h
    rcases h with rfl | h
    · simp only [span]; omega
    · have := ih h
      simp only [span]; omega

theorem mem_blocksFrom_split {a : Nat} {l : List (Nat × Bool)} {t : Nat × Nat × Bool}
    (h : t ∈ blocksFrom a l) :
    ∃ pre post, l = pre ++ t.2 :: post ∧ t.1 = a + span pre := by
  induction l generalizing a with
  | nil => simp [blocksFrom] at h
  | cons b r ih =>
    simp only [blocksFrom, List.mem_cons] at h
    rcases h with rfl | h
    · exact ⟨[], r, by simp, by simp [span]⟩
    · obtain ⟨pre, post, h1, h2⟩ := ih h
      refine ⟨b :: pre, post, by simp [h1], ?_⟩
      simp only [span]; omega

theorem mem_blocksFrom_mid (a : Nat) (pre post : List (Nat × Bool)) (b : Nat × Bool) :
    (a + span pre, b.1, b.2) ∈ blocksFrom a (pre ++ b :: post) := by
  rw [blocksFrom_append]
  simp [blocksFrom]

/-! ## Doubly linked chains -/

theorem DLL.frame {B B2 : Nat → BeginMarker} {l : List Nat}
    (h : ∀ x ∈ l, (B2 x).nextFreeBlock = (B x).nextFreeBlock
      ∧ (B2 x).prevFreeBlock = (B x).prevFreeBlock) :
    ∀ {p c : Option Nat}, DLL B p c l → DLL B2 p c l := by
  induction l with
  | nil => intro p c hd; exact hd
  | cons a r ih =>
    intro p c hd
    obtain ⟨h1, h2, h3⟩ := hd
    have ha := h a (List.mem_cons_self _ _)
    refine ⟨h1, by rw [ha.2]; exact h2, ?_⟩
    rw [ha.1]
    exact ih (fun x hx => h x (List.mem_cons_of_mem _ hx)) h3

/-- The successor pointer of a chain member is null or points into the chain. -/
theorem DLL.next_mem {B : Nat → BeginMarker} {l : List Nat} :
    ∀ {p c : Option Nat}, DLL B p c l → ∀ x ∈ l,
      (B x).nextFreeBlock = none ∨ ∃ y ∈ l, (B x).nextFreeBlock = some y := by
  induction l with
  | nil => intro p c _ x hx; simp at hx
  | cons a r ih =>
    intro p c hd x hx
    obtain ⟨_, _, h3⟩ := hd
    rcases List.mem_cons.1 hx with rfl | hx
    · cases r with
      | nil => left; exact h3
      | cons b r2 => right; exact ⟨b, by simp, h3.1⟩
    · rcases ih h3 x hx with h | ⟨y, hy, h⟩
      · left; exact h
      · right; exact ⟨y, List.mem_cons_of_mem _ hy, h⟩

/-- The predecessor pointer of a chain member is the entry's back pointer when
the member is first, and points into the chain otherwise. -/
theorem DLL.prev_cases {B : Nat → BeginMarker} {l : List Nat} :
    ∀ {p c : Option Nat}, DLL B p c l → l.Nodup → ∀ x ∈ l,
      (c = some x ∧ (B x).prevFreeBlock = p)
      ∨ (c ≠ some x ∧ ∃ y ∈ l, (B x).prevFreeBlock = some y) := by
  induction l with
  | nil => intro p c _ _ x hx; simp at hx
  | cons a r ih =>
    intro p c hd hn x hx0
    obtain ⟨h1, h2, h3⟩ := hd
    rcases List.mem_cons.1 hx0 with rfl | hx
    · left; exact ⟨h1, h2⟩
    · right
      have hne : x ≠ a := by
        intro e
        rw [e] at hx
        exact (List.nodup_cons.1 hn).1 hx
      refine ⟨by rw [h1]; simpa using fun h => hne h.symm, ?_⟩
      rcases ih h3 (List.nodup_cons.1 hn).2 x hx with ⟨_, h⟩ | ⟨_, y, hy, h⟩
      · exact ⟨a, by simp, h⟩
      · exact ⟨y, List.mem_cons_of_mem _ hy, h⟩

theorem DLL.head_eq {B : Nat → BeginMarker} {l : List Nat} {p c : Option Nat}
    (h : DLL B p c l) : c = l.head? := by
  cases l with
  | nil => exact h
  | cons a r => exact h.1

/-- Unlinking a member: the effect of the pointer updates of
`removeFreeMemoryBlock` on a chain. -/
theorem DLL.erase {B B2 : Nat → BeginMarker} {node : Nat}
    (hp : ∀ x, x ≠ node → (B2 x).prevFreeBlock =
      if some x = (B node).nextFreeBlock then (B node).prevFreeBlock else (B x).prevFreeBlock)
    (hn : ∀ x, x ≠ node → (B2 x).nextFreeBlock =
      if some x = (B node).prevFreeBlock then (B node).nextFreeBlock else (B x).nextFreeBlock)
    {l : List Nat} :
    ∀ {p c : Option Nat}, DLL B p c l → l.Nodup → node ∈ l → (∀ y, p = some y → y ∉ l) →
      DLL B2 p (if c = some node then (B node).nextFreeBlock else c) (l.erase node) := by
  induction l with
  | nil => intro p c _ _ hx; simp at hx
  | cons a r ih =>
    intro p c hd hnd hx hpl
    obtain ⟨h1, h2, h3⟩ := hd
    obtain ⟨har, hnr⟩ := List.nodup_cons.1 hnd
    by_cases ha : a = node
    · subst ha
      rw [if_pos h1, List.erase_cons_head]
      -- the rest of the chain: only its first member changes
      cases r with
      | nil => exact h3
      | cons b r2 =>
        obtain ⟨g1, g2, g3⟩ := h3
        have hba : b ≠ a := by rintro rfl; exact har (by simp)
        have hbp : ¬ some b = (B a).prevFreeBlock := by
          rw [h2]; intro h; exact hpl b h.symm (by simp)
        refine ⟨g1, ?_, ?_⟩
        · rw [hp b hba, if_pos g1.symm, h2]
        · rw [hn b hba, if_neg hbp]
          refine DLL.frame (fun x hx2 => ?_) g3
          have hxa : x ≠ a := by rintro rfl; exact har (by simp [hx2])
          have hxb : x ≠ b := by
            rintro rfl; exact (List.nodup_cons.1 hnr).1 hx2
          have hxn : ¬ some x = (B a).nextFreeBlock := by
            rw [g1]; simpa using hxb
          have hxp : ¬ some x = (B a).prevFreeBlock := by
            rw [h2]; intro h; exact hpl x h.symm (by simp [hx2])
          rw [hp x hxa, hn x hxa, if_neg hxn, if_neg hxp]
          exact ⟨rfl, rfl⟩
    · have hx2 : node ∈ r := by
        rcases List.mem_cons.1 hx with h | h
        · exact absurd h.symm ha
        · exact h
      have hca : ¬ c = some node := by rw [h1]; simpa using ha
      rw [if_neg hca, List.erase_cons_tail (by simpa using ha)]
      have hsucc : ¬ some a = (B node).nextFreeBlock := by
        rcases DLL.next_mem h3 node hx2 with h | ⟨y, hy, h⟩
        · rw [h]; simp
        · rw [h]; intro e; cases e; exact har hy
      refine ⟨h1, ?_, ?_⟩
      · rw [hp a ha, if_neg hsucc]; exact h2
      · have key := ih h3 hnr hx2 (fun y hy => by cases hy; exact har)
        have : (B2 a).nextFreeBlock =
            (if (B a).nextFreeBlock = some node then (B node).nextFreeBlock
              else (B a).nextFreeBlock) := by
          rw [hn a ha]
          rcases DLL.prev_cases h3 hnr node hx2 with ⟨e1, e2⟩ | ⟨e1, y, hy, e2⟩
          · rw [if_pos e2.symm, if_pos e1]
          · rw [if_neg e1, if_neg]
            rw [e2]; intro e; cases e; exact har hy
        rw [this]; exact key

/-- Pushing a marker in front: the effect of the pointer updates of
`addFreeMemoryBlock` on a chain. -/
theorem DLL.push {B B2 : Nat → BeginMarker} {marker : Nat} {l : List Nat} {c : Option Nat}
    (hd : DLL B none c l) (hnd : l.Nodup) (hm : marker ∉ l)
    (h1 : (B2 marker).prevFreeBlock = none) (h2 : (B2 marker).nextFreeBlock = c)
    (hp : ∀ x, x ≠ marker → (B2 x).prevFreeBlock =
      if some x = c then some marker else (B x).prevFreeBlock)
    (hn : ∀ x, x ≠ marker → (B2 x).nextFreeBlock = (B x).nextFreeBlock) :
    DLL B2 none (some marker) (marker :: l) := by
  refine ⟨rfl, h1, ?_⟩
  rw [h2]
  cases l with
  | nil => exact hd
  | cons a r =>
    obtain ⟨g1, g2, g3⟩ := hd
    have ham : a ≠ marker := by rintro rfl; exact hm (by simp)
    refine ⟨g1, by rw [hp a ham, if_pos g1.symm], ?_⟩
    rw [hn a ham]
    refine DLL.frame (fun x hx => ?_) g3
    have hxm : x ≠ marker := by rintro rfl; exact hm (by simp [hx])
    have hxa : ¬ some x = c := by
      rw [g1]; intro e; cases e; exact (List.nodup_cons.1 hnd).1 hx
    rw [hp x hxm, hn x hxm, if_neg hxa]
    exact ⟨rfl, rfl⟩

/-! ## The free-list operations -/

theorem removeFreeMemoryBlock_spec (st : SimpleAllocator) (fl : List Nat) (node : Nat)
    (hv : ∀ x ∈ fl, st.memoryBegin ≤ x ∧ x + 32 ≤ st.memoryBegin + st.totalMemorySize)
    (hd : DLL st.beginAt none st.head fl) (hnd : fl.Nodup) (hx : node ∈ fl) :
    ∃ st2, st.removeFreeMemoryBlock node = some st2
      ∧ st2.memoryBegin = st.memoryBegin ∧ st2.totalMemorySize = st.totalMemorySize
      ∧ st2.endAt = st.endAt
      ∧ (∀ x, (st2.beginAt x).blockSize = (st.beginAt x).blockSize
          ∧ (st2.beginAt x).isFree = (st.beginAt x).isFree)
      ∧ (∀ x, x ∉ fl → st2.beginAt x = st.beginAt x)
      ∧ (st2.beginAt node).nextFreeBlock = none ∧ (st2.beginAt node).prevFreeBlock = none
      ∧ DLL st2.beginAt none st2.head (fl.erase node) := by
  have hvn := hv node hx
  have hprev : ∀ y, (st.beginAt node).prevFreeBlock = some y → y ∈ fl := by
    intro y hy
    rcases DLL.prev_cases hd hnd node hx with ⟨_, e⟩ | ⟨_, z, hz, e⟩
    · rw [e] at hy; cases hy
    · rw [e] at hy; cases hy; exact hz
  have hnext : ∀ y, (st.beginAt node).nextFreeBlock = some y → y ∈ fl := by
    intro y hy
    rcases DLL.next_mem hd node hx with e | ⟨z, hz, e⟩
    · rw [e] at hy; cases hy
    · rw [e] at hy; cases hy; exact hz
  unfold removeFreeMemoryBlock
  rw [loadBegin_eq st node hvn]
  simp only [Option.bind_eq_bind, Option.some_bind]
  generalize hst1 : (if st.head = some node then
    st.setHead (st.beginAt node).nextFreeBlock else st) = st1
  have e1 : st1.beginAt = st.beginAt := by rw [← hst1]; split_ifs <;> rfl
  have e2 : st1.endAt = st.endAt := by rw [← hst1]; split_ifs <;> rfl
  have e3 : st1.memoryBegin = st.memoryBegin := by rw [← hst1]; split_ifs <;> rfl
  have e4 : st1.totalMemorySize = st.totalMemorySize := by rw [← hst1]; split_ifs <;> rfl
  have e5 : st1.head = if st.head = some node then (st.beginAt node).nextFreeBlock
      else st.head := by rw [← hst1]; split_ifs <;> rfl
  have hdl := fun B2 hp hn =>
    @DLL.erase st.beginAt B2 node hp hn _ _ _ hd hnd hx (by simp)
  rw [← e5] at hdl
  clear hst1 e5 hd
  rw [writeNextOpt_eq, Option.some_bind, writePrevOpt_eq, Option.some_bind,
    writeNext_eq, Option.some_bind, writePrev_eq]
  · refine ⟨_, rfl, by simp [e3], by simp [e4], by simp [e2], ?_, ?_, by simp, by simp, ?_⟩
    · intro x; simp [e1]
    · intro x hx2
      have h1 : x ≠ node := by rintro rfl; exact hx2 hx
      have h2 : (st.beginAt node).prevFreeBlock ≠ some x := fun h => hx2 (hprev x h)
      have h3 : (st.beginAt node).nextFreeBlock ≠ some x := fun h => hx2 (hnext x h)
      rw [setPrev_beginAt_ne _ _ _ _ h1, setNext_beginAt_ne _ _ _ _ h1,
        setPrevOpt_beginAt_ne _ _ _ _ h3, setNextOpt_beginAt_ne _ _ _ _ h2, e1]
    · simp only [setPrev_head, setNext_head, setPrevOpt_head, setNextOpt_head]
      apply hdl
      · intro x hx2
        simp only [setPrev_prevFreeBlock, setNext_prevFreeBlock, setPrevOpt_prevFreeBlock,
          setNextOpt_prevFreeBlock, if_neg hx2, e1]
        by_cases h : (st.beginAt node).nextFreeBlock = some x
        · rw [if_pos h, if_pos h.symm]
        · rw [if_neg h, if_neg (fun e => h e.symm)]
      · intro x hx2
        simp only [setPrev_nextFreeBlock, setNext_nextFreeBlock, setPrevOpt_nextFreeBlock,
          setNextOpt_nextFreeBlock, if_neg hx2, e1]
        by_cases h : (st.beginAt node).prevFreeBlock = some x
        · rw [if_pos h, if_pos h.symm]
        · rw [if_neg h, if_neg (fun e => h e.symm)]
  · simpa [e3, e4] using hvn
  · simpa [e3, e4] using hvn
  · intro a ha; simpa [e3, e4] using hv a (hnext a ha)
  · intro a ha; simpa [e3, e4] using hv a (hprev a ha)

theorem addFreeMemoryBlock_spec (st : SimpleAllocator) (fl : List Nat) (marker : Nat)
    (hv : ∀ x ∈ fl, st.memoryBegin ≤ x ∧ x + 32 ≤ st.memoryBegin + st.totalMemorySize)
    (hvm : st.memoryBegin ≤ marker ∧ marker + 32 ≤ st.memoryBegin + st.totalMemorySize)
    (hd : DLL st.beginAt none st.head fl) (hnd : fl.Nodup) (hm : marker ∉ fl)
    (hl : (st.beginAt marker).nextFreeBlock = none ∧ (st.beginAt marker).prevFreeBlock = none) :
    ∃ st2, st.addFreeMemoryBlock marker = some st2
      ∧ st2.memoryBegin = st.memoryBegin ∧ st2.totalMemorySize = st.totalMemorySize
      ∧ st2.endAt = st.endAt
      ∧ (∀ x, (st2.beginAt x).blockSize = (st.beginAt x).blockSize
          ∧ (st2.beginAt x).isFree = (st.beginAt x).isFree)
      ∧ (∀ x, x ∉ fl → x ≠ marker → st2.beginAt x = st.beginAt x)
      ∧ st2.head = some marker
      ∧ DLL st2.beginAt none st2.head (marker :: fl) := by
  unfold addFreeMemoryBlock
  cases hh : st.head with
  | none =>
    refine ⟨_, rfl, rfl, rfl, rfl, fun x => ⟨rfl, rfl⟩, fun x _ _ => rfl, rfl, ?_⟩
    have : fl = [] := by
      cases fl with
      | nil => rfl
      | cons a r => rw [hh] at hd; cases hd.1
    subst this
    exact ⟨rfl, hl.2, hl.1⟩
  | some h =>
    have hfl : h ∈ fl := by
      cases fl with
      | nil => rw [hh] at hd; cases (show some h = none from hd)
      | cons a r =>
        rw [hh] at hd
        have := hd.1
        simp only [Option.some.injEq] at this
        subst this; simp
    have hvh := hv h hfl
    have hhm : h ≠ marker := by rintro rfl; exact hm hfl
    simp only [Option.bind_eq_bind, Option.pure_def]
    rw [writePrev_eq _ _ _ hvh, Option.some_bind, writeNext_eq (st.setPrev h (some marker)) _ _ hvm,
      Option.some_bind,
      writePrev_eq ((st.setPrev h (some marker)).setNext marker (some h)) _ _ hvm,
      Option.some_bind]
    refine ⟨_, rfl, by simp, by simp, by simp, ?_, ?_, rfl, ?_⟩
    · intro x; simp
    · intro x hx1 hx2
      have hxh : x ≠ h := by rintro rfl; exact hx1 hfl
      show ((((st.setPrev h (some marker)).setNext marker (some h)).setPrev marker none).beginAt x)
        = st.beginAt x
      rw [setPrev_beginAt_ne _ _ _ _ hx2, setNext_beginAt_ne _ _ _ _ hx2,
        setPrev_beginAt_ne _ _ _ _ hxh]
    · show DLL (((st.setPrev h (some marker)).setNext marker (some h)).setPrev marker none).beginAt
        none (some marker) (marker :: fl)
      rw [hh] at hd
      refine DLL.push hd hnd hm (by simp) (by simp) ?_ ?_
      · intro x hx
        simp only [setPrev_prevFreeBlock, setNext_prevFreeBlock, if_neg hx, Option.some.injEq]
      · intro x hx
        simp only [setPrev_nextFreeBlock, setNext_nextFreeBlock, if_neg hx]

/-! ## Consequences of the representation invariant -/

theorem Inv.block_bounds {st : SimpleAllocator} {bs : List (Nat × Bool)} {fl : List Nat}
    (h : Inv st bs fl) {t : Nat × Nat × Bool} (ht : t ∈ blocksFrom st.memoryBegin bs) :
    st.memoryBegin ≤ t.1 ∧ t.1 + t.2.1 + 48 ≤ st.memoryBegin + st.totalMemorySize := by
  have := mem_blocksFrom_bounds ht
  rw [h.span_eq] at this
  exact this

theorem Inv.fl_block {st : SimpleAllocator} {bs : List (Nat × Bool)} {fl : List Nat}
    (h : Inv st bs fl) {x : Nat} (hx : x ∈ fl) :
    (x, (st.beginAt x).blockSize, true) ∈ blocksFrom st.memoryBegin bs := by
  obtain ⟨s, hs⟩ := (h.mem_fl x).1 hx
  have := (h.tags _ hs).1
  simp only at this
  rw [this]; exact hs

theorem Inv.fl_valid {st : SimpleAllocator} {bs : List (Nat × Bool)} {fl : List Nat}
    (h : Inv st bs fl) {x : Nat} (hx : x ∈ fl) :
    st.memoryBegin ≤ x ∧ x + 32 ≤ st.memoryBegin + st.totalMemorySize := by
  have := h.block_bounds (h.fl_block hx)
  simp only at this
  omega

theorem Inv.fl_isFree {st : SimpleAllocator} {bs : List (Nat × Bool)} {fl : List Nat}
    (h : Inv st bs fl) {x : Nat} (hx : x ∈ fl) : (st.beginAt x).isFree = true :=
  (h.tags _ (h.fl_block hx)).2.1

/-- A marker whose flag says "used" is not on the free list. -/
theorem Inv.not_mem_fl {st : SimpleAllocator} {bs : List (Nat × Bool)} {fl : List Nat}
    (h : Inv st bs fl) {x : Nat} (hx : (st.beginAt x).isFree = false) : x ∉ fl := by
  intro hm
  rw [h.fl_isFree hm] at hx
  cases hx

/-- Replacing a stretch `mid` of the tiling by a stretch `mid2` of the same
extent: what has to be checked about the new state. -/
theorem Inv.replace {st : SimpleAllocator} {pre mid post : List (Nat × Bool)}
    {fl : List Nat} (mid2 : List (Nat × Bool)) (st2 : SimpleAllocator) (fl2 : List Nat)
    (h : Inv st (pre ++ mid ++ post) fl)
    (hb : st2.memoryBegin = st.memoryBegin) (ht : st2.totalMemorySize = st.totalMemorySize)
    (hspan : span mid2 = span mid)
    (c : Nat) (hc : c = st.memoryBegin + span pre)
    (hB : ∀ x, (x < c ∨ c + span mid ≤ x) →
      (st2.beginAt x).blockSize = (st.beginAt x).blockSize
        ∧ (st2.beginAt x).isFree = (st.beginAt x).isFree)
    (hBu : ∀ x, (x < c ∨ c + span mid ≤ x) → (st.beginAt x).isFree = false →
      st2.beginAt x = st.beginAt x)
    (hE : ∀ y, (y < c ∨ c + span mid ≤ y) → st2.endAt y = st.endAt y)
    (hT : ∀ t ∈ blocksFrom c mid2, TagOK st2 t)
    (hD : DLL st2.beginAt none st2.head fl2) (hN : fl2.Nodup)
    (hM : ∀ x, x ∈ fl2 ↔
      (x ∈ fl ∧ (x < c ∨ c + span mid ≤ x)) ∨ ∃ s, (x, s, true) ∈ blocksFrom c mid2) :
    Inv st2 (pre ++ mid2 ++ post) fl2 := by
  have hold : ∀ t, t ∈ blocksFrom st.memoryBegin (pre ++ mid ++ post) ↔
      t ∈ blocksFrom st.memoryBegin pre ∨ t ∈ blocksFrom c mid
        ∨ t ∈ blocksFrom (c + span mid) post := by
    intro t
    rw [blocksFrom_append, blocksFrom_append, span_append, ← Nat.add_assoc, ← hc]
    simp only [List.mem_append, or_assoc]
  have hnew : ∀ t, t ∈ blocksFrom st2.memoryBegin (pre ++ mid2 ++ post) ↔
      t ∈ blocksFrom st.memoryBegin pre ∨ t ∈ blocksFrom c mid2
        ∨ t ∈ blocksFrom (c + span mid) post := by
    intro t
    rw [blocksFrom_append, blocksFrom_append, span_append, ← Nat.add_assoc, hb, ← hc, hspan]
    simp only [List.mem_append, or_assoc]
  have hkeep : ∀ t, t ∈ blocksFrom st.memoryBegin pre ∨ t ∈ blocksFrom (c + span mid) post →
      t ∈ blocksFrom st.memoryBegin (pre ++ mid ++ post)
        ∧ (t.1 < c ∧ t.1 + 32 + t.2.1 < c ∨ c + span mid ≤ t.1) := by
    intro t ht
    refine ⟨(hold t).2 (by tauto), ?_⟩
    rcases ht with ht | ht
    · have := mem_blocksFrom_bounds ht
      left; omega
    · have := mem_blocksFrom_bounds ht
      right; omega
  refine ⟨by rw [ht]; exact h.total_lt, ?_, ?_, hD, hN, ?_⟩
  · rw [ht, ← h.span_eq]
    simp only [span_append, hspan]
  · intro t htm
    rcases (hnew t).1 htm with h1 | h1 | h1
    · obtain ⟨hm, hout⟩ := hkeep t (Or.inl h1)
      obtain ⟨t1, t2, t3, t4⟩ := h.tags t hm
      have hx : t.1 < c ∨ c + span mid ≤ t.1 := by omega
      have hy : t.1 + 32 + t.2.1 < c ∨ c + span mid ≤ t.1 + 32 + t.2.1 := by omega
      refine ⟨by rw [(hB _ hx).1]; exact t1, by rw [(hB _ hx).2]; exact t2,
        by rw [hE _ hy]; exact t3, ?_⟩
      intro hf
      rw [hBu _ hx (by rw [t2]; exact hf)]
      exact t4 hf
    · exact hT t h1
    · obtain ⟨hm, hout⟩ := hkeep t (Or.inr h1)
      obtain ⟨t1, t2, t3, t4⟩ := h.tags t hm
      have hx : t.1 < c ∨ c + span mid ≤ t.1 := by omega
      have hy : t.1 + 32 + t.2.1 < c ∨ c + span mid ≤ t.1 + 32 + t.2.1 := by omega
      refine ⟨by rw [(hB _ hx).1]; exact t1, by rw [(hB _ hx).2]; exact t2,
        by rw [hE _ hy]; exact t3, ?_⟩
      intro hf
      rw [hBu _ hx (by rw [t2]; exact hf)]
      exact t4 hf
  · intro x
    rw [hM x]
    constructor
    · rintro (⟨hx, hout⟩ | ⟨s, hs⟩)
      · obtain ⟨s, hs⟩ := (h.mem_fl x).1 hx
        rcases (hold _).1 hs with h1 | h1 | h1
        · exact ⟨s, (hnew _).2 (Or.inl h1)⟩
        · have := mem_blocksFrom_bounds h1
          simp only at this
          omega
        · exact ⟨s, (hnew _).2 (Or.inr (Or.inr h1))⟩
      · exact ⟨s, (hnew _).2 (Or.inr (Or.inl hs))⟩
    · rintro ⟨s, hs⟩
      rcases (hnew _).1 hs with h1 | h1 | h1
      · obtain ⟨hm, hout⟩ := hkeep _ (Or.inl h1)
        left
        exact ⟨(h.mem_fl x).2 ⟨s, hm⟩, by simp only at hout; omega⟩
      · right; exact ⟨s, h1⟩
      · obtain ⟨hm, hout⟩ := hkeep _ (Or.inr h1)
        left
        exact ⟨(h.mem_fl x).2 ⟨s, hm⟩, by simp only at hout; omega⟩

theorem Inv.mid_tag {st : SimpleAllocator} {pre post : List (Nat × Bool)} {b : Nat × Bool}
    {fl : List Nat} (h : Inv st (pre ++ b :: post) fl) :
    TagOK st (st.memoryBegin + span pre, b.1, b.2)
      ∧ st.memoryBegin + span pre + b.1 + 48 ≤ st.memoryBegin + st.totalMemorySize := by
  have hm := mem_blocksFrom_mid st.memoryBegin pre post b
  exact ⟨h.tags _ hm, (h.block_bounds hm).2⟩

/-- A free-list member lying inside a stretch of the tiling is one of its blocks. -/
theorem Inv.fl_in_mid {st : SimpleAllocator} {pre mid post : List (Nat × Bool)}
    {fl : List Nat} (h : Inv st (pre ++ mid ++ post) fl) {x : Nat} (hx : x ∈ fl)
    (h1 : st.memoryBegin + span pre ≤ x) (h2 : x < st.memoryBegin + span pre + span mid) :
    ∃ s, (x, s, true) ∈ blocksFrom (st.memoryBegin + span pre) mid := by
  obtain ⟨s, hs⟩ := (h.mem_fl x).1 hx
  rw [blocksFrom_append, blocksFrom_append, span_append, ← Nat.add_assoc] at hs
  simp only [List.mem_append] at hs
  rcases hs with (hs | hs) | hs
  · have := mem_blocksFrom_bounds hs
    simp only at this; omega
  · exact ⟨s, hs⟩
  · have := mem_blocksFrom_bounds hs
    simp only at this; omega

theorem Inv.mid_mem_fl {st : SimpleAllocator} {pre post : List (Nat × Bool)} {s : Nat}
    {fl : List Nat} (h : Inv st (pre ++ (s, true) :: post) fl) :
    st.memoryBegin + span pre ∈ fl :=
  (h.mem_fl _).2 ⟨s, mem_blocksFrom_mid st.memoryBegin pre post (s, true)⟩

/-! ## The two successful branches of `alloc` -/

/-- Handing out a whole free block: the block changes its flag and leaves the
free list; nothing else changes. -/
theorem takeWholeBlock_spec {st : SimpleAllocator} {pre post : List (Nat × Bool)} {s : Nat}
    {fl : List Nat} (h : Inv st (pre ++ (s, true) :: post) fl) :
    ∃ st2, st.takeWholeBlock (st.memoryBegin + span pre)
        = some (some (st.memoryBegin + span pre + 32), st2)
      ∧ st2.memoryBegin = st.memoryBegin
      ∧ Inv st2 (pre ++ (s, false) :: post) (fl.erase (st.memoryBegin + span pre)) := by
  obtain ⟨⟨t1, t2, t3, -⟩, hbnd⟩ := h.mid_tag
  simp only at t1 t2 t3 hbnd
  have hc := h.mid_mem_fl
  generalize hcdef : st.memoryBegin + span pre = c at *
  obtain ⟨st1, hrem, r1, r2, r3, r4, r5, r6, r7, r8⟩ :=
    removeFreeMemoryBlock_spec st fl c (fun x hx => h.fl_valid hx) h.dll h.nodup hc
  have hvb : st1.memoryBegin ≤ c ∧ c + 32 ≤ st1.memoryBegin + st1.totalMemorySize := by
    rw [r1, r2]; omega
  have hve : st1.memoryBegin ≤ c + s + 32
      ∧ c + s + 32 + 16 ≤ st1.memoryBegin + st1.totalMemorySize := by
    rw [r1, r2]; omega
  have hsz : (st1.beginAt c).blockSize = s := by rw [(r4 c).1]; exact t1
  refine ⟨(((st1.setIsFree c false).setNext c none).setPrev c none).setEndIsFree (c + s + 32)
    false, ?_, by simp [r1], ?_⟩
  · unfold takeWholeBlock getEndMarker
    rw [hrem]
    simp only [Option.bind_eq_bind, Option.some_bind, Option.pure_def, sizeofBeginMarker]
    rw [writeIsFree_eq _ _ _ hvb, Option.some_bind, writeNext_eq (st1.setIsFree c false) _ _ hvb,
      Option.some_bind, writePrev_eq ((st1.setIsFree c false).setNext c none) _ _ hvb,
      Option.some_bind,
      loadBegin_eq (((st1.setIsFree c false).setNext c none).setPrev c none) _ hvb,
      Option.some_bind]
    simp only [setPrev_blockSize, setNext_blockSize, setIsFree_blockSize, hsz, Option.some_bind]
    rw [writeEndIsFree_eq (((st1.setIsFree c false).setNext c none).setPrev c none) _ _ hve,
      Option.some_bind]
  · have h2 : Inv st (pre ++ [(s, true)] ++ post) fl := by simpa using h
    have := Inv.replace ([(s, false)])
      ((((st1.setIsFree c false).setNext c none).setPrev c none).setEndIsFree (c + s + 32)
        false) (fl.erase c) h2 (by simp [r1]) (by simp [r2]) (by simp [span]) c hcdef.symm
      ?_ ?_ ?_ ?_ ?_ (h.nodup.erase c) ?_
    · simpa using this
    · intro x hx
      simp only [span] at hx
      have hxc : x ≠ c := by omega
      simp [hxc, r4]
    · intro x hx hf
      simp only [span] at hx
      have hxc : x ≠ c := by omega
      show (((st1.setIsFree c false).setNext c none).setPrev c none).beginAt x = _
      rw [setPrev_beginAt_ne _ _ _ _ hxc, setNext_beginAt_ne _ _ _ _ hxc,
        setIsFree_beginAt_ne _ _ _ _ hxc]
      exact r5 x (h.not_mem_fl hf)
    · intro y hy
      simp only [span] at hy
      have hyc : y ≠ c + s + 32 := by omega
      rw [setEndIsFree_endAt_ne _ _ _ _ hyc]
      simp [r3]
    · intro t ht
      simp only [blocksFrom, List.mem_singleton] at ht
      subst ht
      refine ⟨by simp [hsz], by simp, ?_, by simp⟩
      have e : c + 32 + s = c + s + 32 := by omega
      simp only [e]
      have : ∀ (m : EndMarker), m.blockSize = s → m.isFree = false → m = ⟨s, false⟩ := by
        rintro ⟨a, b⟩ h1 h2; simp only at h1 h2; rw [h1, h2]
      apply this
      · simp [r3, t3, ← e]
      · simp
    · refine DLL.frame (fun x hx => ?_) r8
      have hxc : x ≠ c := fun e => by
        rw [e] at hx; exact (List.Nodup.not_mem_erase h.nodup) hx
      simp [hxc]
    · intro x
      rw [h.nodup.mem_erase_iff]
      simp only [blocksFrom, List.mem_singleton, Prod.mk.injEq, Bool.true_eq_false, and_false,
        exists_false, or_false, span]
      constructor
      · rintro ⟨hxc, hx⟩
        refine ⟨hx, ?_⟩
        by_contra hcon
        obtain ⟨s2, hs2⟩ := h2.fl_in_mid hx (by omega) (by simp only [span]; omega)
        simp only [blocksFrom, List.mem_singleton, Prod.mk.injEq] at hs2
        exact hxc (by omega)
      · rintro ⟨hx, hout⟩
        exact ⟨by omega, hx⟩

theorem subSize_eq (a b : Nat) (ha : a < 18446744073709551616) (hb : b ≤ a) :
    subSize a b = a - b := by
  unfold subSize SIZE_MOD
  omega

theorem addSize_eq (a b : Nat) (h : a + b < 18446744073709551616) : addSize a b = a + b := by
  unfold addSize SIZE_MOD
  omega

/-- The sequence of writes performed by the splitting branch, when all of them
fall inside the arena. -/
theorem splitBlock_eval (st : SimpleAllocator) (c n ns e1 nb e2 : Nat)
    (hns : subSize (subSize (subSize (st.beginAt c).blockSize n) 32) 16 = ns)
    (he1 : e1 = c + 32 + ns) (hnb : nb = e1 + 16) (he2 : e2 = nb + 32 + n)
    (hvc : st.memoryBegin ≤ c ∧ c + 32 ≤ st.memoryBegin + st.totalMemorySize)
    (hve1 : st.memoryBegin ≤ e1 ∧ e1 + 16 ≤ st.memoryBegin + st.totalMemorySize)
    (hvb : st.memoryBegin ≤ nb ∧ nb + 32 ≤ st.memoryBegin + st.totalMemorySize)
    (hve2 : st.memoryBegin ≤ e2 ∧ e2 + 16 ≤ st.memoryBegin + st.totalMemorySize) :
    st.splitBlock c n = some (some (nb + 32),
      ((((((((st.setBlockSize c ns).setEndIsFree e1 true).setEndBlockSize e1 ns).setIsFree nb
        false).setNext nb none).setPrev nb none).setBlockSize nb n).setEndIsFree e2
        false).setEndBlockSize e2 n) := by
  subst he1 hnb he2
  unfold splitBlock
  rw [loadBegin_eq _ _ hvc]
  simp only [Option.bind_eq_bind, Option.some_bind, Option.pure_def, sizeofBeginMarker,
    sizeofEndMarker, hns]
  rw [writeBlockSize_eq, Option.some_bind, writeEndIsFree_eq, Option.some_bind,
    writeEndBlockSize_eq, Option.some_bind, writeIsFree_eq, Option.some_bind,
    writeNext_eq, Option.some_bind, writePrev_eq, Option.some_bind,
    writeBlockSize_eq, Option.some_bind, writeEndIsFree_eq, Option.some_bind,
    writeEndBlockSize_eq, Option.some_bind]
  all_goals
    try simp only [setBlockSize_memoryBegin, setBlockSize_totalMemorySize, setIsFree_memoryBegin,
      setIsFree_totalMemorySize, setNext_memoryBegin, setNext_totalMemorySize,
      setPrev_memoryBegin, setPrev_totalMemorySize, setEndIsFree_memoryBegin,
      setEndIsFree_totalMemorySize, setEndBlockSize_memoryBegin,
      setEndBlockSize_totalMemorySize]
    omega

theorem EndMarker.eq_mk (m : EndMarker) (a : Nat) (b : Bool)
    (h1 : m.blockSize = a) (h2 : m.isFree = b) : m = ⟨a, b⟩ := by
  cases m; simp only at h1 h2; rw [h1, h2]

/-- Splitting a free block: the block keeps its place on the free list with a
smaller size, and a used block of the requested size is carved from its
tail. -/
theorem splitBlock_spec {st : SimpleAllocator} {pre post : List (Nat × Bool)} {s n : Nat}
    {fl : List Nat} (h : Inv st (pre ++ (s, true) :: post) fl) (hn : n + 48 < s) :
    ∃ st2, st.splitBlock (st.memoryBegin + span pre) n
        = some (some (st.memoryBegin + span pre + (s - n - 48) + 80), st2)
      ∧ st2.memoryBegin = st.memoryBegin
      ∧ Inv st2 (pre ++ (s - n - 48, true) :: (n, false) :: post) fl := by
  obtain ⟨⟨t1, t2, t3, -⟩, hbnd⟩ := h.mid_tag
  simp only at t1 t2 t3 hbnd
  have hc := h.mid_mem_fl
  have htot := h.total_lt
  have h2 : Inv st (pre ++ [(s, true)] ++ post) fl := by simpa using h
  have hmid : ∀ x ∈ fl, st.memoryBegin + span pre ≤ x → x < st.memoryBegin + span pre + s + 48 →
      x = st.memoryBegin + span pre := by
    intro x hx h1 h3
    obtain ⟨s2, hs2⟩ := h2.fl_in_mid hx h1 (by simp only [span]; omega)
    simp only [blocksFrom, List.mem_singleton, Prod.mk.injEq] at hs2
    exact hs2.1
  generalize hcdef : st.memoryBegin + span pre = c at *
  have hns : subSize (subSize (subSize (st.beginAt c).blockSize n) 32) 16 = s - n - 48 := by
    rw [t1, subSize_eq s n (by omega) (by omega), subSize_eq _ 32 (by omega) (by omega),
      subSize_eq _ 16 (by omega) (by omega)]
    omega
  generalize hnsdef : s - n - 48 = ns at *
  obtain ⟨e1, he1⟩ : ∃ e1, e1 = c + 32 + ns := ⟨_, rfl⟩
  obtain ⟨nb, hnb⟩ : ∃ nb, nb = e1 + 16 := ⟨_, rfl⟩
  obtain ⟨e2, he2⟩ : ∃ e2, e2 = nb + 32 + n := ⟨_, rfl⟩
  have hev := splitBlock_eval st c n ns e1 nb e2 hns he1 hnb he2 (by omega) (by omega) (by omega)
    (by omega)
  refine ⟨((((((((st.setBlockSize c ns).setEndIsFree e1 true).setEndBlockSize e1 ns).setIsFree
    nb false).setNext nb none).setPrev nb none).setBlockSize nb n).setEndIsFree e2
    false).setEndBlockSize e2 n, ?_, ?_, ?_⟩
  · rw [hev]
    have : c + ns + 80 = nb + 32 := by omega
    rw [this]
  · simp
  · have := Inv.replace ([(ns, true), (n, false)])
      (((((((((st.setBlockSize c ns).setEndIsFree e1 true).setEndBlockSize e1 ns).setIsFree
        nb false).setNext nb none).setPrev nb none).setBlockSize nb n).setEndIsFree e2
        false).setEndBlockSize e2 n)
      (fl) h2 (by simp) (by simp) (by simp only [span]; omega) c hcdef.symm
      ?_ ?_ ?_ ?_ ?_ h.nodup ?_
    · simpa using this
    · intro x hx
      simp only [span] at hx
      have hxc : x ≠ c := by omega
      have hxb : x ≠ nb := by omega
      simp [hxc, hxb]
    · intro x hx hf
      simp only [span] at hx
      have hxc : x ≠ c := by omega
      have hxb : x ≠ nb := by omega
      show ((((((st.setBlockSize c ns).setIsFree nb false).setNext nb none).setPrev nb
        none).setBlockSize nb n)).beginAt x = _
      rw [setBlockSize_beginAt_ne _ _ _ _ hxb, setPrev_beginAt_ne _ _ _ _ hxb,
        setNext_beginAt_ne _ _ _ _ hxb, setIsFree_beginAt_ne _ _ _ _ hxb,
        setBlockSize_beginAt_ne _ _ _ _ hxc]
    · intro y hy
      simp only [span] at hy
      have hy1 : y ≠ e1 := by omega
      have hy2 : y ≠ e2 := by omega
      rw [setEndBlockSize_endAt_ne _ _ _ _ hy2, setEndIsFree_endAt_ne _ _ _ _ hy2]
      show (((st.setBlockSize c ns).setEndIsFree e1 true).setEndBlockSize e1 ns).endAt y = _
      rw [setEndBlockSize_endAt_ne _ _ _ _ hy1, setEndIsFree_endAt_ne _ _ _ _ hy1]
      rfl
    · intro t ht
      simp only [blocksFrom, List.mem_cons, List.mem_singleton, List.not_mem_nil,
        or_false] at ht
      have hcb : c ≠ nb := by omega
      have hee : e1 ≠ e2 := by omega
      have a1 : c + 32 + ns = e1 := by omega
      have a2 : c + ns + 48 = nb := by omega
      have a3 : nb + 32 + n = e2 := by omega
      rcases ht with rfl | rfl
      · refine ⟨by simp [hcb], by simp [hcb, t2], ?_, by simp⟩
        simp only [a1]
        apply EndMarker.eq_mk
        · simp [hee]
        · simp [hee]
      · simp only [a2]
        refine ⟨by simp, by simp, ?_, by simp⟩
        show SimpleAllocator.endAt _ (nb + 32 + n) = _
        rw [a3]
        apply EndMarker.eq_mk
        · simp
        · simp
    · simp only [setEndBlockSize_head, setEndIsFree_head, setBlockSize_head, setPrev_head,
        setNext_head, setIsFree_head]
      refine DLL.frame (fun x hx => ?_) h.dll
      have hxb : x ≠ nb := by
        intro e
        have := hmid x hx (by omega) (by omega)
        omega
      simp [hxb]
    · intro x
      simp only [blocksFrom, List.mem_cons, List.mem_singleton, Prod.mk.injEq,
        Bool.true_eq_false, and_false, List.not_mem_nil, or_false, and_true, exists_eq_right',
        span]
      constructor
      · intro hx
        by_cases hout : x < c ∨ c + (s + 48 + 0) ≤ x
        · exact Or.inl ⟨hx, hout⟩
        · right
          have := hmid x hx (by omega) (by omega)
          simpa using this
      · rintro (⟨hx, -⟩ | hx)
        · exact hx
        · have : x = c := by simpa using hx
          rw [this]; exact hc

/-! ## The search loop of `alloc` -/

/-- Candidates that satisfy neither test of the loop body are skipped. -/
theorem allocLoop_skip (st : SimpleAllocator) (n : Nat) :
    ∀ (l1 : List Nat) (p cur : Option Nat) (l2 : List Nat) (k : Nat),
      DLL st.beginAt p cur (l1 ++ l2) →
      (∀ x ∈ l1, (st.memoryBegin ≤ x ∧ x + 32 ≤ st.memoryBegin + st.totalMemorySize)
        ∧ ¬ ((st.beginAt x).blockSize = n ∨ (st.beginAt x).blockSize = addSize (addSize n 32) 16)
        ∧ ¬ (addSize (addSize n 32) 16 < (st.beginAt x).blockSize)) →
      ∃ p2 cur2, DLL st.beginAt p2 cur2 l2
        ∧ allocLoop (l1.length + k) st cur n = allocLoop k st cur2 n := by
  intro l1
  induction l1 with
  | nil =>
    intro p cur l2 k hd _
    exact ⟨p, cur, hd, by simp⟩
  | cons a r ih =>
    intro p cur l2 k hd hs
    obtain ⟨h1, h2, h3⟩ := hd
    obtain ⟨hv, hw, hsp⟩ := hs a (List.mem_cons_self _ _)
    obtain ⟨p2, cur2, hd2, he⟩ := ih (some a) _ l2 k h3
      (fun x hx => hs x (List.mem_cons_of_mem _ hx))
    refine ⟨p2, cur2, hd2, ?_⟩
    rw [← he, h1]
    have : (a :: r).length + k = (r.length + k) + 1 := by simp; omega
    rw [this]
    simp only [allocLoop, loadBegin_eq _ _ hv, Option.bind_eq_bind, Option.some_bind,
      sizeofBeginMarker, sizeofEndMarker, if_neg hw, if_neg hsp]

theorem allocLoop_none_cur (st : SimpleAllocator) (n k : Nat) :
    allocLoop (k + 1) st none n = some (none, st) := rfl

theorem allocLoop_whole (st : SimpleAllocator) (n k x : Nat)
    (hv : st.memoryBegin ≤ x ∧ x + 32 ≤ st.memoryBegin + st.totalMemorySize)
    (hw : (st.beginAt x).blockSize = n ∨ (st.beginAt x).blockSize = addSize (addSize n 32) 16) :
    allocLoop (k + 1) st (some x) n = st.takeWholeBlock x := by
  simp only [allocLoop, loadBegin_eq _ _ hv, Option.bind_eq_bind, Option.some_bind,
    sizeofBeginMarker, sizeofEndMarker, if_pos hw]

theorem allocLoop_split (st : SimpleAllocator) (n k x : Nat)
    (hv : st.memoryBegin ≤ x ∧ x + 32 ≤ st.memoryBegin + st.totalMemorySize)
    (hw : ¬ ((st.beginAt x).blockSize = n
      ∨ (st.beginAt x).blockSize = addSize (addSize n 32) 16))
    (hs : addSize (addSize n 32) 16 < (st.beginAt x).blockSize) :
    allocLoop (k + 1) st (some x) n = st.splitBlock x n := by
  simp only [allocLoop, loadBegin_eq _ _ hv, Option.bind_eq_bind, Option.some_bind,
    sizeofBeginMarker, sizeofEndMarker, if_neg hw, if_pos hs]

/-- The free list is no longer than the arena. -/
theorem Inv.fl_length_le {st : SimpleAllocator} {bs : List (Nat × Bool)} {fl : List Nat}
    (h : Inv st bs fl) : fl.length ≤ st.totalMemorySize := by
  have hsub : fl ⊆ List.range' st.memoryBegin st.totalMemorySize := by
    intro x hx
    have := h.fl_valid hx
    rw [List.mem_range'_1]
    omega
  have := (h.nodup.subperm hsub).length_le
  simpa using this

/-- A list either has no member with a given property or a first one. -/
theorem first_candidate (P : Nat → Prop) (l : List Nat) :
    (∀ x ∈ l, ¬ P x) ∨ ∃ l1 x l2, l = l1 ++ x :: l2 ∧ (∀ y ∈ l1, ¬ P y) ∧ P x := by
  induction l with
  | nil => left; simp
  | cons a r ih =>
    by_cases ha : P a
    · right; exact ⟨[], a, r, rfl, by simp, ha⟩
    · rcases ih with h | ⟨l1, x, l2, h1, h2, h3⟩
      · left
        intro x hx
        rcases List.mem_cons.1 hx with rfl | hx
        · exact ha
        · exact h x hx
      · right
        refine ⟨a :: l1, x, l2, by simp [h1], ?_, h3⟩
        intro y hy
        rcases List.mem_cons.1 hy with rfl | hy
        · exact ha
        · exact h2 y hy

/-- What `alloc` does in a state satisfying the invariant, in terms of the free
list: it fails when no member passes a test of the loop body, and otherwise
runs the branch selected by the first member that passes one. -/
theorem alloc_scan {st : SimpleAllocator} {bs : List (Nat × Bool)} {fl : List Nat}
    (h : Inv st bs fl) {n : Nat} (hn0 : n ≠ 0) :
    ((∀ x ∈ fl, ¬ ((st.beginAt x).blockSize = n
          ∨ (st.beginAt x).blockSize = addSize (addSize n 32) 16)
        ∧ ¬ (addSize (addSize n 32) 16 < (st.beginAt x).blockSize)) →
      st.alloc n = some (none, st))
    ∧ (∀ l1 x l2, fl = l1 ++ x :: l2 →
      (∀ y ∈ l1, ¬ ((st.beginAt y).blockSize = n
          ∨ (st.beginAt y).blockSize = addSize (addSize n 32) 16)
        ∧ ¬ (addSize (addSize n 32) 16 < (st.beginAt y).blockSize)) →
      (((st.beginAt x).blockSize = n ∨ (st.beginAt x).blockSize = addSize (addSize n 32) 16) →
        st.alloc n = st.takeWholeBlock x)
      ∧ (¬ ((st.beginAt x).blockSize = n
          ∨ (st.beginAt x).blockSize = addSize (addSize n 32) 16) →
        addSize (addSize n 32) 16 < (st.beginAt x).blockSize →
        st.alloc n = st.splitBlock x n)) := by
  have hlen := h.fl_length_le
  constructor
  · intro hno
    obtain ⟨p2, cur2, hd2, he⟩ := allocLoop_skip st n fl none st.head []
      (st.totalMemorySize + 1 - fl.length) (by simpa using h.dll)
      (fun x hx => ⟨h.fl_valid hx, hno x hx⟩)
    have hc : cur2 = none := hd2
    have hk : st.totalMemorySize + 1 - fl.length = (st.totalMemorySize - fl.length) + 1 := by
      omega
    unfold alloc
    rw [if_neg hn0]
    have hf : st.totalMemorySize + 1 = fl.length + (st.totalMemorySize + 1 - fl.length) := by
      omega
    rw [hf, he, hc, hk]
    rfl
  · intro l1 x l2 hfl hno
    have hx : x ∈ fl := by rw [hfl]; simp
    have hl1 : l1.length < fl.length := by rw [hfl]; simp
    obtain ⟨p2, cur2, hd2, he⟩ := allocLoop_skip st n l1 none st.head (x :: l2)
      (st.totalMemorySize + 1 - l1.length) (by rw [← hfl]; exact h.dll)
      (fun y hy => ⟨h.fl_valid (by rw [hfl]; simp [hy]), hno y hy⟩)
    have hc : cur2 = some x := hd2.1
    have hk : st.totalMemorySize + 1 - l1.length = (st.totalMemorySize - l1.length) + 1 := by
      omega
    have hf : st.totalMemorySize + 1 = l1.length + (st.totalMemorySize + 1 - l1.length) := by
      omega
    constructor
    · intro hw
      unfold alloc
      rw [if_neg hn0, hf, he, hc, hk]
      exact allocLoop_whole st n _ x (h.fl_valid hx) hw
    · intro hw hs
      unfold alloc
      rw [if_neg hn0, hf, he, hc, hk]
      exact allocLoop_split st n _ x (h.fl_valid hx) hw hs

/-- The effect of an in-contract `alloc` on a state satisfying the invariant:
the call fails and changes nothing, or it hands out a whole free block, or it
splits one.  In the last two cases the block is the first in free-list order
that passes a test of the loop body. -/
theorem alloc_spec {st : SimpleAllocator} {bs : List (Nat × Bool)} {fl : List Nat}
    (h : Inv st bs fl) {n : Nat} (hn0 : n ≠ 0) (hn : n + 48 < 18446744073709551616) :
    (st.alloc n = some (none, st)
      ∧ ∀ x ∈ fl, (st.beginAt x).blockSize ≠ n ∧ (st.beginAt x).blockSize ≠ n + 48
        ∧ ¬ (n + 48 < (st.beginAt x).blockSize))
    ∨ (∃ pre s post st2 l1 l2, bs = pre ++ (s, true) :: post ∧ (s = n ∨ s = n + 48)
      ∧ fl = l1 ++ (st.memoryBegin + span pre) :: l2
      ∧ (∀ y ∈ l1, (st.beginAt y).blockSize ≠ n ∧ (st.beginAt y).blockSize ≠ n + 48
        ∧ ¬ (n + 48 < (st.beginAt y).blockSize))
      ∧ st.alloc n = some (some (st.memoryBegin + span pre + 32), st2)
      ∧ st2.memoryBegin = st.memoryBegin
      ∧ Inv st2 (pre ++ (s, false) :: post) (fl.erase (st.memoryBegin + span pre)))
    ∨ (∃ pre s post st2 l1 l2, bs = pre ++ (s, true) :: post ∧ n + 48 < s
      ∧ fl = l1 ++ (st.memoryBegin + span pre) :: l2
      ∧ (∀ y ∈ l1, (st.beginAt y).blockSize ≠ n ∧ (st.beginAt y).blockSize ≠ n + 48
        ∧ ¬ (n + 48 < (st.beginAt y).blockSize))
      ∧ st.alloc n = some (some (st.memoryBegin + span pre + (s - n - 48) + 80), st2)
      ∧ st2.memoryBegin = st.memoryBegin
      ∧ Inv st2 (pre ++ (s - n - 48, true) :: (n, false) :: post) fl) := by
  have ha : addSize (addSize n 32) 16 = n + 48 := by
    rw [addSize_eq n 32 (by omega), addSize_eq _ 16 (by omega)]
  obtain ⟨hA, hB⟩ := alloc_scan h hn0
  rw [ha] at hA hB
  rcases first_candidate (fun x => ((st.beginAt x).blockSize = n
      ∨ (st.beginAt x).blockSize = n + 48) ∨ n + 48 < (st.beginAt x).blockSize) fl with
    hno | ⟨l1, x, l2, hfl, hno, hx⟩
  · left
    refine ⟨hA (fun x hx => ?_), fun x hx => ?_⟩
    · have := hno x hx; tauto
    · have := hno x hx; tauto
  · have hxm : x ∈ fl := by rw [hfl]; simp
    obtain ⟨pre, post, hbs, hxa⟩ := mem_blocksFrom_split (h.fl_block hxm)
    simp only at hbs hxa
    have hno2 : ∀ y ∈ l1, (st.beginAt y).blockSize ≠ n ∧ (st.beginAt y).blockSize ≠ n + 48
        ∧ ¬ (n + 48 < (st.beginAt y).blockSize) := by
      intro y hy; have := hno y hy; tauto
    have hno3 : ∀ y ∈ l1, ¬ ((st.beginAt y).blockSize = n
          ∨ (st.beginAt y).blockSize = n + 48)
        ∧ ¬ (n + 48 < (st.beginAt y).blockSize) := by
      intro y hy; have := hno y hy; tauto
    obtain ⟨hW, hS⟩ := hB l1 x l2 hfl hno3
    subst hxa
    rw [hbs] at h
    by_cases hw : (st.beginAt (st.memoryBegin + span pre)).blockSize = n
        ∨ (st.beginAt (st.memoryBegin + span pre)).blockSize = n + 48
    · right; left
      obtain ⟨st2, e1, e2, e3⟩ := takeWholeBlock_spec h
      exact ⟨pre, _, post, st2, l1, l2, hbs, hw, hfl, hno2, by rw [hW hw, e1], e2, e3⟩
    · right; right
      have hs : n + 48 < (st.beginAt (st.memoryBegin + span pre)).blockSize := by tauto
      obtain ⟨st2, e1, e2, e3⟩ := splitBlock_spec h hs
      exact ⟨pre, _, post, st2, l1, l2, hbs, hs, hfl, hno2, by rw [hS hw hs, e1], e2, e3⟩

/-! ## The three steps of `free` -/

theorem Inv.mid_tag2 {st : SimpleAllocator} {pre post : List (Nat × Bool)} {b1 b2 : Nat × Bool}
    {fl : List Nat} (h : Inv st (pre ++ b1 :: b2 :: post) fl) :
    TagOK st (st.memoryBegin + span pre, b1.1, b1.2)
      ∧ TagOK st (st.memoryBegin + span pre + b1.1 + 48, b2.1, b2.2)
      ∧ st.memoryBegin + span pre + b1.1 + 48 + b2.1 + 48
          ≤ st.memoryBegin + st.totalMemorySize := by
  have h1 := h.mid_tag
  have h2 : Inv st ((pre ++ [b1]) ++ b2 :: post) fl := by simpa using h
  have h3 := h2.mid_tag
  have hsp : span (pre ++ [b1]) = span pre + b1.1 + 48 := by
    simp only [span_append, span]; omega
  rw [hsp, ← Nat.add_assoc, ← Nat.add_assoc] at h3
  exact ⟨h1.1, h3.1, h3.2⟩

/-- The block at the arena start has no predecessor: the backward step changes
nothing. -/
theorem coalesceBackward_first {st : SimpleAllocator} {post : List (Nat × Bool)} {s : Nat}
    {fl : List Nat} (_h : Inv st ((s, false) :: post) fl) :
    st.coalesceBackward (st.memoryBegin + 32) = some (st, st.memoryBegin + 32) := by
  unfold coalesceBackward hasPreviousMemoryBlock
  simp [sizeofBeginMarker]

/-- A used predecessor: the backward step changes nothing. -/
theorem coalesceBackward_used {st : SimpleAllocator} {pre post : List (Nat × Bool)}
    {sp s : Nat} {fl : List Nat} (h : Inv st (pre ++ (sp, false) :: (s, false) :: post) fl) :
    st.coalesceBackward (st.memoryBegin + span pre + sp + 48 + 32)
      = some (st, st.memoryBegin + span pre + sp + 48 + 32) := by
  obtain ⟨⟨u1, u2, u3, -⟩, ⟨t1, t2, t3, -⟩, hbnd⟩ := h.mid_tag2
  simp only at u1 u2 u3 t1 t2 t3 hbnd
  have hle : st.memoryBegin ≤ st.memoryBegin + span pre := by omega
  generalize st.memoryBegin + span pre = cp at *
  unfold coalesceBackward hasPreviousMemoryBlock getMemoryBlockBounds
  simp only [sizeofBeginMarker, sizeofEndMarker, Nat.add_sub_cancel]
  have hlt : st.memoryBegin < cp + sp + 48 := by omega
  have e1 : cp + sp + 48 - 16 = cp + 32 + sp := by omega
  rw [if_pos (by simpa using hlt), loadBegin_eq _ _ (by omega)]
  simp only [Option.bind_eq_bind, Option.some_bind, Option.pure_def, e1]
  rw [loadEnd_eq _ _ (by omega), u3]
  simp

/-- The writes of the backward step when the predecessor is free. -/
theorem coalesceBackward_eval (st st1 : SimpleAllocator) (cur c e pe cp s sp : Nat)
    (hc : cur = c + 32) (he : e = cur + s) (hpe : pe + 16 = c) (hcp : cp + sp + 32 = pe)
    (hlt : st.memoryBegin < c)
    (hvc : st.memoryBegin ≤ c ∧ c + 32 ≤ st.memoryBegin + st.totalMemorySize)
    (hvcp : st.memoryBegin ≤ cp)
    (hve : e + 16 ≤ st.memoryBegin + st.totalMemorySize)
    (t1 : (st.beginAt c).blockSize = s) (u3 : st.endAt pe = ⟨sp, true⟩)
    (hrem : st.removeFreeMemoryBlock cp = some st1)
    (r1 : st1.memoryBegin = st.memoryBegin) (r2 : st1.totalMemorySize = st.totalMemorySize)
    (r4 : ∀ x, (st1.beginAt x).blockSize = (st.beginAt x).blockSize)
    (u1 : (st.beginAt cp).blockSize = sp)
    (hsum : sp + s + 48 < 18446744073709551616) :
    st.coalesceBackward cur
      = some (((st1.setIsFree cp false).setBlockSize cp (sp + s + 48)).setEndBlockSize e
          (sp + s + 48), cp + 32) := by
  have hpe2 : c - 16 = pe := by omega
  have hcp2 : pe - sp - 32 = cp := by omega
  have hadd : addSize sp (addSize (addSize s 32) 16) = sp + s + 48 := by
    rw [addSize_eq s 32 (by omega), addSize_eq _ 16 (by omega), addSize_eq _ _ (by omega)]
    omega
  subst hc
  unfold coalesceBackward hasPreviousMemoryBlock getMemoryBlockBounds getBeginMarker
  simp only [sizeofBeginMarker, sizeofEndMarker, Nat.add_sub_cancel]
  rw [if_pos (by simpa using hlt), loadBegin_eq _ _ hvc]
  simp only [Option.bind_eq_bind, Option.some_bind, Option.pure_def, hpe2]
  rw [loadEnd_eq _ _ (by omega), u3]
  simp only [Option.some_bind, if_true, hcp2, hrem]
  rw [writeIsFree_eq, Option.some_bind, loadBegin_eq, Option.some_bind, loadBegin_eq,
    Option.some_bind]
  simp only [setIsFree_blockSize, r4, u1, t1, hadd]
  rw [writeBlockSize_eq, Option.some_bind, loadBegin_eq, Option.some_bind]
  simp only [setBlockSize_blockSize, if_true]
  rw [writeEndBlockSize_eq, Option.some_bind, he]
  all_goals
    try simp only [setBlockSize_memoryBegin, setBlockSize_totalMemorySize, setIsFree_memoryBegin,
      setIsFree_totalMemorySize, r1, r2]
    omega

/-- A free predecessor is unlinked and absorbs the released block; the merged
block is, for the moment, marked used. -/
theorem coalesceBackward_merge {st : SimpleAllocator} {pre post : List (Nat × Bool)}
    {sp s : Nat} {fl : List Nat} (h : Inv st (pre ++ (sp, true) :: (s, false) :: post) fl) :
    ∃ st2, st.coalesceBackward (st.memoryBegin + span pre + sp + 48 + 32)
        = some (st2, st.memoryBegin + span pre + 32)
      ∧ st2.memoryBegin = st.memoryBegin
      ∧ Inv st2 (pre ++ (sp + s + 48, false) :: post) (fl.erase (st.memoryBegin + span pre)) := by
  obtain ⟨⟨u1, u2, u3, -⟩, ⟨t1, t2, t3, -⟩, hbnd⟩ := h.mid_tag2
  simp only at u1 u2 u3 t1 t2 t3 hbnd
  have hcp := h.mid_mem_fl
  have htot := h.total_lt
  have h2 : Inv st (pre ++ [(sp, true), (s, false)] ++ post) fl := by simpa using h
  have hmid : ∀ x ∈ fl, st.memoryBegin + span pre ≤ x →
      x < st.memoryBegin + span pre + sp + 48 + s + 48 → x = st.memoryBegin + span pre := by
    intro x hx h1 h3
    obtain ⟨s2, hs2⟩ := h2.fl_in_mid hx h1 (by simp only [span]; omega)
    simp only [blocksFrom, List.mem_cons, List.mem_singleton, Prod.mk.injEq,
      Bool.true_eq_false, and_false, List.not_mem_nil, or_false, and_true] at hs2
    exact hs2.1
  have hle : st.memoryBegin ≤ st.memoryBegin + span pre := by omega
  generalize hcpdef : st.memoryBegin + span pre = cp at *
  obtain ⟨st1, hrem, r1, r2, r3, r4, r5, r6, r7, r8⟩ :=
    removeFreeMemoryBlock_spec st fl cp (fun x hx => h.fl_valid hx) h.dll h.nodup hcp
  obtain ⟨c, hc⟩ : ∃ c, c = cp + sp + 48 := ⟨_, rfl⟩
  obtain ⟨e, he⟩ : ∃ e, e = c + 32 + s := ⟨_, rfl⟩
  obtain ⟨pe, hpe⟩ : ∃ pe, pe = cp + 32 + sp := ⟨_, rfl⟩
  rw [← hc] at t1 t2 t3
  rw [← hpe] at u3
  rw [← he] at t3
  have hev := coalesceBackward_eval st st1 (c + 32) c e pe cp s sp rfl (by omega) (by omega)
    (by omega) (by omega) (by omega) (by omega) (by omega) t1 u3 hrem r1 r2
    (fun x => (r4 x).1) u1 (by omega)
  refine ⟨((st1.setIsFree cp false).setBlockSize cp (sp + s + 48)).setEndBlockSize e
    (sp + s + 48), ?_, by simp [r1], ?_⟩
  · rw [← hev, hc]
  · have := Inv.replace ([(sp + s + 48, false)])
      (((st1.setIsFree cp false).setBlockSize cp (sp + s + 48)).setEndBlockSize e
        (sp + s + 48)) (fl.erase cp) h2 (by simp [r1]) (by simp [r2])
      (by simp only [span]; omega) cp hcpdef.symm ?_ ?_ ?_ ?_ ?_ (h.nodup.erase cp) ?_
    · simpa using this
    · intro x hx
      simp only [span] at hx
      have hxc : x ≠ cp := by omega
      simp [hxc, r4]
    · intro x hx hf
      simp only [span] at hx
      have hxc : x ≠ cp := by omega
      show ((st1.setIsFree cp false).setBlockSize cp (sp + s + 48)).beginAt x = _
      rw [setBlockSize_beginAt_ne _ _ _ _ hxc, setIsFree_beginAt_ne _ _ _ _ hxc]
      exact r5 x (h.not_mem_fl hf)
    · intro y hy
      simp only [span] at hy
      have hye : y ≠ e := by omega
      rw [setEndBlockSize_endAt_ne _ _ _ _ hye]
      simp [r3]
    · intro t ht
      simp only [blocksFrom, List.mem_singleton] at ht
      subst ht
      refine ⟨by simp, by simp, ?_, by simp [r6, r7]⟩
      show SimpleAllocator.endAt _ (cp + 32 + (sp + s + 48)) = _
      have a1 : cp + 32 + (sp + s + 48) = e := by omega
      rw [a1]
      apply EndMarker.eq_mk
      · simp
      · simp [r3, t3]
    · simp only [setEndBlockSize_head, setBlockSize_head, setIsFree_head]
      refine DLL.frame (fun x hx => ?_) r8
      simp
    · intro x
      rw [h.nodup.mem_erase_iff]
      simp only [blocksFrom, List.mem_singleton, Prod.mk.injEq, Bool.true_eq_false, and_false,
        exists_false, or_false, span]
      constructor
      · rintro ⟨hxc, hx⟩
        refine ⟨hx, ?_⟩
        by_contra hcon
        exact hxc (hmid x hx (by omega) (by omega))
      · rintro ⟨hx, hout⟩
        exact ⟨by omega, hx⟩

/-- The block at the arena end has no successor: the forward step changes
nothing. -/
theorem coalesceForward_last {st : SimpleAllocator} {pre : List (Nat × Bool)} {s : Nat}
    {fl : List Nat} (h : Inv st (pre ++ [(s, false)]) fl) :
    st.coalesceForward (st.memoryBegin + span pre + 32) = some st := by
  obtain ⟨⟨t1, t2, t3, -⟩, hbnd⟩ := h.mid_tag
  simp only at t1 t2 t3 hbnd
  have hsp := h.span_eq
  simp only [span_append, span] at hsp
  have hle : st.memoryBegin ≤ st.memoryBegin + span pre := by omega
  generalize hcdef : st.memoryBegin + span pre = c at *
  unfold coalesceForward hasNextMemoryBlock
  simp only [sizeofBeginMarker, sizeofEndMarker, Nat.add_sub_cancel]
  rw [loadBegin_eq _ _ (by omega)]
  have : ¬ (c + 32 + s + 16 < st.memoryBegin + st.totalMemorySize) := by omega
  simp [t1, this]

/-- A used successor: the forward step changes nothing. -/
theorem coalesceForward_used {st : SimpleAllocator} {pre post : List (Nat × Bool)}
    {s sn : Nat} {fl : List Nat} (h : Inv st (pre ++ (s, false) :: (sn, false) :: post) fl) :
    st.coalesceForward (st.memoryBegin + span pre + 32) = some st := by
  obtain ⟨⟨t1, t2, t3, -⟩, ⟨u1, u2, u3, -⟩, hbnd⟩ := h.mid_tag2
  simp only at u1 u2 u3 t1 t2 t3 hbnd
  have hle : st.memoryBegin ≤ st.memoryBegin + span pre := by omega
  generalize hcdef : st.memoryBegin + span pre = c at *
  obtain ⟨nx, hnx⟩ : ∃ nx, nx = c + s + 48 := ⟨_, rfl⟩
  rw [← hnx] at u1 u2 u3
  unfold coalesceForward hasNextMemoryBlock getMemoryBlockBounds
  simp only [sizeofBeginMarker, sizeofEndMarker, Nat.add_sub_cancel]
  rw [loadBegin_eq _ _ (by omega)]
  have e1 : nx < st.memoryBegin + st.totalMemorySize := by omega
  have e2 : c + 32 + s + 16 = nx := by omega
  simp only [Option.bind_eq_bind, Option.some_bind, Option.pure_def, t1, e2, e1, decide_True,
    if_true]
  rw [loadBegin_eq st nx (by omega)]
  simp only [Option.some_bind]
  rw [loadBegin_eq st nx (by omega)]
  simp [u2]

/-- The writes of the forward step when the successor is free. -/
theorem coalesceForward_eval (st st1 : SimpleAllocator) (cur c nx ne s sn : Nat)
    (hc : cur = c + 32) (hnx : nx = c + s + 48) (hne : ne = nx + 32 + sn)
    (hvc : st.memoryBegin ≤ c)
    (hve : ne + 16 ≤ st.memoryBegin + st.totalMemorySize)
    (t1 : (st.beginAt c).blockSize = s)
    (u1 : (st.beginAt nx).blockSize = sn) (u2 : (st.beginAt nx).isFree = true)
    (hrem : st.removeFreeMemoryBlock nx = some st1)
    (r1 : st1.memoryBegin = st.memoryBegin) (r2 : st1.totalMemorySize = st.totalMemorySize)
    (r4 : ∀ x, (st1.beginAt x).blockSize = (st.beginAt x).blockSize)
    (hsum : s + sn + 48 < 18446744073709551616) :
    st.coalesceForward cur
      = some (((st1.setBlockSize c (s + sn + 48)).setEndBlockSize ne (s + sn + 48)).setEndIsFree
          ne false) := by
  have hadd : addSize s (addSize (addSize sn 32) 16) = s + sn + 48 := by
    rw [addSize_eq sn 32 (by omega), addSize_eq _ 16 (by omega), addSize_eq _ _ (by omega)]
    omega
  subst hc
  unfold coalesceForward hasNextMemoryBlock getMemoryBlockBounds
  simp only [sizeofBeginMarker, sizeofEndMarker, Nat.add_sub_cancel]
  rw [loadBegin_eq _ _ (by omega)]
  have e1 : nx < st.memoryBegin + st.totalMemorySize := by omega
  have e2 : c + 32 + s + 16 = nx := by omega
  simp only [Option.bind_eq_bind, Option.some_bind, Option.pure_def, t1, e2, e1, decide_True,
    if_true]
  rw [loadBegin_eq st nx (by omega)]
  simp only [Option.some_bind]
  rw [loadBegin_eq st nx (by omega)]
  have e3 : nx + 32 + sn = ne := by omega
  simp only [Option.some_bind, u2, if_true, hrem, u1, e3]
  rw [loadBegin_eq st1 c (by omega), Option.some_bind, loadBegin_eq st1 nx (by omega),
    Option.some_bind]
  simp only [r4, u1, t1, hadd]
  rw [writeBlockSize_eq, Option.some_bind, loadBegin_eq, Option.some_bind]
  simp only [setBlockSize_blockSize, if_true]
  rw [writeEndBlockSize_eq, Option.some_bind, writeEndIsFree_eq]
  all_goals
    try simp only [setBlockSize_memoryBegin, setBlockSize_totalMemorySize,
      setEndBlockSize_memoryBegin, setEndBlockSize_totalMemorySize, r1, r2]
    omega

/-- A free successor is unlinked and absorbed by the released block, which
stays marked used for the moment. -/
theorem coalesceForward_merge {st : SimpleAllocator} {pre post : List (Nat × Bool)}
    {s sn : Nat} {fl : List Nat} (h : Inv st (pre ++ (s, false) :: (sn, true) :: post) fl) :
    ∃ st2, st.coalesceForward (st.memoryBegin + span pre + 32) = some st2
      ∧ st2.memoryBegin = st.memoryBegin
      ∧ Inv st2 (pre ++ (s + sn + 48, false) :: post)
          (fl.erase (st.memoryBegin + span pre + s + 48)) := by
  obtain ⟨⟨t1, t2, t3, t4⟩, ⟨u1, u2, u3, -⟩, hbnd⟩ := h.mid_tag2
  simp only at u1 u2 u3 t1 t2 t3 t4 hbnd
  have htot := h.total_lt
  have h2 : Inv st (pre ++ [(s, false), (sn, true)] ++ post) fl := by simpa using h
  have h3 : Inv st ((pre ++ [(s, false)]) ++ (sn, true) :: post) fl := by simpa using h
  have hnxm := h3.mid_mem_fl
  have hsp : span (pre ++ [(s, false)]) = span pre + s + 48 := by
    simp only [span_append, span]; omega
  rw [hsp, ← Nat.add_assoc, ← Nat.add_assoc] at hnxm
  have hmid : ∀ x ∈ fl, st.memoryBegin + span pre ≤ x →
      x < st.memoryBegin + span pre + s + 48 + sn + 48 →
      x = st.memoryBegin + span pre + s + 48 := by
    intro x hx h1 h3
    obtain ⟨s2, hs2⟩ := h2.fl_in_mid hx h1 (by simp only [span]; omega)
    simp only [blocksFrom, List.mem_cons, List.mem_singleton, Prod.mk.injEq,
      Bool.true_eq_false, and_false, List.not_mem_nil, or_false, and_true, false_or] at hs2
    exact hs2.1
  have hle : st.memoryBegin ≤ st.memoryBegin + span pre := by omega
  generalize hcdef : st.memoryBegin + span pre = c at *
  obtain ⟨nx, hnx⟩ : ∃ nx, nx = c + s + 48 := ⟨_, rfl⟩
  obtain ⟨ne, hne⟩ : ∃ ne, ne = nx + 32 + sn := ⟨_, rfl⟩
  rw [← hnx] at u1 u2 u3 hnxm hmid
  rw [← hne] at u3
  obtain ⟨st1, hrem, r1, r2, r3, r4, r5, r6, r7, r8⟩ :=
    removeFreeMemoryBlock_spec st fl nx (fun x hx => h.fl_valid hx) h.dll h.nodup hnxm
  have hev := coalesceForward_eval st st1 (c + 32) c nx ne s sn rfl hnx hne hle (by omega) t1
    u1 u2 hrem r1 r2 (fun x => (r4 x).1) (by omega)
  have hcfl : c ∉ fl := h.not_mem_fl t2
  refine ⟨((st1.setBlockSize c (s + sn + 48)).setEndBlockSize ne (s + sn + 48)).setEndIsFree
    ne false, hev, by simp [r1], ?_⟩
  have := Inv.replace ([(s + sn + 48, false)])
    (((st1.setBlockSize c (s + sn + 48)).setEndBlockSize ne (s + sn + 48)).setEndIsFree
      ne false) (fl.erase nx) h2 (by simp [r1]) (by simp [r2])
    (by simp only [span]; omega) c hcdef.symm ?_ ?_ ?_ ?_ ?_ (h.nodup.erase nx) ?_
  · rw [← hnx]; simpa using this
  · intro x hx
    simp only [span] at hx
    have hxc : x ≠ c := by omega
    simp [hxc, r4]
  · intro x hx hf
    simp only [span] at hx
    have hxc : x ≠ c := by omega
    show (st1.setBlockSize c (s + sn + 48)).beginAt x = _
    rw [setBlockSize_beginAt_ne _ _ _ _ hxc]
    exact r5 x (h.not_mem_fl hf)
  · intro y hy
    simp only [span] at hy
    have hye : y ≠ ne := by omega
    rw [setEndIsFree_endAt_ne _ _ _ _ hye, setEndBlockSize_endAt_ne _ _ _ _ hye]
    simp [r3]
  · intro t ht
    simp only [blocksFrom, List.mem_singleton] at ht
    subst ht
    have hb : st1.beginAt c = st.beginAt c := r5 c hcfl
    refine ⟨by simp, by simp [hb, t2], ?_, by simp [hb, t4]⟩
    show SimpleAllocator.endAt _ (c + 32 + (s + sn + 48)) = _
    have a1 : c + 32 + (s + sn + 48) = ne := by omega
    rw [a1]
    apply EndMarker.eq_mk
    · simp
    · simp
  · simp only [setEndIsFree_head, setEndBlockSize_head, setBlockSize_head]
    refine DLL.frame (fun x hx => ?_) r8
    simp
  · intro x
    rw [h.nodup.mem_erase_iff]
    simp only [blocksFrom, List.mem_singleton, Prod.mk.injEq, Bool.true_eq_false, and_false,
      exists_false, or_false, span]
    constructor
    · rintro ⟨hxc, hx⟩
      refine ⟨hx, ?_⟩
      by_contra hcon
      exact hxc (hmid x hx (by omega) (by omega))
    · rintro ⟨hx, hout⟩
      exact ⟨by omega, hx⟩

/-- The final step of `free`: the block is marked free in both tags and becomes
the head of the free list. -/
theorem markFreeAndInsert_spec {st : SimpleAllocator} {pre post : List (Nat × Bool)}
    {s : Nat} {fl : List Nat} (h : Inv st (pre ++ (s, false) :: post) fl) :
    ∃ st2, st.markFreeAndInsert (st.memoryBegin + span pre + 32) = some st2
      ∧ st2.memoryBegin = st.memoryBegin
      ∧ Inv st2 (pre ++ (s, true) :: post) ((st.memoryBegin + span pre) :: fl) := by
  obtain ⟨⟨t1, t2, t3, t4⟩, hbnd⟩ := h.mid_tag
  simp only at t1 t2 t3 t4 hbnd
  have h2 : Inv st (pre ++ [(s, false)] ++ post) fl := by simpa using h
  have hmid : ∀ x ∈ fl, st.memoryBegin + span pre ≤ x →
      x < st.memoryBegin + span pre + s + 48 → False := by
    intro x hx h1 h3
    obtain ⟨s2, hs2⟩ := h2.fl_in_mid hx h1 (by simp only [span]; omega)
    simp [blocksFrom] at hs2
  have hle : st.memoryBegin ≤ st.memoryBegin + span pre := by omega
  generalize hcdef : st.memoryBegin + span pre = c at *
  obtain ⟨e, he⟩ : ∃ e, e = c + 32 + s := ⟨_, rfl⟩
  rw [← he] at t3
  have hcfl : c ∉ fl := h.not_mem_fl t2
  obtain ⟨st3, hadd, a1, a2, a3, a4, a5, a6, a7⟩ :=
    addFreeMemoryBlock_spec ((st.setIsFree c true).setEndIsFree e true) fl c
      (fun x hx => by simpa using h.fl_valid hx) (by simp; omega)
      (by
        simp only [setEndIsFree_head, setIsFree_head, setEndIsFree_beginAt]
        exact DLL.frame (fun x _ => by simp) h.dll)
      h.nodup hcfl (by simpa using t4)
  refine ⟨st3, ?_, by simp [a1], ?_⟩
  · unfold markFreeAndInsert getMemoryBlockBounds
    simp only [sizeofBeginMarker, Nat.add_sub_cancel]
    rw [loadBegin_eq st c (by omega)]
    simp only [Option.bind_eq_bind, Option.some_bind, Option.pure_def, t1]
    rw [writeIsFree_eq st c true (by omega), Option.some_bind, ← he,
      writeEndIsFree_eq (st.setIsFree c true) e true (by simp; omega), Option.some_bind]
    exact hadd
  · have := Inv.replace ([(s, true)]) (st3) (c :: fl) h2
      (by simp [a1]) (by simp [a2]) (by simp only [span]) c hcdef.symm ?_ ?_ ?_ ?_ ?_
      (List.nodup_cons.2 ⟨hcfl, h.nodup⟩) ?_
    · simpa using this
    · intro x hx
      simp only [span] at hx
      have hxc : x ≠ c := by omega
      simp [a4, hxc]
    · intro x hx hf
      simp only [span] at hx
      have hxc : x ≠ c := by omega
      rw [a5 x (h.not_mem_fl hf) hxc]
      show (st.setIsFree c true).beginAt x = _
      rw [setIsFree_beginAt_ne _ _ _ _ hxc]
    · intro y hy
      simp only [span] at hy
      have hye : y ≠ e := by omega
      rw [a3, setEndIsFree_endAt_ne _ _ _ _ hye]
      rfl
    · intro t ht
      simp only [blocksFrom, List.mem_singleton] at ht
      subst ht
      refine ⟨by simp [a4, t1], by simp [a4], ?_, by simp⟩
      show st3.endAt (c + 32 + s) = _
      rw [← he, a3]
      apply EndMarker.eq_mk
      · simp [t3]
      · simp
    · exact a7
    · intro x
      have hex : (∃ s2, (x, s2, true) ∈ blocksFrom c [(s, true)]) ↔ x = c := by
        simp [blocksFrom]
      rw [hex]
      simp only [List.mem_cons, span]
      constructor
      · rintro (hx | hx)
        · right; exact hx
        · left
          refine ⟨hx, ?_⟩
          by_contra hcon
          exact hmid x hx (by omega) (by omega)
      · rintro (⟨hx, -⟩ | hx)
        · right; exact hx
        · left; exact hx

/-! ## The effect of `free` -/

/-- The backward step, all cases: a free predecessor is absorbed (`A` counts the
absorbed bytes); any other predecessor, or none, leaves the state alone. -/
theorem coalesceBackward_spec {st : SimpleAllocator} {pre post : List (Nat × Bool)} {s : Nat}
    {fl : List Nat} (h : Inv st (pre ++ (s, false) :: post) fl) :
    ∃ st1 pre0 A fl1,
      st.coalesceBackward (st.memoryBegin + span pre + 32)
        = some (st1, st.memoryBegin + span pre0 + 32)
      ∧ st1.memoryBegin = st.memoryBegin
      ∧ Inv st1 (pre0 ++ (A + s, false) :: post) fl1
      ∧ ((pre0 = pre ∧ A = 0 ∧ (∀ pre2 sp, pre ≠ pre2 ++ [(sp, true)]) ∧ fl1 = fl)
        ∨ (∃ sp, pre = pre0 ++ [(sp, true)] ∧ A = sp + 48
            ∧ fl1 = fl.erase (st.memoryBegin + span pre0))) := by
  rcases List.eq_nil_or_concat pre with hnil | ⟨pre2, b, hb⟩
  · subst hnil
    refine ⟨st, [], 0, fl, ?_, rfl, by simpa using h, Or.inl ⟨rfl, rfl, by simp, rfl⟩⟩
    have := coalesceBackward_first (by simpa using h : Inv st ((s, false) :: post) fl)
    simpa [span] using this
  · obtain ⟨sp, f⟩ := b
    have hb2 : pre = pre2 ++ [(sp, f)] := by simpa using hb
    subst hb2
    have hsp : span (pre2 ++ [(sp, f)]) = span pre2 + sp + 48 := by
      simp only [span_append, span]; omega
    cases f with
    | false =>
      have h2 : Inv st (pre2 ++ (sp, false) :: (s, false) :: post) fl := by simpa using h
      refine ⟨st, pre2 ++ [(sp, false)], 0, fl, ?_, rfl, by simpa using h,
        Or.inl ⟨rfl, rfl, ?_, rfl⟩⟩
      · have := coalesceBackward_used h2
        rw [hsp, ← Nat.add_assoc, ← Nat.add_assoc]
        exact this
      · intro pre3 sp3 he
        have := List.append_inj' he rfl
        simp at this
    | true =>
      have h2 : Inv st (pre2 ++ (sp, true) :: (s, false) :: post) fl := by simpa using h
      obtain ⟨st2, e1, e2, e3⟩ := coalesceBackward_merge h2
      refine ⟨st2, pre2, sp + 48, fl.erase (st.memoryBegin + span pre2), ?_, e2, ?_,
        Or.inr ⟨sp, rfl, rfl, rfl⟩⟩
      · rw [hsp, ← Nat.add_assoc, ← Nat.add_assoc]
        exact e1
      · have : sp + 48 + s = sp + s + 48 := by omega
        rw [this]; exact e3

/-- The forward step, all cases: a free successor is absorbed (`A` counts the
absorbed bytes); any other successor, or none, leaves the state alone. -/
theorem coalesceForward_spec {st : SimpleAllocator} {pre post : List (Nat × Bool)} {s : Nat}
    {fl : List Nat} (h : Inv st (pre ++ (s, false) :: post) fl) :
    ∃ st1 post0 A fl1,
      st.coalesceForward (st.memoryBegin + span pre + 32) = some st1
      ∧ st1.memoryBegin = st.memoryBegin
      ∧ Inv st1 (pre ++ (s + A, false) :: post0) fl1
      ∧ ((post0 = post ∧ A = 0 ∧ (∀ sn post2, post ≠ (sn, true) :: post2) ∧ fl1 = fl)
        ∨ (∃ sn, post = (sn, true) :: post0 ∧ A = sn + 48
            ∧ fl1 = fl.erase (st.memoryBegin + span pre + s + 48))) := by
  cases post with
  | nil =>
    exact ⟨st, [], 0, fl, coalesceForward_last h, rfl, by simpa using h,
      Or.inl ⟨rfl, rfl, by simp, rfl⟩⟩
  | cons b post2 =>
    obtain ⟨sn, f⟩ := b
    cases f with
    | false =>
      exact ⟨st, (sn, false) :: post2, 0, fl, coalesceForward_used h, rfl, by simpa using h,
        Or.inl ⟨rfl, rfl, by simp, rfl⟩⟩
    | true =>
      obtain ⟨st2, e1, e2, e3⟩ := coalesceForward_merge h
      refine ⟨st2, post2, sn + 48, _, e1, e2, ?_, Or.inr ⟨sn, rfl, rfl, rfl⟩⟩
      have : s + (sn + 48) = s + sn + 48 := by omega
      rw [this]; exact e3

/-- The effect of releasing the payload pointer of a used block, in a state
satisfying the invariant: the free neighbours (if any) are unlinked and
absorbed, and the resulting free block becomes the head of the free list.
`A` and `B` count the bytes absorbed from the predecessor and the successor. -/
theorem free_spec {st : SimpleAllocator} {pre post : List (Nat × Bool)} {s : Nat}
    {fl : List Nat} (h : Inv st (pre ++ (s, false) :: post) fl) :
    ∃ st2 pre0 post0 A B fl1 fl2,
      st.free (st.memoryBegin + span pre + 32) = some st2
      ∧ st2.memoryBegin = st.memoryBegin
      ∧ Inv st2 (pre0 ++ (A + s + B, true) :: post0) ((st.memoryBegin + span pre0) :: fl2)
      ∧ ((pre0 = pre ∧ A = 0 ∧ (∀ pre2 sp, pre ≠ pre2 ++ [(sp, true)]) ∧ fl1 = fl)
        ∨ (∃ sp, pre = pre0 ++ [(sp, true)] ∧ A = sp + 48
            ∧ fl1 = fl.erase (st.memoryBegin + span pre0)))
      ∧ ((post0 = post ∧ B = 0 ∧ (∀ sn post2, post ≠ (sn, true) :: post2) ∧ fl2 = fl1)
        ∨ (∃ sn, post = (sn, true) :: post0 ∧ B = sn + 48
            ∧ fl2 = fl1.erase (st.memoryBegin + span pre + s + 48))) := by
  obtain ⟨⟨t1, t2, t3, -⟩, hbnd⟩ := h.mid_tag
  simp only at t1 t2 t3 hbnd
  obtain ⟨st1, pre0, A, fl1, b1, b2, b3, b4⟩ := coalesceBackward_spec h
  obtain ⟨st2, post0, B, fl2, c1, c2, c3, c4⟩ := coalesceForward_spec b3
  obtain ⟨st3, d1, d2, d3⟩ := markFreeAndInsert_spec c3
  have hsame : st.memoryBegin + span pre0 + (A + s) = st.memoryBegin + span pre + s := by
    rcases b4 with ⟨e1, e2, -, -⟩ | ⟨sp, e1, e2, -⟩
    · subst e1 e2; omega
    · subst e1 e2
      simp only [span_append, span]; omega
  refine ⟨st3, pre0, post0, A, B, fl1, fl2, ?_, by rw [d2, c2, b2], ?_, b4, ?_⟩
  · unfold free
    simp only [sizeofBeginMarker, Nat.add_sub_cancel]
    rw [loadBegin_eq _ _ (by omega)]
    simp only [Option.bind_eq_bind, Option.some_bind, t2, Bool.false_eq_true, if_false, b1]
    rw [b2] at c1
    rw [c1, Option.some_bind]
    rw [c2, b2] at d1
    exact d1
  · rw [c2, b2] at d3
    have : A + s + B = A + s + B := rfl
    exact d3
  · rw [b2] at c4
    rcases c4 with ⟨e1, e2, e3, e4⟩ | ⟨sn, e1, e2, e3⟩
    · exact Or.inl ⟨e1, e2, e3, e4⟩
    · refine Or.inr ⟨sn, e1, e2, ?_⟩
      rw [e3]
      congr 1
      omega

/-! ## Construction -/

@[simp] theorem attach_head (B : Nat → BeginMarker) (E : Nat → EndMarker) (base S : Nat) :
    (attach B E base S).head = some base := rfl
@[simp] theorem attach_memoryBegin (B : Nat → BeginMarker) (E : Nat → EndMarker)
    (base S : Nat) : (attach B E base S).memoryBegin = base := rfl
@[simp] theorem attach_totalMemorySize (B : Nat → BeginMarker) (E : Nat → EndMarker)
    (base S : Nat) : (attach B E base S).totalMemorySize = S := rfl
@[simp] theorem attach_beginAt (B : Nat → BeginMarker) (E : Nat → EndMarker) (base S : Nat) :
    (attach B E base S).beginAt = B := rfl
@[simp] theorem attach_endAt (B : Nat → BeginMarker) (E : Nat → EndMarker) (base S : Nat) :
    (attach B E base S).endAt = E := rfl

/-- The writes of the constructor on an arena that can hold a tag pair. -/
theorem new_eval (B : Nat → BeginMarker) (E : Nat → EndMarker) (base S e : Nat)
    (hS : 48 ≤ S) (hW : S < 18446744073709551616) (he : e + 16 = base + S) :
    SimpleAllocator.new B E base S = some
      (((((((attach B E base S).setBlockSize base (S - 48)).setIsFree base true).setNext
        base none).setPrev base none).setEndBlockSize e (S - 48)).setEndIsFree e true) := by
  have hsub : subSize (subSize S 32) 16 = S - 48 := by
    rw [subSize_eq S 32 hW (by omega), subSize_eq _ 16 (by omega) (by omega)]
    omega
  have he2 : base + S - 16 = e := by omega
  unfold SimpleAllocator.new
  simp only [sizeofBeginMarker, sizeofEndMarker, hsub, Option.bind_eq_bind, he2]
  rw [writeBlockSize_eq, Option.some_bind, writeIsFree_eq, Option.some_bind, writeNext_eq,
    Option.some_bind, writePrev_eq, Option.some_bind, loadBegin_eq, Option.some_bind]
  simp only [setPrev_blockSize, setNext_blockSize, setIsFree_blockSize, setBlockSize_blockSize,
    setPrev_isFree, setNext_isFree, setIsFree_isFree, if_true]
  rw [writeEndBlockSize_eq, Option.some_bind, writeEndIsFree_eq]
  all_goals
    try simp only [setBlockSize_memoryBegin, setBlockSize_totalMemorySize, setIsFree_memoryBegin,
      setIsFree_totalMemorySize, setNext_memoryBegin, setNext_totalMemorySize,
      setPrev_memoryBegin, setPrev_totalMemorySize, setEndBlockSize_memoryBegin,
      setEndBlockSize_totalMemorySize, attach_memoryBegin, attach_totalMemorySize]
    omega

/-- After construction the arena is one free block, which is the only member
of the free list. -/
theorem new_spec (B : Nat → BeginMarker) (E : Nat → EndMarker) (base S : Nat)
    (hS : 48 ≤ S) (hW : S < 18446744073709551616) :
    ∃ st, SimpleAllocator.new B E base S = some st ∧ st.memoryBegin = base
      ∧ st.totalMemorySize = S ∧ Inv st [(S - 48, true)] [base] := by
  obtain ⟨e, he⟩ : ∃ e, e + 16 = base + S := ⟨base + S - 16, by omega⟩
  refine ⟨_, new_eval B E base S e hS hW he, by simp, by simp, ?_⟩
  refine ⟨by simpa using hW, by simp only [span]; simp; omega, ?_, ?_, by simp, ?_⟩
  · intro t ht
    simp only [setEndIsFree_memoryBegin, setEndBlockSize_memoryBegin, setPrev_memoryBegin,
      setNext_memoryBegin, setIsFree_memoryBegin, setBlockSize_memoryBegin, blocksFrom,
      List.mem_singleton, attach_memoryBegin] at ht
    subst ht
    refine ⟨by simp, by simp, ?_, by simp⟩
    show SimpleAllocator.endAt _ (base + 32 + (S - 48)) = _
    have : base + 32 + (S - 48) = e := by omega
    rw [this]
    apply EndMarker.eq_mk
    · simp
    · simp
  · simp only [setEndIsFree_head, setEndBlockSize_head, setPrev_head, setNext_head,
      setIsFree_head, setBlockSize_head]
    refine ⟨rfl, by simp, ?_⟩
    show _ = none
    simp
  · intro x
    simp [blocksFrom]

/-! ## Live allocations and reachable states -/

theorem mem_blocksFrom_three (a : Nat) (pre mid post : List (Nat × Bool))
    (t : Nat × Nat × Bool) :
    t ∈ blocksFrom a (pre ++ mid ++ post) ↔
      t ∈ blocksFrom a pre ∨ t ∈ blocksFrom (a + span pre) mid
        ∨ t ∈ blocksFrom (a + span pre + span mid) post := by
  rw [blocksFrom_append, blocksFrom_append, span_append, ← Nat.add_assoc]
  simp only [List.mem_append, or_assoc]

theorem LiveOK.add {bl bl2 : List (Nat × Nat × Bool)} {live : List (Nat × Nat)} {c s n : Nat}
    (h : LiveOK bl live)
    (hiff : ∀ a s2, (a, s2, false) ∈ bl2 ↔ (a, s2, false) ∈ bl ∨ (a = c ∧ s2 = s))
    (hnew : ∀ s2, (c, s2, false) ∉ bl) (hn : n ≤ s) :
    LiveOK bl2 ((c + 32, n) :: live) := by
  obtain ⟨h1, h2, h3⟩ := h
  refine ⟨?_, ?_, ?_⟩
  · simp only [List.map_cons, List.nodup_cons]
    refine ⟨?_, h1⟩
    intro hm
    obtain ⟨⟨p, m⟩, hpm, he⟩ := List.mem_map.1 hm
    simp only at he
    subst he
    obtain ⟨-, s2, hs2, -⟩ := h2 _ _ hpm
    simp only [Nat.add_sub_cancel] at hs2
    exact hnew s2 hs2
  · intro p m hpm
    rcases List.mem_cons.1 hpm with he | hpm
    · simp only [Prod.mk.injEq] at he
      obtain ⟨rfl, rfl⟩ := he
      refine ⟨by omega, s, ?_, hn⟩
      simp only [Nat.add_sub_cancel]
      exact (hiff _ _).2 (Or.inr ⟨rfl, rfl⟩)
    · obtain ⟨g1, s2, g2, g3⟩ := h2 _ _ hpm
      exact ⟨g1, s2, (hiff _ _).2 (Or.inl g2), g3⟩
  · intro a s2 ha
    rcases (hiff _ _).1 ha with ha | ⟨rfl, rfl⟩
    · obtain ⟨m, hm⟩ := h3 _ _ ha
      exact ⟨m, List.mem_cons_of_mem _ hm⟩
    · exact ⟨n, List.mem_cons_self _ _⟩

theorem LiveOK.remove {bl bl2 : List (Nat × Nat × Bool)} {live : List (Nat × Nat)} {c n : Nat}
    (h : LiveOK bl live)
    (hiff : ∀ a s2, (a, s2, false) ∈ bl2 ↔ (a, s2, false) ∈ bl ∧ a ≠ c)
    (hmem : (c + 32, n) ∈ live) :
    LiveOK bl2 (live.erase (c + 32, n)) := by
  obtain ⟨h1, h2, h3⟩ := h
  have hnd : live.Nodup := List.Nodup.of_map _ h1
  refine ⟨?_, ?_, ?_⟩
  · exact h1.sublist ((List.erase_sublist _ _).map _)
  · intro p m hpm
    have hpm2 : (p, m) ∈ live := List.mem_of_mem_erase hpm
    obtain ⟨g1, s2, g2, g3⟩ := h2 _ _ hpm2
    refine ⟨g1, s2, (hiff _ _).2 ⟨g2, ?_⟩, g3⟩
    intro hc
    have hp : p = c + 32 := by omega
    subst hp
    have hmn : m = n := by
      have := List.inj_on_of_nodup_map h1 hpm2 hmem rfl
      simpa using this
    subst hmn
    exact (List.Nodup.not_mem_erase hnd) hpm
  · intro a s2 ha
    obtain ⟨ha1, ha2⟩ := (hiff _ _).1 ha
    obtain ⟨m, hm⟩ := h3 _ _ ha1
    refine ⟨m, (List.mem_erase_of_ne ?_).2 hm⟩
    intro he
    simp only [Prod.mk.injEq] at he
    omega

theorem used_whole (base : Nat) (pre post : List (Nat × Bool)) (s : Nat) :
    (∀ a s2, (a, s2, false) ∈ blocksFrom base (pre ++ (s, false) :: post) ↔
      (a, s2, false) ∈ blocksFrom base (pre ++ (s, true) :: post)
        ∨ (a = base + span pre ∧ s2 = s))
    ∧ ∀ s2, (base + span pre, s2, false) ∉ blocksFrom base (pre ++ (s, true) :: post) := by
  have e1 : pre ++ (s, false) :: post = pre ++ [(s, false)] ++ post := by simp
  have e2 : pre ++ (s, true) :: post = pre ++ [(s, true)] ++ post := by simp
  rw [e1, e2]
  constructor
  · intro a s2
    rw [mem_blocksFrom_three, mem_blocksFrom_three]
    simp only [blocksFrom, span, List.mem_singleton, Prod.mk.injEq, Bool.false_eq_true,
      and_false, false_or, and_true]
    tauto
  · intro s2 hm
    rw [mem_blocksFrom_three] at hm
    simp only [blocksFrom, span, List.mem_singleton, Prod.mk.injEq, Bool.false_eq_true,
      and_false, false_or] at hm
    rcases hm with hm | hm
    · have := mem_blocksFrom_bounds hm
      simp only at this; omega
    · have := mem_blocksFrom_bounds hm
      simp only at this; omega

theorem used_split (base : Nat) (pre post : List (Nat × Bool)) (s n ns : Nat)
    (hs : ns + n + 48 = s) :
    (∀ a s2, (a, s2, false) ∈ blocksFrom base (pre ++ (ns, true) :: (n, false) :: post) ↔
      (a, s2, false) ∈ blocksFrom base (pre ++ (s, true) :: post)
        ∨ (a = base + span pre + ns + 48 ∧ s2 = n))
    ∧ ∀ s2, (base + span pre + ns + 48, s2, false)
        ∉ blocksFrom base (pre ++ (s, true) :: post) := by
  have e1 : pre ++ (ns, true) :: (n, false) :: post = pre ++ [(ns, true), (n, false)] ++ post := by
    simp
  have e2 : pre ++ (s, true) :: post = pre ++ [(s, true)] ++ post := by simp
  rw [e1, e2]
  have hsp : base + span pre + span [(ns, true), (n, false)]
      = base + span pre + span [(s, true)] := by
    simp only [span]; omega
  constructor
  · intro a s2
    rw [mem_blocksFrom_three, mem_blocksFrom_three, hsp]
    simp only [blocksFrom, List.mem_cons, List.mem_singleton, Prod.mk.injEq,
      Bool.false_eq_true, and_false, false_or, and_true, List.not_mem_nil, or_false]
    tauto
  · intro s2 hm
    rw [mem_blocksFrom_three] at hm
    simp only [blocksFrom, span, List.mem_singleton, Prod.mk.injEq, Bool.false_eq_true,
      and_false, false_or] at hm
    rcases hm with hm | hm
    · have := mem_blocksFrom_bounds hm
      simp only at this; omega
    · have := mem_blocksFrom_bounds hm
      simp only at this; omega

theorem used_free (base : Nat) (pre post pre0 post0 : List (Nat × Bool)) (s A B : Nat)
    (hA : (pre0 = pre ∧ A = 0) ∨ (∃ sp, pre = pre0 ++ [(sp, true)] ∧ A = sp + 48))
    (hB : (post0 = post ∧ B = 0) ∨ (∃ sn, post = (sn, true) :: post0 ∧ B = sn + 48)) :
    ∀ a s2, (a, s2, false) ∈ blocksFrom base (pre0 ++ (A + s + B, true) :: post0) ↔
      (a, s2, false) ∈ blocksFrom base (pre ++ (s, false) :: post) ∧ a ≠ base + span pre := by
  intro a s2
  have key : ∀ (mf1 mf2 : List (Nat × Bool)), (∀ b ∈ mf1, b.2 = true) → (∀ b ∈ mf2, b.2 = true) →
      pre = pre0 ++ mf1 → post = mf2 ++ post0 → A = span mf1 → B = span mf2 →
      ((a, s2, false) ∈ blocksFrom base (pre0 ++ (A + s + B, true) :: post0) ↔
        (a, s2, false) ∈ blocksFrom base (pre ++ (s, false) :: post)
          ∧ a ≠ base + span pre) := by
    intro mf1 mf2 h1 h2 hpre hpost hA2 hB2
    have e1 : pre0 ++ (A + s + B, true) :: post0 = pre0 ++ [(A + s + B, true)] ++ post0 := by
      simp
    have e2 : pre ++ (s, false) :: post = pre0 ++ (mf1 ++ (s, false) :: mf2) ++ post0 := by
      rw [hpre, hpost]; simp
    have hsp : base + span pre0 + span [(A + s + B, true)]
        = base + span pre0 + span (mf1 ++ (s, false) :: mf2) := by
      simp only [span, span_append]; omega
    have hfree : ∀ (l : List (Nat × Bool)) (x : Nat), (∀ b ∈ l, b.2 = true) →
        (a, s2, false) ∉ blocksFrom x l := by
      intro l
      induction l with
      | nil => intro x _; simp [blocksFrom]
      | cons b r ih =>
        intro x hl
        simp only [blocksFrom, List.mem_cons, Prod.mk.injEq, not_or]
        refine ⟨?_, ih _ (fun b hb => hl b (List.mem_cons_of_mem _ hb))⟩
        have := hl b (List.mem_cons_self _ _)
        rw [this]; simp
    have hc : base + span pre = base + span pre0 + span mf1 := by
      rw [hpre, span_append]; omega
    rw [e1, e2, mem_blocksFrom_three, mem_blocksFrom_three, hsp, blocksFrom_append, hc]
    simp only [blocksFrom, List.mem_singleton, Prod.mk.injEq, Bool.false_eq_true, and_false,
      false_or, List.mem_append, List.mem_cons, and_true, List.not_mem_nil]
    have n1 := hfree mf1 (base + span pre0) h1
    have n2 := hfree mf2 (base + span pre0 + span mf1 + s + 48) h2
    constructor
    · rintro (hm | hm)
      · refine ⟨Or.inl hm, ?_⟩
        have := mem_blocksFrom_bounds hm
        simp only at this; omega
      · refine ⟨Or.inr (Or.inr hm), ?_⟩
        have := mem_blocksFrom_bounds hm
        simp only [span_append, span] at this; omega
    · rintro ⟨hm | (hm | ⟨hm, -⟩ | hm) | hm, hne⟩
      · exact Or.inl hm
      · exact absurd hm n1
      · exact absurd hm hne
      · exact absurd hm n2
      · exact Or.inr hm
  rcases hA with ⟨rfl, rfl⟩ | ⟨sp, rfl, rfl⟩ <;> rcases hB with ⟨rfl, rfl⟩ | ⟨sn, rfl, rfl⟩
  · exact key [] [] (by simp) (by simp) (by simp) (by simp) (by simp [span]) (by simp [span])
  · exact key [] [(sn, true)] (by simp) (by simp) (by simp) (by simp) (by simp [span])
      (by simp [span])
  · exact key [(sp, true)] [] (by simp) (by simp) (by simp) (by simp) (by simp [span])
      (by simp [span])
  · exact key [(sp, true)] [(sn, true)] (by simp) (by simp) (by simp) (by simp)
      (by simp [span]) (by simp [span])

/-- Every reachable state satisfies the representation invariant, and its live
allocations are exactly its used blocks. -/
theorem Reach.inv {st : SimpleAllocator} {live : List (Nat × Nat)} (h : Reach st live) :
    ∃ bs fl, Inv st bs fl ∧ LiveOK (blocksFrom st.memoryBegin bs) live := by
  induction h with
  | init B E base S st hS hW hnew =>
    obtain ⟨st0, h0, hb, -, hI⟩ := new_spec B E base S hS hW
    rw [h0] at hnew
    cases hnew
    refine ⟨_, _, hI, ?_⟩
    refine ⟨by simp, by simp, ?_⟩
    intro a s ha
    simp [blocksFrom] at ha
  | allocSome st st2 live n p _ hn ha ih =>
    obtain ⟨bs, fl, hI, hL⟩ := ih
    have hn0 : n ≠ 0 := by
      rintro rfl
      simp [alloc] at ha
    rcases alloc_spec hI hn0 hn with ⟨e, -⟩ |
      ⟨pre, s, post, st3, l1, l2, hbs, hs, -, -, e, eb, hI3⟩ |
      ⟨pre, s, post, st3, l1, l2, hbs, hs, -, -, e, eb, hI3⟩
    · rw [e] at ha; simp at ha
    · rw [e] at ha
      simp only [Option.some.injEq, Prod.mk.injEq] at ha
      obtain ⟨rfl, rfl⟩ := ha
      subst hbs
      refine ⟨_, _, hI3, ?_⟩
      rw [eb]
      obtain ⟨u1, u2⟩ := used_whole st.memoryBegin pre post s
      exact hL.add u1 u2 (by omega)
    · rw [e] at ha
      simp only [Option.some.injEq, Prod.mk.injEq] at ha
      obtain ⟨rfl, rfl⟩ := ha
      subst hbs
      refine ⟨_, _, hI3, ?_⟩
      rw [eb]
      obtain ⟨u1, u2⟩ := used_split st.memoryBegin pre post s n (s - n - 48) (by omega)
      have hp : st.memoryBegin + span pre + (s - n - 48) + 80
          = (st.memoryBegin + span pre + (s - n - 48) + 48) + 32 := by omega
      rw [hp]
      exact hL.add u1 u2 (Nat.le_refl _)
  | allocNone st st2 live n _ hn ha ih =>
    obtain ⟨bs, fl, hI, hL⟩ := ih
    by_cases hn0 : n = 0
    · subst hn0
      simp only [alloc, if_true, Option.some.injEq, Prod.mk.injEq, true_and] at ha
      subst ha
      exact ⟨bs, fl, hI, hL⟩
    · rcases alloc_spec hI hn0 hn with ⟨e, -⟩ |
        ⟨pre, s, post, st3, l1, l2, hbs, hs, -, -, e, eb, hI3⟩ |
        ⟨pre, s, post, st3, l1, l2, hbs, hs, -, -, e, eb, hI3⟩
      · rw [e] at ha
        simp only [Option.some.injEq, Prod.mk.injEq, true_and] at ha
        subst ha
        exact ⟨bs, fl, hI, hL⟩
      · rw [e] at ha; simp at ha
      · rw [e] at ha; simp at ha
  | release st st2 live p n _ hm hf ih =>
    obtain ⟨bs, fl, hI, hL⟩ := ih
    obtain ⟨hp, s, hs, -⟩ := hL.2.1 p n hm
    obtain ⟨pre, post, hbs, hc⟩ := mem_blocksFrom_split hs
    simp only at hbs hc
    have hpc : p = st.memoryBegin + span pre + 32 := by omega
    subst hbs
    obtain ⟨st3, pre0, post0, A, B, fl1, fl2, e1, e2, e3, e4, e5⟩ := free_spec hI
    rw [hpc] at hf hm ⊢
    rw [e1] at hf
    cases hf
    refine ⟨_, _, e3, ?_⟩
    rw [e2]
    refine hL.remove (used_free st.memoryBegin pre post pre0 post0 s A B ?_ ?_) hm
    · rcases e4 with ⟨g1, g2, -, -⟩ | ⟨sp, g1, g2, -⟩
      · exact Or.inl ⟨g1, g2⟩
      · exact Or.inr ⟨sp, g1, g2⟩
    · rcases e5 with ⟨g1, g2, -, -⟩ | ⟨sn, g1, g2, -⟩
      · exact Or.inl ⟨g1, g2⟩
      · exact Or.inr ⟨sn, g1, g2⟩

/-! ## Walking the arena and the free list -/

theorem length_le_span (bs : List (Nat × Bool)) : bs.length ≤ span bs := by
  induction bs with
  | nil => simp [span]
  | cons b r ih => simp only [List.length_cons, span]; omega

theorem walkFrom_blocks (st : SimpleAllocator) :
    ∀ (bs : List (Nat × Bool)) (a fuel : Nat),
      (∀ t ∈ blocksFrom a bs, (st.beginAt t.1).blockSize = t.2.1
        ∧ (st.beginAt t.1).isFree = t.2.2) →
      a + span bs = st.memoryBegin + st.totalMemorySize → st.memoryBegin ≤ a →
      bs.length < fuel → walkFrom fuel st a = some (blocksFrom a bs) := by
  intro bs
  induction bs with
  | nil =>
    intro a fuel _ ha _ hf
    obtain ⟨k, rfl⟩ : ∃ k, fuel = k + 1 := ⟨fuel - 1, by simp at hf; omega⟩
    simp only [span] at ha
    simp [walkFrom, blocksFrom, ← ha]
  | cons b r ih =>
    intro a fuel ht ha hb hf
    obtain ⟨k, rfl⟩ : ∃ k, fuel = k + 1 := ⟨fuel - 1, by simp at hf; omega⟩
    simp only [span] at ha
    have hne : a ≠ st.memoryBegin + st.totalMemorySize := by omega
    obtain ⟨h1, h2⟩ := ht (a, b.1, b.2) (by simp [blocksFrom])
    simp only at h1 h2
    have hrec := ih (a + b.1 + 48) k
      (fun t htm => ht t (by simp only [blocksFrom, List.mem_cons]; exact Or.inr htm))
      (by omega) (by omega) (by simpa using hf)
    have e : a + 32 + b.1 + 16 = a + b.1 + 48 := by omega
    simp only [walkFrom, if_neg hne, loadBegin_eq st a (by omega), sizeofBeginMarker,
      sizeofEndMarker, h1, h2, e, hrec, Option.map_some', blocksFrom]

/-- In a state satisfying the invariant the walk over the arena finds exactly
the blocks of the tiling. -/
theorem Inv.tiling_eq {st : SimpleAllocator} {bs : List (Nat × Bool)} {fl : List Nat}
    (h : Inv st bs fl) : tiling st = some (blocksFrom st.memoryBegin bs) := by
  unfold tiling
  apply walkFrom_blocks
  · intro t ht
    exact ⟨(h.tags t ht).1, (h.tags t ht).2.1⟩
  · rw [h.span_eq]
  · exact Nat.le_refl _
  · have := length_le_span bs
    rw [h.span_eq] at this
    omega

theorem chainFrom_dll (st : SimpleAllocator) :
    ∀ (l : List Nat) (p cur : Option Nat) (fuel : Nat), DLL st.beginAt p cur l →
      (∀ x ∈ l, st.memoryBegin ≤ x ∧ x + 32 ≤ st.memoryBegin + st.totalMemorySize) →
      l.length < fuel → chainFrom fuel st cur = some l := by
  intro l
  induction l with
  | nil =>
    intro p cur fuel hd _ hf
    obtain ⟨k, rfl⟩ : ∃ k, fuel = k + 1 := ⟨fuel - 1, by simp at hf; omega⟩
    have : cur = none := hd
    subst this
    rfl
  | cons a r ih =>
    intro p cur fuel hd hv hf
    obtain ⟨k, rfl⟩ : ∃ k, fuel = k + 1 := ⟨fuel - 1, by simp at hf; omega⟩
    obtain ⟨h1, h2, h3⟩ := hd
    subst h1
    have hrec := ih (some a) _ k h3 (fun x hx => hv x (List.mem_cons_of_mem _ hx))
      (by simpa using hf)
    simp only [chainFrom, loadBegin_eq st a (hv a (List.mem_cons_self _ _)), hrec,
      Option.map_some']

/-- In a state satisfying the invariant the walk along the `nextFreeBlock`
pointers finds exactly the free list. -/
theorem Inv.freeList_eq {st : SimpleAllocator} {bs : List (Nat × Bool)} {fl : List Nat}
    (h : Inv st bs fl) : freeList st = some fl := by
  unfold freeList
  exact chainFrom_dll st fl none st.head _ h.dll (fun x hx => h.fl_valid hx)
    (by have := h.fl_length_le; omega)

theorem sum_blocksFrom (a : Nat) (bs : List (Nat × Bool)) :
    ((blocksFrom a bs).map (fun t => t.2.1 + 48)).sum = span bs := by
  induction bs generalizing a with
  | nil => simp [blocksFrom, span]
  | cons b r ih => simp only [blocksFrom, List.map_cons, List.sum_cons, span, ih]

/-- Two different blocks of a tiling occupy disjoint address ranges. -/
theorem blocksFrom_disjoint {a : Nat} {bs : List (Nat × Bool)} {t u : Nat × Nat × Bool}
    (ht : t ∈ blocksFrom a bs) (hu : u ∈ blocksFrom a bs) :
    t = u ∨ t.1 + t.2.1 + 48 ≤ u.1 ∨ u.1 + u.2.1 + 48 ≤ t.1 := by
  induction bs generalizing a with
  | nil => simp [blocksFrom] at ht
  | cons b r ih =>
    simp only [blocksFrom, List.mem_cons] at ht hu
    rcases ht with rfl | ht <;> rcases hu with rfl | hu
    · left; rfl
    · right; left
      have := mem_blocksFrom_bounds hu
      simp only; omega
    · right; right
      have := mem_blocksFrom_bounds ht
      simp only; omega
    · exact ih ht hu

/-! ## Failed allocation -/

theorem takeWholeBlock_ptr {st st2 : SimpleAllocator} {c : Nat} {r : Option Nat}
    (h : st.takeWholeBlock c = some (r, st2)) : r = some (c + 32) := by
  simp only [takeWholeBlock, Option.bind_eq_bind, Option.bind_eq_some, Option.pure_def,
    Option.some.injEq, Prod.mk.injEq, sizeofBeginMarker] at h
  obtain ⟨_, _, _, _, _, _, _, _, _, _, _, _, h1, _⟩ := h
  exact h1.symm

theorem splitBlock_ptr {st st2 : SimpleAllocator} {c n : Nat} {r : Option Nat}
    (h : st.splitBlock c n = some (r, st2)) : ∃ p, r = some p := by
  simp only [splitBlock, Option.bind_eq_bind, Option.bind_eq_some, Option.pure_def,
    Option.some.injEq, Prod.mk.injEq] at h
  obtain ⟨_, _, _, _, _, _, _, _, _, _, _, _, _, _, _, _, _, _, _, _, h1, _⟩ := h
  exact ⟨_, h1.symm⟩

theorem allocLoop_null (n : Nat) :
    ∀ (fuel : Nat) (st st2 : SimpleAllocator) (cur : Option Nat),
      allocLoop fuel st cur n = some (none, st2) → st2 = st := by
  intro fuel
  induction fuel with
  | zero => intro st st2 cur h; simp [allocLoop] at h
  | succ k ih =>
    intro st st2 cur h
    cases cur with
    | none =>
      simp only [allocLoop, Option.some.injEq, Prod.mk.injEq, true_and] at h
      exact h.symm
    | some c =>
      simp only [allocLoop, Option.bind_eq_bind, Option.bind_eq_some] at h
      obtain ⟨m, _, h⟩ := h
      split_ifs at h with h1 h2
      · have := takeWholeBlock_ptr h
        cases this
      · obtain ⟨p, hp⟩ := splitBlock_ptr h
        cases hp
      · exact ih _ _ _ h

/-! ## The example states -/

theorem exampleFresh_eq : SimpleAllocator.new zeroBegin zeroEnd 4096 200 = some exampleFresh :=
  rfl

theorem exampleOne_eq : exampleFresh.alloc 10 = some (some 4270, exampleOne) := rfl

theorem exampleTwo_eq : exampleOne.alloc 20 = some (some 4202, exampleTwo) := rfl

theorem reach_exampleFresh : Reach exampleFresh [] :=
  Reach.init zeroBegin zeroEnd 4096 200 exampleFresh (by decide) (by decide) exampleFresh_eq

theorem reach_exampleOne : Reach exampleOne [(4270, 10)] :=
  Reach.allocSome exampleFresh exampleOne [] 10 4270 reach_exampleFresh (by decide)
    exampleOne_eq

theorem reach_exampleTwo : Reach exampleTwo [(4202, 20), (4270, 10)] :=
  Reach.allocSome exampleOne exampleTwo [(4270, 10)] 20 4202 reach_exampleOne (by decide)
    exampleTwo_eq

/-! ## Links of a doubly linked chain -/

theorem DLL.next_eq_head {B : Nat → BeginMarker} {l : List Nat} {p c : Option Nat}
    (h : DLL B p c l) : c = l.head? := DLL.head_eq h

/-- In a chain without repetition the `prevFreeBlock` links are the inverse of
the `nextFreeBlock` links. -/
theorem DLL.inverse {B : Nat → BeginMarker} {l : List Nat} :
    ∀ {p c : Option Nat}, DLL B p c l → l.Nodup → (∀ z, p = some z → z ∉ l) →
      ∀ x ∈ l, ∀ y ∈ l, ((B x).nextFreeBlock = some y ↔ (B y).prevFreeBlock = some x) := by
  induction l with
  | nil => intro p c _ _ _ x hx; simp at hx
  | cons a r ih =>
    intro p c hd hnd hp x hx y hy
    obtain ⟨h1, h2, h3⟩ := hd
    obtain ⟨har, hnr⟩ := List.nodup_cons.1 hnd
    have hnext_a : ∀ z, (B a).nextFreeBlock = some z → z ∈ r := by
      intro z hz
      have := DLL.head_eq h3
      rw [hz] at this
      exact List.mem_of_mem_head? this.symm
    have hprev_a : ∀ z, (B a).prevFreeBlock = some z → z ∉ a :: r := by
      intro z hz; rw [h2] at hz; exact hp z hz
    rcases List.mem_cons.1 hx with rfl | hxr <;> rcases List.mem_cons.1 hy with rfl | hyr
    · constructor
      · intro e; exact absurd (hnext_a _ e) har
      · intro e; exact absurd (List.mem_cons_self _ _) (hprev_a _ e)
    · rcases DLL.prev_cases h3 hnr y hyr with ⟨e1, e2⟩ | ⟨e1, z, hz, e2⟩
      · rw [e1, e2]; exact ⟨fun _ => rfl, fun _ => rfl⟩
      · constructor
        · intro e; exact absurd e e1
        · intro e
          rw [e2] at e
          cases e
          exact absurd hz har
    · constructor
      · intro e
        rcases DLL.next_mem h3 x hxr with e2 | ⟨z, hz, e2⟩
        · rw [e2] at e; cases e
        · rw [e2] at e; cases e; exact absurd hz har
      · intro e
        exact absurd (List.mem_cons_of_mem _ hxr) (hprev_a _ e)
    · exact ih h3 hnr (fun z hz => by cases hz; exact har) x hxr y hyr

/-! ## Properties of every reachable state -/

/-- C3 (conservation, exact tiling): in every state reached from the
construction of an arena of at least `tagOverhead` bytes by `alloc` calls with
non-wrapping `n + tagOverhead` and releases of live pointers, the walk from
the first arena byte by begin-tag sizes ends exactly at the arena end, and the
blocks it visits account for every byte: the sum of `blockSize + tagOverhead`
over all blocks is the arena size. -/
theorem conservation {st : SimpleAllocator} {live : List (Nat × Nat)} (h : Reach st live) :
    ∃ bl, tiling st = some bl
      ∧ (bl.map (fun t => t.2.1 + tagOverhead)).sum = st.totalMemorySize := by
  obtain ⟨bs, fl, hI, -⟩ := h.inv
  refine ⟨_, hI.tiling_eq, ?_⟩
  have : tagOverhead = 48 := rfl
  rw [this, sum_blocksFrom, hI.span_eq]

theorem conservation_witness :
    Reach exampleTwo [(4202, 20), (4270, 10)]
      ∧ ∃ bl, tiling exampleTwo = some bl
        ∧ (bl.map (fun t => t.2.1 + tagOverhead)).sum = exampleTwo.totalMemorySize :=
  ⟨reach_exampleTwo, conservation reach_exampleTwo⟩

/-- C4 (free-list membership): in every reachable state the walk from `head`
along `nextFreeBlock` ends (the chain is finite) and visits no marker twice
(it is acyclic); it visits the begin tag of a block of the tiling exactly when
that block is free, and never that of a used block; the `prevFreeBlock` links
are the inverse of the `nextFreeBlock` links, the head being the member
without predecessor; and the begin tag of every used block has both links
null. -/
theorem free_list_membership {st : SimpleAllocator} {live : List (Nat × Nat)}
    (h : Reach st live) :
    ∃ bl fl, tiling st = some bl ∧ freeList st = some fl ∧ fl.Nodup
      ∧ (∀ a, a ∈ fl ↔ ∃ s, (a, s, true) ∈ bl)
      ∧ (∀ a s, (a, s, false) ∈ bl → a ∉ fl)
      ∧ (∀ x ∈ fl, ∀ y ∈ fl,
          ((st.beginAt x).nextFreeBlock = some y ↔ (st.beginAt y).prevFreeBlock = some x))
      ∧ (∀ x ∈ fl, ((st.beginAt x).prevFreeBlock = none ↔ st.head = some x))
      ∧ (∀ a s, (a, s, false) ∈ bl →
          (st.beginAt a).nextFreeBlock = none ∧ (st.beginAt a).prevFreeBlock = none) := by
  obtain ⟨bs, fl, hI, -⟩ := h.inv
  refine ⟨_, fl, hI.tiling_eq, hI.freeList_eq, hI.nodup, hI.mem_fl, ?_, ?_, ?_, ?_⟩
  · intro a s ha
    exact hI.not_mem_fl (hI.tags _ ha).2.1
  · exact DLL.inverse hI.dll hI.nodup (by simp)
  · intro x hx
    rcases DLL.prev_cases hI.dll hI.nodup x hx with ⟨e1, e2⟩ | ⟨e1, z, _, e2⟩
    · simp [e1, e2]
    · simp [e1, e2]
  · intro a s ha
    exact (hI.tags _ ha).2.2.2 rfl

theorem free_list_membership_witness :
    Reach exampleTwo [(4202, 20), (4270, 10)]
      ∧ ∃ bl fl, tiling exampleTwo = some bl ∧ freeList exampleTwo = some fl ∧ fl.Nodup
        ∧ (∀ a, a ∈ fl ↔ ∃ s, (a, s, true) ∈ bl)
        ∧ (∀ a s, (a, s, false) ∈ bl → a ∉ fl)
        ∧ (∀ x ∈ fl, ∀ y ∈ fl,
            ((exampleTwo.beginAt x).nextFreeBlock = some y
              ↔ (exampleTwo.beginAt y).prevFreeBlock = some x))
        ∧ (∀ x ∈ fl, ((exampleTwo.beginAt x).prevFreeBlock = none ↔ exampleTwo.head = some x))
        ∧ (∀ a s, (a, s, false) ∈ bl →
            (exampleTwo.beginAt a).nextFreeBlock = none
              ∧ (exampleTwo.beginAt a).prevFreeBlock = none) :=
  ⟨reach_exampleTwo, free_list_membership reach_exampleTwo⟩

/-- C5 (tag mirroring): after construction and after every in-contract call,
for every block of the tiling the end tag located at begin-tag address +
`sizeof(BeginMarker)` + `blockSize` records the same `blockSize` and the same
`isFree` flag as the begin tag of the block. -/
theorem tag_mirroring {st : SimpleAllocator} {live : List (Nat × Nat)} (h : Reach st live) :
    ∃ bl, tiling st = some bl ∧ ∀ t ∈ bl,
      (st.endAt (t.1 + sizeofBeginMarker + (st.beginAt t.1).blockSize)).blockSize
          = (st.beginAt t.1).blockSize
      ∧ (st.endAt (t.1 + sizeofBeginMarker + (st.beginAt t.1).blockSize)).isFree
          = (st.beginAt t.1).isFree := by
  obtain ⟨bs, fl, hI, -⟩ := h.inv
  refine ⟨_, hI.tiling_eq, ?_⟩
  intro t ht
  obtain ⟨t1, t2, t3, -⟩ := hI.tags t ht
  have : sizeofBeginMarker = 32 := rfl
  rw [this, t1, t2, t3]
  exact ⟨rfl, rfl⟩

theorem tag_mirroring_witness :
    Reach exampleTwo [(4202, 20), (4270, 10)]
      ∧ ∃ bl, tiling exampleTwo = some bl ∧ ∀ t ∈ bl,
        (exampleTwo.endAt
            (t.1 + sizeofBeginMarker + (exampleTwo.beginAt t.1).blockSize)).blockSize
            = (exampleTwo.beginAt t.1).blockSize
        ∧ (exampleTwo.endAt
            (t.1 + sizeofBeginMarker + (exampleTwo.beginAt t.1).blockSize)).isFree
            = (exampleTwo.beginAt t.1).isFree :=
  ⟨reach_exampleTwo, tag_mirroring reach_exampleTwo⟩

/-- A live pointer is the payload start of a used block that is at least as
large as the request and lies inside the arena. -/
theorem Reach.live_block {st : SimpleAllocator} {live : List (Nat × Nat)} (h : Reach st live)
    {p n : Nat} (hp : (p, n) ∈ live) :
    ∃ bl s, tiling st = some bl ∧ 32 ≤ p ∧ (p - 32, s, false) ∈ bl ∧ n ≤ s
      ∧ st.memoryBegin + 32 ≤ p ∧ p + s + 16 ≤ st.memoryBegin + st.totalMemorySize := by
  obtain ⟨bs, fl, hI, hL⟩ := h.inv
  obtain ⟨h1, s, h2, h3⟩ := hL.2.1 p n hp
  have := hI.block_bounds h2
  simp only at this
  exact ⟨_, s, hI.tiling_eq, h1, h2, h3, by omega, by omega⟩

/-- C6 (live payloads never overlap): in every reachable state, the payload
ranges `[p1, p1 + n1)` and `[p2, p2 + n2)` of two distinct live pointers are
disjoint, and neither contains a byte of a begin tag `[a, a + 32)` or an end
tag `[a + 32 + s, a + 48 + s)` of a block `(a, s)` of the current tiling. -/
theorem live_payloads_disjoint {st : SimpleAllocator} {live : List (Nat × Nat)}
    (h : Reach st live) {p1 n1 p2 n2 : Nat} (h1 : (p1, n1) ∈ live) (h2 : (p2, n2) ∈ live)
    (hne : p1 ≠ p2) :
    (p1 + n1 ≤ p2 ∨ p2 + n2 ≤ p1)
      ∧ ∃ bl, tiling st = some bl ∧ ∀ t ∈ bl,
        (p1 + n1 ≤ t.1 ∨ t.1 + sizeofBeginMarker ≤ p1)
        ∧ (p1 + n1 ≤ t.1 + sizeofBeginMarker + t.2.1
            ∨ t.1 + sizeofBeginMarker + t.2.1 + sizeofEndMarker ≤ p1)
        ∧ (p2 + n2 ≤ t.1 ∨ t.1 + sizeofBeginMarker ≤ p2)
        ∧ (p2 + n2 ≤ t.1 + sizeofBeginMarker + t.2.1
            ∨ t.1 + sizeofBeginMarker + t.2.1 + sizeofEndMarker ≤ p2) := by
  obtain ⟨bs, fl, hI, hL⟩ := h.inv
  obtain ⟨a1, s1, b1, c1⟩ := hL.2.1 p1 n1 h1
  obtain ⟨a2, s2, b2, c2⟩ := hL.2.1 p2 n2 h2
  have hB : sizeofBeginMarker = 32 := rfl
  have hE : sizeofEndMarker = 16 := rfl
  constructor
  · rcases blocksFrom_disjoint b1 b2 with e | e | e
    · simp only [Prod.mk.injEq] at e
      omega
    · simp only at e; omega
    · simp only at e; omega
  · refine ⟨_, hI.tiling_eq, ?_⟩
    intro t ht
    rw [hB, hE]
    have d1 := blocksFrom_disjoint b1 ht
    have d2 := blocksFrom_disjoint b2 ht
    refine ⟨?_, ?_, ?_, ?_⟩
    · rcases d1 with e | e | e
      · rw [← e]; simp only; omega
      · simp only at e; omega
      · simp only at e; omega
    · rcases d1 with e | e | e
      · rw [← e]; simp only; omega
      · simp only at e; omega
      · simp only at e; omega
    · rcases d2 with e | e | e
      · rw [← e]; simp only; omega
      · simp only at e; omega
      · simp only at e; omega
    · rcases d2 with e | e | e
      · rw [← e]; simp only; omega
      · simp only at e; omega
      · simp only at e; omega

theorem live_payloads_disjoint_witness :
    Reach exampleTwo [(4202, 20), (4270, 10)]
      ∧ (4202, 20) ∈ [(4202, 20), (4270, 10)] ∧ (4270, 10) ∈ [(4202, 20), (4270, 10)]
      ∧ 4202 ≠ 4270
      ∧ ((4202 + 20 ≤ 4270 ∨ 4270 + 10 ≤ 4202)
        ∧ ∃ bl, tiling exampleTwo = some bl ∧ ∀ t ∈ bl,
          (4202 + 20 ≤ t.1 ∨ t.1 + sizeofBeginMarker ≤ 4202)
          ∧ (4202 + 20 ≤ t.1 + sizeofBeginMarker + t.2.1
              ∨ t.1 + sizeofBeginMarker + t.2.1 + sizeofEndMarker ≤ 4202)
          ∧ (4270 + 10 ≤ t.1 ∨ t.1 + sizeofBeginMarker ≤ 4270)
          ∧ (4270 + 10 ≤ t.1 + sizeofBeginMarker + t.2.1
              ∨ t.1 + sizeofBeginMarker + t.2.1 + sizeofEndMarker ≤ 4270)) :=
  ⟨reach_exampleTwo, by decide, by decide, by decide,
    live_payloads_disjoint reach_exampleTwo (by decide) (by decide) (by decide)⟩

/-! ## The round trip on a fresh arena -/

theorem state_ext {s t : SimpleAllocator} (h1 : s.head = t.head)
    (h2 : s.memoryBegin = t.memoryBegin) (h3 : s.totalMemorySize = t.totalMemorySize)
    (h4 : ∀ x, s.beginAt x = t.beginAt x) (h5 : ∀ y, s.endAt y = t.endAt y) : s = t := by
  cases s; cases t
  simp only at h1 h2 h3 h4 h5
  simp only [SimpleAllocator.mk.injEq]
  exact ⟨h1, h2, h3, funext h4, funext h5⟩

theorem beginMarker_eq_of_fields {m k : BeginMarker} (h1 : m.blockSize = k.blockSize)
    (h2 : m.isFree = k.isFree) (h3 : m.nextFreeBlock = k.nextFreeBlock)
    (h4 : m.prevFreeBlock = k.prevFreeBlock) : m = k := by
  cases m; cases k
  simp only at h1 h2 h3 h4
  simp only [BeginMarker.mk.injEq]
  exact ⟨h1, h2, h3, h4⟩

theorem endMarker_eq_of_fields {m k : EndMarker} (h1 : m.blockSize = k.blockSize)
    (h2 : m.isFree = k.isFree) : m = k := by
  cases m; cases k
  simp only at h1 h2
  simp only [EndMarker.mk.injEq]
  exact ⟨h1, h2⟩

/-- The writes of `alloc` when the head of the free list is its only member and
has exactly the requested size. -/
theorem alloc_sole_eval (st : SimpleAllocator) (c e n : Nat) (hn0 : n ≠ 0)
    (hh : st.head = some c) (hs : (st.beginAt c).blockSize = n)
    (hp : (st.beginAt c).prevFreeBlock = none) (hx : (st.beginAt c).nextFreeBlock = none)
    (he : e = c + n + 32)
    (hvc : st.memoryBegin ≤ c) (hve : e + 16 ≤ st.memoryBegin + st.totalMemorySize) :
    st.alloc n = some (some (c + 32),
      (((((((st.setHead none).setNext c none).setPrev c none).setIsFree c false).setNext c
        none).setPrev c none).setEndIsFree e false)) := by
  unfold alloc
  rw [if_neg hn0, hh]
  simp only [allocLoop, Option.bind_eq_bind]
  rw [loadBegin_eq st c (by omega), Option.some_bind, if_pos (Or.inl hs)]
  unfold takeWholeBlock removeFreeMemoryBlock getEndMarker
  rw [loadBegin_eq st c (by omega)]
  simp only [Option.bind_eq_bind, Option.some_bind, Option.pure_def, hh, if_true, hp, hx,
    writeNextOpt, writePrevOpt, sizeofBeginMarker]
  rw [writeNext_eq, Option.some_bind, writePrev_eq, Option.some_bind, writeIsFree_eq,
    Option.some_bind, writeNext_eq, Option.some_bind, writePrev_eq, Option.some_bind,
    loadBegin_eq, Option.some_bind]
  simp only [setPrev_blockSize, setNext_blockSize, setIsFree_blockSize, setHead_beginAt, hs,
    ← he, Option.some_bind]
  rw [writeEndIsFree_eq, Option.some_bind]
  all_goals
    try simp only [setIsFree_memoryBegin, setIsFree_totalMemorySize, setNext_memoryBegin,
      setNext_totalMemorySize, setPrev_memoryBegin, setPrev_totalMemorySize,
      setHead_memoryBegin, setHead_totalMemorySize]
    omega

/-- The writes of `free` for a used block that spans the whole arena, the free
list being empty. -/
theorem free_sole_eval (st : SimpleAllocator) (c e s : Nat)
    (hc : c = st.memoryBegin) (hh : st.head = none) (hs : (st.beginAt c).blockSize = s)
    (hf : (st.beginAt c).isFree = false) (he : e = c + 32 + s)
    (hve : e + 16 = st.memoryBegin + st.totalMemorySize) :
    st.free (c + 32) = some (((st.setIsFree c true).setEndIsFree e true).setHead (some c)) := by
  unfold free coalesceBackward hasPreviousMemoryBlock coalesceForward hasNextMemoryBlock
    markFreeAndInsert getMemoryBlockBounds addFreeMemoryBlock
  simp only [sizeofBeginMarker, sizeofEndMarker, Nat.add_sub_cancel]
  rw [loadBegin_eq st c (by omega)]
  have h1 : ¬ (st.memoryBegin < c) := by omega
  have h2 : ¬ (c + 32 + s + 16 < st.memoryBegin + st.totalMemorySize) := by omega
  have h3 : ¬ (e + 16 < st.memoryBegin + st.totalMemorySize) := by omega
  simp only [Option.bind_eq_bind, Option.some_bind, Option.pure_def, hf, Bool.false_eq_true,
    if_false, h1, decide_False, hs, h2, Nat.add_sub_cancel]
  rw [loadBegin_eq st c (by omega)]
  simp only [Option.bind_eq_bind, Option.some_bind, Option.pure_def, hf, Bool.false_eq_true,
    if_false, h1, decide_False, hs, h2, h3, ← he, Nat.add_sub_cancel]
  rw [loadBegin_eq st c (by omega)]
  simp only [Option.some_bind, hs, ← he]
  rw [writeIsFree_eq st c true (by omega), Option.some_bind,
    writeEndIsFree_eq (st.setIsFree c true) e true (by simp; omega), Option.some_bind]
  simp only [setEndIsFree_head, setIsFree_head, hh]

/-- C8 (round trip on a fresh arena): for every arena size `S` greater than
the tag overhead, constructing the allocator, calling `p = alloc(S -
tagOverhead)` and then `free(p)` yields exactly the state right after
construction: the same `head`, the same begin tag at the arena start, the
same end tag at the arena tail (and the same contents everywhere else). -/
theorem round_trip (B : Nat → BeginMarker) (E : Nat → EndMarker) (base S : Nat)
    (hS : tagOverhead < S) (hW : S < SIZE_MOD) :
    ∃ st0 st1, SimpleAllocator.new B E base S = some st0
      ∧ st0.alloc (S - tagOverhead) = some (some (base + sizeofBeginMarker), st1)
      ∧ st1.free (base + sizeofBeginMarker) = some st0 := by
  have hS2 : 48 < S := hS
  have hW2 : S < 18446744073709551616 := hW
  have hto : tagOverhead = 48 := rfl
  have hsb : sizeofBeginMarker = 32 := rfl
  rw [hto, hsb]
  obtain ⟨e, he⟩ : ∃ e, e + 16 = base + S := ⟨base + S - 16, by omega⟩
  have h0 := new_eval B E base S e (by omega) hW2 he
  obtain ⟨st0, hst0⟩ : ∃ st0 : SimpleAllocator, st0 = ((((((attach B E base S).setBlockSize base (S - 48)).setIsFree base true).setNext base none).setPrev base none).setEndBlockSize e (S - 48)).setEndIsFree e true :=
    ⟨_, rfl⟩
  rw [← hst0] at h0
  have f1 : st0.head = some base := by rw [hst0]; simp
  have f2 : st0.memoryBegin = base := by rw [hst0]; simp
  have f3 : st0.totalMemorySize = S := by rw [hst0]; simp
  have f4 : ∀ x, st0.beginAt x
      = if x = base then ⟨S - 48, true, none, none⟩ else B x := by
    intro x
    rw [hst0]
    by_cases hx : x = base <;> (apply beginMarker_eq_of_fields <;> simp [hx])
  have f5 : ∀ y, st0.endAt y = if y = e then ⟨S - 48, true⟩ else E y := by
    intro y
    rw [hst0]
    by_cases hy : y = e <;> (apply endMarker_eq_of_fields <;> simp [hy])
  clear hst0
  have h1 := alloc_sole_eval st0 base e (S - 48) (by omega) f1 (by simp [f4]) (by simp [f4])
    (by simp [f4]) (by omega) (by omega) (by omega)
  obtain ⟨st1, hst1⟩ : ∃ st1 : SimpleAllocator, st1 = (((((((st0).setHead none).setNext base none).setPrev base none).setIsFree base false).setNext base none).setPrev base none).setEndIsFree e false :=
    ⟨_, rfl⟩
  rw [← hst1] at h1
  have g1 : st1.head = none := by rw [hst1]; simp
  have g2 : st1.memoryBegin = base := by rw [hst1]; simp [f2]
  have g3 : st1.totalMemorySize = S := by rw [hst1]; simp [f3]
  have g4 : ∀ x, st1.beginAt x
      = if x = base then ⟨S - 48, false, none, none⟩ else B x := by
    intro x
    rw [hst1]
    by_cases hx : x = base <;> (apply beginMarker_eq_of_fields <;> simp [f4, hx])
  have g5 : ∀ y, st1.endAt y = if y = e then ⟨S - 48, false⟩ else E y := by
    intro y
    rw [hst1]
    by_cases hy : y = e <;> (apply endMarker_eq_of_fields <;> simp [f5, hy])
  clear hst1
  have h2 := free_sole_eval st1 base e (S - 48) g2.symm g1 (by simp [g4]) (by simp [g4])
    (by omega) (by omega)
  refine ⟨st0, st1, h0, h1, ?_⟩
  rw [h2]
  congr 1
  apply state_ext
  · simp [f1]
  · simp [f2, g2]
  · simp [f3, g3]
  · intro x
    rw [f4]
    by_cases hx : x = base <;> (apply beginMarker_eq_of_fields <;> simp [g4, hx])
  · intro y
    rw [f5]
    by_cases hy : y = e <;> (apply endMarker_eq_of_fields <;> simp [g5, hy])

theorem round_trip_witness :
    tagOverhead < 200 ∧ 200 < SIZE_MOD
      ∧ ∃ st0 st1, SimpleAllocator.new zeroBegin zeroEnd 4096 200 = some st0
        ∧ st0.alloc (200 - tagOverhead) = some (some (4096 + sizeofBeginMarker), st1)
        ∧ st1.free (4096 + sizeofBeginMarker) = some st0 :=
  ⟨by decide, by decide, round_trip zeroBegin zeroEnd 4096 200 (by decide) (by decide)⟩

/-! ## Construction and failed allocation -/

/-- C9 (construction postcondition): for every buffer size `S` of at least the
tag overhead, the constructor leaves a begin tag at the arena start with
`blockSize = S - sizeof(BeginMarker) - sizeof(EndMarker)`, `isFree = true` and
both list links null, an end tag at offset `S - sizeof(EndMarker)` with the
same `blockSize` and `isFree = true`, and `head` pointing at the arena
start. -/
theorem construction_postcondition (B : Nat → BeginMarker) (E : Nat → EndMarker)
    (base S : Nat) (hS : tagOverhead ≤ S) (hW : S < SIZE_MOD) :
    ∃ st, SimpleAllocator.new B E base S = some st
      ∧ st.head = some base ∧ st.memoryBegin = base ∧ st.totalMemorySize = S
      ∧ st.beginAt base = ⟨S - sizeofBeginMarker - sizeofEndMarker, true, none, none⟩
      ∧ st.endAt (base + S - sizeofEndMarker)
          = ⟨S - sizeofBeginMarker - sizeofEndMarker, true⟩ := by
  have hS2 : 48 ≤ S := hS
  have hW2 : S < 18446744073709551616 := hW
  have hsb : sizeofBeginMarker = 32 := rfl
  have hse : sizeofEndMarker = 16 := rfl
  rw [hsb, hse]
  obtain ⟨e, he⟩ : ∃ e, e + 16 = base + S := ⟨base + S - 16, by omega⟩
  have he2 : base + S - 16 = e := by omega
  have hsz : S - 32 - 16 = S - 48 := by omega
  rw [he2, hsz]
  refine ⟨_, new_eval B E base S e hS2 hW2 he, by simp, by simp, by simp, ?_, ?_⟩
  · apply beginMarker_eq_of_fields <;> simp
  · apply endMarker_eq_of_fields <;> simp

theorem construction_postcondition_witness :
    tagOverhead ≤ 200 ∧ 200 < SIZE_MOD
      ∧ ∃ st, SimpleAllocator.new zeroBegin zeroEnd 4096 200 = some st
        ∧ st.head = some 4096 ∧ st.memoryBegin = 4096 ∧ st.totalMemorySize = 200
        ∧ st.beginAt 4096 = ⟨200 - sizeofBeginMarker - sizeofEndMarker, true, none, none⟩
        ∧ st.endAt (4096 + 200 - sizeofEndMarker)
            = ⟨200 - sizeofBeginMarker - sizeofEndMarker, true⟩ :=
  ⟨by decide, by decide,
    construction_postcondition zeroBegin zeroEnd 4096 200 (by decide) (by decide)⟩

/-- C10 (failed allocation is atomic): for every state and every request size,
if `alloc` returns null then the state after the call, arena contents and
free-list head included, is the state before the call. -/
theorem failed_alloc_atomic (st st2 : SimpleAllocator) (n : Nat)
    (h : st.alloc n = some (none, st2)) : st2 = st := by
  unfold alloc at h
  split_ifs at h with h0
  · simp only [Option.some.injEq, Prod.mk.injEq, true_and] at h
    exact h.symm
  · exact allocLoop_null n _ _ _ _ h

theorem failed_alloc_atomic_witness :
    exampleFresh.alloc 1000 = some (none, exampleFresh) ∧ exampleFresh = exampleFresh :=
  ⟨rfl, failed_alloc_atomic exampleFresh exampleFresh 1000 rfl⟩

/-! ## Request sizes near the top of `size_t` -/

/-- An in-contract `alloc` that returns a pointer returns the payload start of
a used block of the new tiling, at least as large as the request and inside
the arena. -/
theorem alloc_in_contract {st st2 : SimpleAllocator} {live : List (Nat × Nat)} {n p : Nat}
    (h : Reach st live) (hn : n + 48 < 18446744073709551616)
    (ha : st.alloc n = some (some p, st2)) :
    ∃ bl s, tiling st2 = some bl ∧ 32 ≤ p ∧ (p - 32, s, false) ∈ bl ∧ n ≤ s
      ∧ st2.memoryBegin + 32 ≤ p ∧ p + s + 16 ≤ st2.memoryBegin + st2.totalMemorySize :=
  (Reach.allocSome st st2 live n p h hn ha).live_block (List.mem_cons_self _ _)

/-- C1, evaluated at a request whose size plus tag overhead wraps: on a fresh
200-byte arena at address 4096, `alloc(100)` leaves a free block of 4 bytes at
the arena start; `alloc(2^64 - 44)` then passes the test `blockSize == size +
sizeof(BeginMarker) + sizeof(EndMarker)` (the sum wraps to 4) and returns the
payload pointer 4128 of that block, whose tags are marked used and record
`blockSize = 4`. -/
theorem alloc_wrapping_request :
    (do
      let st0 ← SimpleAllocator.new zeroBegin zeroEnd 4096 200
      let (p1, st1) ← st0.alloc 100
      let (p2, st2) ← st1.alloc 18446744073709551572
      pure (p1, p2, (st2.beginAt 4096).blockSize, (st2.beginAt 4096).isFree,
        (st2.endAt 4132).blockSize, (st2.endAt 4132).isFree))
      = some (some 4180, some 4128, 4, false, 4, false) := by
  decide

/-! ## Releasing the same pointer twice -/

/-- C2, evaluated after a release that merged backward: on a fresh 300-byte
arena at address 4096, after `alloc(100)` and `q = alloc(10)` (so `q = 4222`),
the first `free(q)` merges the block into its free predecessor, leaving a free
block of 104 bytes at 4096; the begin tag at `q - 32` still says "used", so the
second `free(q)` is not a no-op: it merges again and leaves the block at 4096
with `blockSize = 162`. -/
theorem double_release_after_backward_merge :
    (do
      let st0 ← SimpleAllocator.new zeroBegin zeroEnd 4096 300
      let (_, st1) ← st0.alloc 100
      let (q, st2) ← st1.alloc 10
      let q ← q
      let st3 ← st2.free q
      let st4 ← st3.free q
      pure (q, (st3.beginAt (q - 32)).isFree, st3.head, (st3.beginAt 4096).blockSize,
        st4.head, (st4.beginAt 4096).blockSize, (st4.beginAt 4096).isFree))
      = some (4222, false, some 4096, 104, some 4096, 162, true) := by
  rfl

/-- The same on a 200-byte arena with a single allocation: the second
`free(p)` has no defined result, because its last write falls outside the
arena. -/
theorem double_release_out_of_bounds :
    (do
      let st0 ← SimpleAllocator.new zeroBegin zeroEnd 4096 200
      let (p, st1) ← st0.alloc 10
      let p ← p
      let st2 ← st1.free p
      pure (p, (st2.beginAt 4096).blockSize, (st2.free p).isSome))
      = some (4270, 152, false) := by
  rfl

/-- When the released block has no free predecessor, releasing the same pointer
a second time is a no-op. -/
theorem double_release_without_backward_merge {st : SimpleAllocator}
    {pre post : List (Nat × Bool)} {s : Nat} {fl : List Nat}
    (h : Inv st (pre ++ (s, false) :: post) fl)
    (hpre : ∀ pre2 sp, pre ≠ pre2 ++ [(sp, true)]) :
    ∃ st2, st.free (st.memoryBegin + span pre + 32) = some st2
      ∧ st2.free (st.memoryBegin + span pre + 32) = some st2 := by
  obtain ⟨st2, pre0, post0, A, B, fl1, fl2, e1, e2, e3, e4, -⟩ := free_spec h
  refine ⟨st2, e1, ?_⟩
  rcases e4 with ⟨rfl, -, -, -⟩ | ⟨sp, g, -, -⟩
  · obtain ⟨⟨-, t2, -, -⟩, hb⟩ := e3.mid_tag
    simp only at t2 hb
    rw [e2] at t2 hb
    unfold free
    simp only [sizeofBeginMarker, Nat.add_sub_cancel]
    rw [loadBegin_eq _ _ (by rw [e2]; omega)]
    simp [t2]
  · exact absurd g (hpre _ _)

/-! ## Requests of any size -/

theorem bind_none_of {α β : Type} {o : Option α} {f : α → Option β}
    (h : ∀ a, o = some a → f a = none) : o.bind f = none := by
  cases o with
  | none => rfl
  | some a => exact h a rfl

theorem writeBlockSize_fields {st st2 : SimpleAllocator} {a v : Nat}
    (h : st.writeBlockSize a v = some st2) :
    st2.memoryBegin = st.memoryBegin ∧ st2.totalMemorySize = st.totalMemorySize := by
  unfold writeBlockSize at h
  split_ifs at h
  cases h
  exact ⟨rfl, rfl⟩

theorem writeIsFree_fields {st st2 : SimpleAllocator} {a : Nat} {v : Bool}
    (h : st.writeIsFree a v = some st2) :
    st2.memoryBegin = st.memoryBegin ∧ st2.totalMemorySize = st.totalMemorySize := by
  unfold writeIsFree at h
  split_ifs at h
  cases h
  exact ⟨rfl, rfl⟩

theorem writeNext_fields {st st2 : SimpleAllocator} {a : Nat} {v : Option Nat}
    (h : st.writeNext a v = some st2) :
    st2.memoryBegin = st.memoryBegin ∧ st2.totalMemorySize = st.totalMemorySize := by
  unfold writeNext at h
  split_ifs at h
  cases h
  exact ⟨rfl, rfl⟩

theorem writePrev_fields {st st2 : SimpleAllocator} {a : Nat} {v : Option Nat}
    (h : st.writePrev a v = some st2) :
    st2.memoryBegin = st.memoryBegin ∧ st2.totalMemorySize = st.totalMemorySize := by
  unfold writePrev at h
  split_ifs at h
  cases h
  exact ⟨rfl, rfl⟩

theorem writeEndBlockSize_fields {st st2 : SimpleAllocator} {a v : Nat}
    (h : st.writeEndBlockSize a v = some st2) :
    st2.memoryBegin = st.memoryBegin ∧ st2.totalMemorySize = st.totalMemorySize := by
  unfold writeEndBlockSize at h
  split_ifs at h
  cases h
  exact ⟨rfl, rfl⟩

theorem writeEndIsFree_fields {st st2 : SimpleAllocator} {a : Nat} {v : Bool}
    (h : st.writeEndIsFree a v = some st2) :
    st2.memoryBegin = st.memoryBegin ∧ st2.totalMemorySize = st.totalMemorySize := by
  unfold writeEndIsFree at h
  split_ifs at h
  cases h
  exact ⟨rfl, rfl⟩

theorem loadBegin_valid {st : SimpleAllocator} {a : Nat} {m : BeginMarker}
    (h : st.loadBegin a = some m) :
    st.memoryBegin ≤ a ∧ a + 32 ≤ st.memoryBegin + st.totalMemorySize := by
  by_contra hc
  rw [loadBegin_none _ _ hc] at h
  cases h

/-- When the request plus the tag overhead is not representable, the splitting
branch has no defined result: the end tag of the carved block would lie past
the arena end. -/
theorem splitBlock_far (st : SimpleAllocator) (c n : Nat)
    (ht : st.totalMemorySize < 18446744073709551616)
    (hn : 18446744073709551616 ≤ n + 48) : st.splitBlock c n = none := by
  unfold splitBlock
  simp only [Option.bind_eq_bind, Option.pure_def, sizeofBeginMarker, sizeofEndMarker]
  refine bind_none_of (fun m hm => ?_)
  have hv := loadBegin_valid hm
  generalize subSize (subSize (subSize m.blockSize n) 32) 16 = ns
  refine bind_none_of (fun s1 h1 => ?_)
  refine bind_none_of (fun s2 h2 => ?_)
  refine bind_none_of (fun s3 h3 => ?_)
  refine bind_none_of (fun s4 h4 => ?_)
  refine bind_none_of (fun s5 h5 => ?_)
  refine bind_none_of (fun s6 h6 => ?_)
  refine bind_none_of (fun s7 h7 => ?_)
  have e1 := writeBlockSize_fields h1
  have e2 := writeEndIsFree_fields h2
  have e3 := writeEndBlockSize_fields h3
  have e4 := writeIsFree_fields h4
  have e5 := writeNext_fields h5
  have e6 := writePrev_fields h6
  have e7 := writeBlockSize_fields h7
  rw [writeEndIsFree_none _ _ _ (by omega)]
  rfl

/-- With an empty free list every request fails and changes nothing. -/
theorem alloc_empty (st : SimpleAllocator) (n : Nat) (h : st.head = none) :
    st.alloc n = some (none, st) := by
  unfold alloc
  split_ifs
  · rfl
  · rw [h]; rfl

/-- The effect of `alloc` with a request of any size on a state satisfying the
invariant: the call has no defined result, or it fails and changes nothing, or
it hands out a whole free block, or it splits one; a split happens only for a
request whose size plus tag overhead is representable. -/
theorem alloc_any {st : SimpleAllocator} {bs : List (Nat × Bool)} {fl : List Nat}
    (h : Inv st bs fl) (n : Nat) :
    st.alloc n = none ∨ st.alloc n = some (none, st)
    ∨ (∃ pre s post st2, bs = pre ++ (s, true) :: post
      ∧ st.alloc n = some (some (st.memoryBegin + span pre + 32), st2)
      ∧ st2.memoryBegin = st.memoryBegin
      ∧ Inv st2 (pre ++ (s, false) :: post) (fl.erase (st.memoryBegin + span pre)))
    ∨ (∃ pre s post st2, bs = pre ++ (s, true) :: post ∧ n + 48 < s
      ∧ st.alloc n = some (some (st.memoryBegin + span pre + (s - n - 48) + 80), st2)
      ∧ st2.memoryBegin = st.memoryBegin
      ∧ Inv st2 (pre ++ (s - n - 48, true) :: (n, false) :: post) fl) := by
  by_cases hn0 : n = 0
  · right; left
    unfold alloc
    rw [if_pos hn0]
  by_cases hn : n + 48 < 18446744073709551616
  · rcases alloc_spec h hn0 hn with ⟨e, -⟩ | ⟨pre, s, post, st2, l1, l2, e1, -, -, -, e2, e3, e4⟩
        | ⟨pre, s, post, st2, l1, l2, e1, e0, -, -, e2, e3, e4⟩
    · exact Or.inr (Or.inl e)
    · exact Or.inr (Or.inr (Or.inl ⟨pre, s, post, st2, e1, e2, e3, e4⟩))
    · exact Or.inr (Or.inr (Or.inr ⟨pre, s, post, st2, e1, e0, e2, e3, e4⟩))
  · obtain ⟨hA, hB⟩ := alloc_scan h hn0
    rcases first_candidate (fun x => ((st.beginAt x).blockSize = n
        ∨ (st.beginAt x).blockSize = addSize (addSize n 32) 16)
        ∨ addSize (addSize n 32) 16 < (st.beginAt x).blockSize) fl with
      hno | ⟨l1, x, l2, hfl, hno, hx⟩
    · right; left
      exact hA (fun x hx => by have := hno x hx; tauto)
    · have hxm : x ∈ fl := by rw [hfl]; simp
      obtain ⟨pre, post, hbs, hxa⟩ := mem_blocksFrom_split (h.fl_block hxm)
      simp only at hbs hxa
      obtain ⟨hW, hS⟩ := hB l1 x l2 hfl (fun y hy => by have := hno y hy; tauto)
      subst hxa
      rw [hbs] at h
      by_cases hw : (st.beginAt (st.memoryBegin + span pre)).blockSize = n
          ∨ (st.beginAt (st.memoryBegin + span pre)).blockSize = addSize (addSize n 32) 16
      · right; right; left
        obtain ⟨st2, e1, e2, e3⟩ := takeWholeBlock_spec h
        exact ⟨pre, _, post, st2, hbs, by rw [hW hw, e1], e2, e3⟩
      · left
        have hs : addSize (addSize n 32) 16
            < (st.beginAt (st.memoryBegin + span pre)).blockSize := by tauto
        rw [hS hw hs]
        exact splitBlock_far st _ n h.total_lt (by omega)

/-! ## Releases by the shape of the neighbourhood -/

theorem head_split {x s : Nat} {r pre post : List (Nat × Bool)}
    (h : (x, true) :: r = pre ++ (s, true) :: post) (hr : ∀ t ∈ r, t.2 = false) :
    pre = [] ∧ s = x ∧ post = r := by
  cases pre with
  | nil =>
    simp only [List.nil_append, List.cons.injEq, Prod.mk.injEq, and_true] at h
    exact ⟨rfl, h.1.symm, h.2.symm⟩
  | cons a pre2 =>
    simp only [List.cons_append, List.cons.injEq] at h
    have hm : (s, true) ∈ r := by rw [h.2]; simp
    have := hr _ hm
    simp at this

theorem no_free_last_nil : ∀ (pre2 : List (Nat × Bool)) (sp : Nat),
    ([] : List (Nat × Bool)) ≠ pre2 ++ [(sp, true)] := by
  intro pre2 sp h
  simp at h

theorem no_free_last_concat (l : List (Nat × Bool)) (x : Nat) :
    ∀ (pre2 : List (Nat × Bool)) (sp : Nat), l ++ [(x, false)] ≠ pre2 ++ [(sp, true)] := by
  intro pre2 sp h
  have := List.append_inj_right' h rfl
  simp at this

theorem no_free_head_nil : ∀ (sn : Nat) (post2 : List (Nat × Bool)),
    ([] : List (Nat × Bool)) ≠ (sn, true) :: post2 := by
  intro sn post2 h
  simp at h

theorem no_free_head_cons (x : Nat) (l : List (Nat × Bool)) :
    ∀ (sn : Nat) (post2 : List (Nat × Bool)), (x, false) :: l ≠ (sn, true) :: post2 := by
  intro sn post2 h
  simp at h

/-- Release of a block whose neighbours are both used (or absent). -/
theorem free_isolated {st : SimpleAllocator} (pre : List (Nat × Bool)) (s : Nat)
    (post : List (Nat × Bool)) {fl : List Nat} (p : Nat)
    (h : Inv st (pre ++ (s, false) :: post) fl) (hp : p = st.memoryBegin + span pre + 32)
    (hpre : ∀ pre2 sp, pre ≠ pre2 ++ [(sp, true)])
    (hpost : ∀ sn post2, post ≠ (sn, true) :: post2) :
    ∃ st2, st.free p = some st2 ∧ st2.memoryBegin = st.memoryBegin
      ∧ Inv st2 (pre ++ (s, true) :: post) ((st.memoryBegin + span pre) :: fl) := by
  obtain ⟨st2, pre0, post0, A, B, fl1, fl2, e1, e2, e3, e4, e5⟩ := free_spec h
  rcases e4 with ⟨rfl, rfl, -, rfl⟩ | ⟨sp, g, -, -⟩
  · rcases e5 with ⟨rfl, rfl, -, rfl⟩ | ⟨sn, g, -, -⟩
    · refine ⟨st2, by rw [hp]; exact e1, e2, ?_⟩
      simpa using e3
    · exact absurd g (hpost _ _)
  · exact absurd g (hpre _ _)

/-- Release of a block whose predecessor is free and whose successor is used
(or absent): the block is merged into its predecessor. -/
theorem free_back {st : SimpleAllocator} (pre0 : List (Nat × Bool)) (sp s : Nat)
    (post : List (Nat × Bool)) {fl : List Nat} (p : Nat)
    (h : Inv st (pre0 ++ (sp, true) :: (s, false) :: post) fl)
    (hp : p = st.memoryBegin + span pre0 + sp + 80)
    (hpost : ∀ sn post2, post ≠ (sn, true) :: post2) :
    ∃ st2, st.free p = some st2 ∧ st2.memoryBegin = st.memoryBegin
      ∧ Inv st2 (pre0 ++ (sp + 48 + s, true) :: post)
          ((st.memoryBegin + span pre0) :: fl.erase (st.memoryBegin + span pre0)) := by
  have h2 : Inv st ((pre0 ++ [(sp, true)]) ++ (s, false) :: post) fl := by simpa using h
  obtain ⟨st2, pre1, post0, A, B, fl1, fl2, e1, e2, e3, e4, e5⟩ := free_spec h2
  have hsp : span (pre0 ++ [(sp, true)]) = span pre0 + sp + 48 := by
    simp only [span_append, span]; omega
  rw [hsp] at e1
  rcases e4 with ⟨-, -, g, -⟩ | ⟨sp2, g, rfl, rfl⟩
  · exact absurd rfl (g pre0 sp)
  · have g1 := List.append_inj_left' g rfl
    have g2 := List.append_inj_right' g rfl
    simp only [List.cons.injEq, Prod.mk.injEq, and_true] at g2
    subst g1 g2
    rcases e5 with ⟨rfl, rfl, -, rfl⟩ | ⟨sn, g, -, -⟩
    · refine ⟨st2, ?_, e2, ?_⟩
      · rw [hp, ← e1]; congr 1; omega
      · simpa using e3
    · exact absurd g (hpost _ _)

/-- Release of a block whose predecessor is used (or absent) and whose
successor is free: the successor is merged into the block. -/
theorem free_fwd {st : SimpleAllocator} (pre : List (Nat × Bool)) (s sn : Nat)
    (post0 : List (Nat × Bool)) {fl : List Nat} (p : Nat)
    (h : Inv st (pre ++ (s, false) :: (sn, true) :: post0) fl)
    (hp : p = st.memoryBegin + span pre + 32)
    (hpre : ∀ pre2 sp, pre ≠ pre2 ++ [(sp, true)]) :
    ∃ st2, st.free p = some st2 ∧ st2.memoryBegin = st.memoryBegin
      ∧ Inv st2 (pre ++ (s + sn + 48, true) :: post0)
          ((st.memoryBegin + span pre) :: fl.erase (st.memoryBegin + span pre + s + 48)) := by
  obtain ⟨st2, pre1, post1, A, B, fl1, fl2, e1, e2, e3, e4, e5⟩ := free_spec h
  rcases e4 with ⟨rfl, rfl, -, rfl⟩ | ⟨sp, g, -, -⟩
  · rcases e5 with ⟨-, -, g, -⟩ | ⟨sn2, g, rfl, rfl⟩
    · exact absurd rfl (g sn post0)
    · simp only [List.cons.injEq, Prod.mk.injEq, and_true] at g
      obtain ⟨g1, g2⟩ := g
      subst g1 g2
      refine ⟨st2, by rw [hp]; exact e1, e2, ?_⟩
      have : 0 + s + (sn + 48) = s + sn + 48 := by omega
      rw [this] at e3
      exact e3
  · exact absurd g (hpre _ _)

/-- Release of a block whose neighbours are both free: the three blocks become
one. -/
theorem free_both {st : SimpleAllocator} (pre0 : List (Nat × Bool)) (sp s sn : Nat)
    (post0 : List (Nat × Bool)) {fl : List Nat} (p : Nat)
    (h : Inv st (pre0 ++ (sp, true) :: (s, false) :: (sn, true) :: post0) fl)
    (hp : p = st.memoryBegin + span pre0 + sp + 80) :
    ∃ st2, st.free p = some st2 ∧ st2.memoryBegin = st.memoryBegin
      ∧ Inv st2 (pre0 ++ (sp + 48 + s + sn + 48, true) :: post0)
          ((st.memoryBegin + span pre0) ::
            (fl.erase (st.memoryBegin + span pre0)).erase
              (st.memoryBegin + span pre0 + sp + 48 + s + 48)) := by
  have h2 : Inv st ((pre0 ++ [(sp, true)]) ++ (s, false) :: (sn, true) :: post0) fl := by
    simpa using h
  obtain ⟨st2, pre1, post1, A, B, fl1, fl2, e1, e2, e3, e4, e5⟩ := free_spec h2
  have hsp : span (pre0 ++ [(sp, true)]) = span pre0 + sp + 48 := by
    simp only [span_append, span]; omega
  rw [hsp] at e1 e5
  rcases e4 with ⟨-, -, g, -⟩ | ⟨sp2, g, rfl, rfl⟩
  · exact absurd rfl (g pre0 sp)
  · have g1 := List.append_inj_left' g rfl
    have g2 := List.append_inj_right' g rfl
    simp only [List.cons.injEq, Prod.mk.injEq, and_true] at g2
    subst g1 g2
    rcases e5 with ⟨-, -, g, -⟩ | ⟨sn2, g, rfl, rfl⟩
    · exact absurd rfl (g sn post0)
    · simp only [List.cons.injEq, Prod.mk.injEq, and_true] at g
      obtain ⟨g1, g2⟩ := g
      subst g1 g2
      refine ⟨st2, ?_, e2, ?_⟩
      · rw [hp, ← e1]; congr 1; omega
      · have hh : sp + 48 + s + (sn + 48) = sp + 48 + s + sn + 48 := by omega
        have hq : st.memoryBegin + (span pre0 + sp + 48) + s + 48
            = st.memoryBegin + span pre0 + sp + 48 + s + 48 := by omega
        rw [hh, hq] at e3
        exact e3

/-! ## Full recoalescence -/

theorem erase_two (x b : Nat) (h : x ≠ b) : ([x, b].erase b).erase x = [] := by
  simp [List.erase_cons, h]

/-- A state whose tiling is a single free block, the only free-list member:
what the walks find, what the tags hold, and that a request for the whole
payload succeeds. -/
theorem sole_block {st : SimpleAllocator} {base s : Nat} (hm : st.memoryBegin = base)
    (h : Inv st [(s, true)] [base]) (hs : s ≠ 0) :
    tiling st = some [(base, s, true)] ∧ freeList st = some [base]
      ∧ st.head = some base ∧ st.beginAt base = ⟨s, true, none, none⟩
      ∧ st.endAt (base + 32 + s) = ⟨s, true⟩
      ∧ ∃ p st2, st.alloc s = some (some p, st2) := by
  have h2 : Inv st ([] ++ (s, true) :: []) [base] := h
  obtain ⟨⟨t1, t2, t3, -⟩, hb⟩ := h2.mid_tag
  simp only [span, Nat.add_zero, hm] at t1 t2 t3 hb
  obtain ⟨d1, d2, d3⟩ := h.dll
  have d4 : (st.beginAt base).nextFreeBlock = none := d3
  have htot := h.total_lt
  have hsp := h.span_eq
  simp only [span] at hsp
  refine ⟨?_, h.freeList_eq, d1, ?_, t3, ?_⟩
  · rw [h.tiling_eq, hm]; rfl
  · apply beginMarker_eq_of_fields <;> simp [t1, t2, d4, d2]
  · rcases alloc_spec h hs (by omega) with ⟨-, e⟩ | ⟨pre, s2, post, st2, l1, l2, -, -, -, -, e, -⟩
        | ⟨pre, s2, post, st2, l1, l2, -, -, -, -, e, -⟩
    · exact absurd t1 (e base (List.mem_singleton_self _)).1
    · exact ⟨_, _, e⟩
    · exact ⟨_, _, e⟩

/-- C7 (full recoalescence): for every arena of size `S` (at least the tag
overhead, as the constructor requires) and all request sizes `A`, `B`, `C` for
which three successive calls `alloc(A)`, `alloc(B)`, `alloc(C)` on the fresh
arena all return non-null, releasing the pointer for `B`, then the one for `A`,
then the one for `C` is defined and leaves exactly one block, free, of
`blockSize = S - tagOverhead`, at the arena start and the only free-list
member, and a following `alloc(S - tagOverhead)` returns non-null. -/
theorem full_recoalescence (B0 : Nat → BeginMarker) (E0 : Nat → EndMarker)
    (base S A B C pa pb pc : Nat) (st0 st1 st2 st3 : SimpleAllocator)
    (hS : tagOverhead ≤ S) (hW : S < SIZE_MOD)
    (h0 : SimpleAllocator.new B0 E0 base S = some st0)
    (hA : st0.alloc A = some (some pa, st1))
    (hB : st1.alloc B = some (some pb, st2))
    (hC : st2.alloc C = some (some pc, st3)) :
    ∃ st4 st5 st6, st3.free pb = some st4 ∧ st4.free pa = some st5 ∧ st5.free pc = some st6
      ∧ tiling st6 = some [(base, S - tagOverhead, true)]
      ∧ freeList st6 = some [base]
      ∧ st6.head = some base
      ∧ st6.beginAt base = ⟨S - tagOverhead, true, none, none⟩
      ∧ st6.endAt (base + sizeofBeginMarker + (S - tagOverhead)) = ⟨S - tagOverhead, true⟩
      ∧ ∃ p st7, st6.alloc (S - tagOverhead) = some (some p, st7) := by
  have hS2 : 48 ≤ S := hS
  have hW2 : S < 18446744073709551616 := hW
  have hto : tagOverhead = 48 := rfl
  have hsb : sizeofBeginMarker = 32 := rfl
  rw [hto, hsb]
  obtain ⟨st0b, h0b, m0, -, I0⟩ := new_spec B0 E0 base S hS2 hW2
  obtain rfl : st0 = st0b := Option.some.inj (h0.symm.trans h0b)
  -- alloc(A)
  rcases alloc_any I0 A with e | e | ⟨pre, s, post, st1b, hbs, e, m1, I1⟩
      | ⟨pre, s, post, st1b, hbs, hlt1, e, m1, I1⟩
  · rw [hA] at e; cases e
  · rw [hA] at e; cases e
  · rw [hA] at e
    obtain ⟨-, rfl⟩ : pa = st0.memoryBegin + span pre + 32 ∧ st1 = st1b := by simpa using e
    obtain ⟨rfl, rfl, rfl⟩ := head_split hbs (by simp)
    have hh : st1.head = none := by
      have := I1.dll
      simp only [span, m0, Nat.add_zero, List.erase_cons_head] at this
      exact this
    rw [alloc_empty st1 B hh] at hB
    cases hB
  rw [hA] at e
  obtain ⟨hpa, rfl⟩ : pa = st0.memoryBegin + span pre + (s - A - 48) + 80 ∧ st1 = st1b := by
    simpa using e
  obtain ⟨rfl, rfl, rfl⟩ := head_split hbs (by simp)
  simp only [span, m0, Nat.add_zero, List.nil_append] at hpa I1
  rw [m0] at m1
  clear e hbs I0 h0b
  -- alloc(B)
  rcases alloc_any I1 B with e | e | ⟨pre, s, post, st2b, hbs, e, m2, I2⟩
      | ⟨pre, s, post, st2b, hbs, hlt2, e, m2, I2⟩
  · rw [hB] at e; cases e
  · rw [hB] at e; cases e
  · rw [hB] at e
    obtain ⟨-, rfl⟩ : pb = st1.memoryBegin + span pre + 32 ∧ st2 = st2b := by simpa using e
    obtain ⟨rfl, rfl, rfl⟩ := head_split hbs (by simp)
    have hh : st2.head = none := by
      have := I2.dll
      simp only [span, m1, Nat.add_zero, List.erase_cons_head] at this
      exact this
    rw [alloc_empty st2 C hh] at hC
    cases hC
  rw [hB] at e
  obtain ⟨hpb, rfl⟩ : pb = st1.memoryBegin + span pre + (s - B - 48) + 80 ∧ st2 = st2b := by
    simpa using e
  obtain ⟨rfl, rfl, rfl⟩ := head_split hbs (by simp)
  simp only [span, m1, Nat.add_zero, List.nil_append] at hpb I2
  rw [m1] at m2
  clear e hbs I1
  -- alloc(C)
  rcases alloc_any I2 C with e | e | ⟨pre, s, post, st3b, hbs, e, m3, I3⟩
      | ⟨pre, s, post, st3b, hbs, hlt3, e, m3, I3⟩
  · rw [hC] at e; cases e
  · rw [hC] at e; cases e
  · -- the third request takes the remaining free block whole
    rw [hC] at e
    obtain ⟨hpc, rfl⟩ : pc = st2.memoryBegin + span pre + 32 ∧ st3 = st3b := by simpa using e
    obtain ⟨rfl, rfl, rfl⟩ := head_split hbs (by simp)
    simp only [span, m2, Nat.add_zero, List.nil_append, List.erase_cons_head] at hpc I3
    rw [m2] at m3
    clear e hbs I2
    obtain ⟨r, hr⟩ : ∃ r, r = S - 48 - A - 48 - B - 48 := ⟨_, rfl⟩
    rw [← hr] at I3 hpb
    obtain ⟨st4, f4, m4, I4⟩ := free_isolated [(r, false)] B [(A, false)] pb I3
      (by simp only [span, m3]; omega) (no_free_last_concat [] r) (no_free_head_cons A [])
    rw [m3] at m4
    simp only [span, m3, Nat.add_zero, List.cons_append, List.nil_append] at I4
    obtain ⟨st5, f5, m5, I5⟩ := free_back [(r, false)] B A [] pa I4
      (by simp only [span, m4]; omega) no_free_head_nil
    rw [m4] at m5
    simp only [span, m4, Nat.add_zero, List.cons_append, List.nil_append,
      List.erase_cons_head] at I5
    obtain ⟨st6, f6, m6, I6⟩ := free_fwd [] r (B + 48 + A) [] pc I5
      (by simp only [span, m5]; omega) no_free_last_nil
    rw [m5] at m6
    have hq : base + r + 48 = base + (r + 48) := by omega
    simp only [span, m5, Nat.add_zero, List.nil_append, hq, List.erase_cons_head] at I6
    have hsz : r + (B + 48 + A) + 48 = S - 48 := by omega
    rw [hsz] at I6
    exact ⟨st4, st5, st6, f4, f5, f6, sole_block m6 I6 (by omega)⟩
  · -- the third request splits the remaining free block
    rw [hC] at e
    obtain ⟨hpc, rfl⟩ : pc = st2.memoryBegin + span pre + (s - C - 48) + 80 ∧ st3 = st3b := by
      simpa using e
    obtain ⟨rfl, rfl, rfl⟩ := head_split hbs (by simp)
    simp only [span, m2, Nat.add_zero, List.nil_append] at hpc I3
    rw [m2] at m3
    clear e hbs I2
    obtain ⟨r2, hr2⟩ : ∃ r2, r2 = S - 48 - A - 48 - B - 48 := ⟨_, rfl⟩
    rw [← hr2] at I3 hpb hpc hlt3
    obtain ⟨r, hr⟩ : ∃ r, r = r2 - C - 48 := ⟨_, rfl⟩
    rw [← hr] at I3 hpc
    obtain ⟨st4, f4, m4, I4⟩ := free_isolated [(r, true), (C, false)] B [(A, false)] pb I3
      (by simp only [span, m3]; omega) (no_free_last_concat [(r, true)] C)
      (no_free_head_cons A [])
    rw [m3] at m4
    simp only [span, m3, Nat.add_zero, List.cons_append, List.nil_append] at I4
    obtain ⟨st5, f5, m5, I5⟩ := free_back [(r, true), (C, false)] B A [] pa I4
      (by simp only [span, m4]; omega) no_free_head_nil
    rw [m4] at m5
    simp only [span, m4, Nat.add_zero, List.cons_append, List.nil_append,
      List.erase_cons_head] at I5
    obtain ⟨st6, f6, m6, I6⟩ := free_both [] r C (B + 48 + A) [] pc I5
      (by simp only [span, m5]; omega)
    rw [m5] at m6
    have hq : base + r + 48 + C + 48 = base + (r + 48 + (C + 48)) := by omega
    have hl : ([base + (r + 48 + (C + 48)), base].erase base).erase
        (base + (r + 48 + (C + 48))) = [] :=
      erase_two _ _ (by omega)
    simp only [span, m5, Nat.add_zero, List.nil_append, hq, hl] at I6
    have hsz : r + 48 + C + (B + 48 + A) + 48 = S - 48 := by omega
    rw [hsz] at I6
    exact ⟨st4, st5, st6, f4, f5, f6, sole_block m6 I6 (by omega)⟩


theorem exampleThree_eq : exampleTwo.alloc 26 = some (some 4128, exampleThree) := rfl

theorem full_recoalescence_witness :
    tagOverhead ≤ 200 ∧ 200 < SIZE_MOD
      ∧ SimpleAllocator.new zeroBegin zeroEnd 4096 200 = some exampleFresh
      ∧ exampleFresh.alloc 10 = some (some 4270, exampleOne)
      ∧ exampleOne.alloc 20 = some (some 4202, exampleTwo)
      ∧ exampleTwo.alloc 26 = some (some 4128, exampleThree)
      ∧ ∃ st4 st5 st6, exampleThree.free 4202 = some st4 ∧ st4.free 4270 = some st5
        ∧ st5.free 4128 = some st6
        ∧ tiling st6 = some [(4096, 200 - tagOverhead, true)]
        ∧ freeList st6 = some [4096]
        ∧ st6.head = some 4096
        ∧ st6.beginAt 4096 = ⟨200 - tagOverhead, true, none, none⟩
        ∧ st6.endAt (4096 + sizeofBeginMarker + (200 - tagOverhead)) = ⟨200 - tagOverhead, true⟩
        ∧ ∃ p st7, st6.alloc (200 - tagOverhead) = some (some p, st7) :=
  ⟨by decide, by decide, exampleFresh_eq, exampleOne_eq, exampleTwo_eq, exampleThree_eq,
    full_recoalescence zeroBegin zeroEnd 4096 200 10 20 26 4270 4202 4128 exampleFresh
      exampleOne exampleTwo exampleThree (by decide) (by decide) exampleFresh_eq exampleOne_eq
      exampleTwo_eq exampleThree_eq⟩

/-! ## Calls in reachable states have a defined result -/

/-- In a reachable state every in-contract `alloc` returns: the search ends
within the iteration budget and every marker access falls inside the arena. -/
theorem Reach.alloc_defined {st : SimpleAllocator} {live : List (Nat × Nat)}
    (h : Reach st live) (n : Nat) (hn : n + 48 < 18446744073709551616) :
    ∃ r, st.alloc n = some r := by
  obtain ⟨bs, fl, hI, -⟩ := h.inv
  by_cases hn0 : n = 0
  · exact ⟨(none, st), by unfold alloc; rw [if_pos hn0]⟩
  · rcases alloc_spec hI hn0 hn with ⟨e, -⟩ |
      ⟨pre, s, post, st3, l1, l2, -, -, -, -, e, -⟩ |
      ⟨pre, s, post, st3, l1, l2, -, -, -, -, e, -⟩
    · exact ⟨_, e⟩
    · exact ⟨_, e⟩
    · exact ⟨_, e⟩

/-- In a reachable state the release of a live pointer returns. -/
theorem Reach.free_defined {st : SimpleAllocator} {live : List (Nat × Nat)}
    (h : Reach st live) {p n : Nat} (hm : (p, n) ∈ live) : ∃ st2, st.free p = some st2 := by
  obtain ⟨bs, fl, hI, hL⟩ := h.inv
  obtain ⟨hp, s, hs, -⟩ := hL.2.1 p n hm
  obtain ⟨pre, post, hbs, hc⟩ := mem_blocksFrom_split hs
  simp only at hbs hc
  have hpc : p = st.memoryBegin + span pre + 32 := by omega
  subst hbs
  obtain ⟨st3, pre0, post0, A, B, fl1, fl2, e1, -⟩ := free_spec hI
  exact ⟨st3, by rw [hpc]; exact e1⟩

/-! ## Zero-size requests and exact fit on a fresh arena -/

/-- C11 (zero-size request): for every allocator state, `alloc(0)` returns null
and the state after the call, arena contents and free-list head included, is
the state before the call. -/
theorem alloc_zero (st : SimpleAllocator) : st.alloc 0 = some (none, st) := by
  unfold alloc
  rw [if_pos rfl]

/-- C12 (exact fit exhausts a fresh arena): for every arena size `S` greater
than the tag overhead, on a freshly constructed allocator `alloc(S -
tagOverhead)` returns the non-null pointer at offset `sizeof(BeginMarker)`, and
an immediately following `alloc(n)` returns null for every `n`, in particular
for `n = 1`. -/
theorem exact_fit_exhausts (B0 : Nat → BeginMarker) (E0 : Nat → EndMarker) (base S : Nat)
    (hS : tagOverhead < S) (hW : S < SIZE_MOD) :
    ∃ st0 st1, SimpleAllocator.new B0 E0 base S = some st0
      ∧ st0.alloc (S - tagOverhead) = some (some (base + sizeofBeginMarker), st1)
      ∧ ∀ n, st1.alloc n = some (none, st1) := by
  have hS2 : 48 < S := hS
  have hW2 : S < 18446744073709551616 := hW
  have hto : tagOverhead = 48 := rfl
  have hsb : sizeofBeginMarker = 32 := rfl
  rw [hto, hsb]
  obtain ⟨st0, h0, m0, -, I0⟩ := new_spec B0 E0 base S (by omega) hW2
  have I0b : Inv st0 ([] ++ (S - 48, true) :: []) [base] := I0
  obtain ⟨⟨t1, -⟩, -⟩ := I0b.mid_tag
  simp only [span, Nat.add_zero, m0] at t1
  rcases alloc_spec I0 (by omega : S - 48 ≠ 0) (by omega) with
    ⟨-, e⟩ | ⟨pre, s, post, st1, l1, l2, hbs, -, -, -, e, -, I1⟩
      | ⟨pre, s, post, st1, l1, l2, hbs, hlt, -, -, -, -, -⟩
  · exact absurd t1 (e base (List.mem_singleton_self _)).1
  · obtain ⟨rfl, rfl, rfl⟩ := head_split hbs (by simp)
    simp only [span, m0, Nat.add_zero, List.nil_append, List.erase_cons_head] at e I1
    refine ⟨st0, st1, h0, e, fun n => alloc_empty st1 n ?_⟩
    exact I1.dll
  · obtain ⟨rfl, rfl, rfl⟩ := head_split hbs (by simp)
    omega

theorem exact_fit_exhausts_witness :
    tagOverhead < 200 ∧ 200 < SIZE_MOD
      ∧ ∃ st0 st1, SimpleAllocator.new zeroBegin zeroEnd 4096 200 = some st0
        ∧ st0.alloc (200 - tagOverhead) = some (some (4096 + sizeofBeginMarker), st1)
        ∧ ∀ n, st1.alloc n = some (none, st1) :=
  ⟨by decide, by decide,
    exact_fit_exhausts zeroBegin zeroEnd 4096 200 (by decide) (by decide)⟩

/-! ## Candidates that fit the payload but cannot be split -/

theorem mem_blocksFrom_replace (a : Nat) (pre mid mid2 post : List (Nat × Bool))
    (t : Nat × Nat × Bool) (hspan : span mid2 = span mid)
    (ht : t ∈ blocksFrom a (pre ++ mid ++ post))
    (hn : t ∉ blocksFrom (a + span pre) mid) : t ∈ blocksFrom a (pre ++ mid2 ++ post) := by
  rw [mem_blocksFrom_three] at ht ⊢
  rw [hspan]
  tauto

/-- A free block whose size passes none of the tests of the loop body survives
an in-contract `alloc`, which fails when that block is the only free one. -/
theorem Inv.alloc_rejects {st : SimpleAllocator} {bs : List (Nat × Bool)} {fl : List Nat}
    (h : Inv st bs fl) {n a S : Nat} (hn0 : n ≠ 0) (hn : n + 48 < 18446744073709551616)
    (hb : (a, S, true) ∈ blocksFrom st.memoryBegin bs)
    (h1 : S ≠ n) (h2 : S ≠ n + 48) (h3 : ¬ (n + 48 < S)) :
    ∃ r st2 bs2 fl2, st.alloc n = some (r, st2) ∧ st2.memoryBegin = st.memoryBegin
      ∧ Inv st2 bs2 fl2 ∧ (a, S, true) ∈ blocksFrom st.memoryBegin bs2
      ∧ (fl = [a] → r = none ∧ st2 = st) := by
  have hsz : (st.beginAt a).blockSize = S := (h.tags _ hb).1
  have hafl : a ∈ fl := (h.mem_fl a).2 ⟨S, hb⟩
  rcases alloc_spec h hn0 hn with ⟨e, -⟩
      | ⟨pre, s, post, st2, l1, l2, hbs, hs, hfl, -, e, m2, I2⟩
      | ⟨pre, s, post, st2, l1, l2, hbs, hs, hfl, -, e, m2, I2⟩
  · exact ⟨none, st, bs, fl, e, rfl, h, hb, fun _ => ⟨rfl, rfl⟩⟩
  · subst hbs
    obtain ⟨⟨t1, -⟩, -⟩ := h.mid_tag
    simp only at t1
    have hne : a ≠ st.memoryBegin + span pre := by
      rintro rfl
      rw [t1] at hsz
      omega
    refine ⟨_, st2, _, _, e, m2, I2, ?_, ?_⟩
    · have := mem_blocksFrom_replace st.memoryBegin pre [(s, true)] [(s, false)] post
        (a, S, true) (by simp [span]) (by simpa using hb) (by simp [blocksFrom, hne])
      simpa using this
    · intro hfa
      rw [hfa] at hfl
      have : st.memoryBegin + span pre ∈ [a] := by rw [hfl]; simp
      simp only [List.mem_singleton] at this
      exact absurd this.symm hne
  · subst hbs
    obtain ⟨⟨t1, -⟩, -⟩ := h.mid_tag
    simp only at t1
    have hne : a ≠ st.memoryBegin + span pre := by
      rintro rfl
      rw [t1] at hsz
      omega
    refine ⟨_, st2, _, _, e, m2, I2, ?_, ?_⟩
    · have := mem_blocksFrom_replace st.memoryBegin pre [(s, true)]
        [(s - n - 48, true), (n, false)] post
        (a, S, true) (by simp only [span]; omega) (by simpa using hb)
        (by simp [blocksFrom, hne])
      simpa using this
    · intro hfa
      rw [hfa] at hfl
      have : st.memoryBegin + span pre ∈ [a] := by rw [hfl]; simp
      simp only [List.mem_singleton] at this
      exact absurd this.symm hne

/-- C13 as stated fails at the boundary `S - n = tagOverhead`: on the fresh
200-byte arena the only free block has payload size 152, and for `n = 104`
(so `0 < S - n` and `S - n ≤ tagOverhead`) the call `alloc(104)` does not
return null: the block passes the test `blockSize == size + sizeof(BeginMarker)
+ sizeof(EndMarker)` and is consumed whole. -/
theorem reject_boundary_counterexample :
    tiling exampleFresh = some [(4096, 152, true)] ∧ freeList exampleFresh = some [4096]
      ∧ 0 < 104 ∧ 0 < 152 - 104 ∧ 152 - 104 ≤ tagOverhead
      ∧ exampleFresh.alloc 104 ≠ some (none, exampleFresh)
      ∧ ∃ st2, exampleFresh.alloc 104 = some (some 4128, st2)
        ∧ tiling st2 = some [(4096, 152, false)] ∧ freeList st2 = some [] := by
  refine ⟨rfl, rfl, by decide, by decide, by decide, ?_, ?_⟩
  · intro h
    have h2 := congrArg (Option.map Prod.fst) h
    revert h2
    decide
  · exact ⟨((exampleFresh.alloc 104).map Prod.snd).getD exampleFresh, rfl, rfl, rfl⟩

/-- C13 (rejection of non-splittable candidates), amended to `0 < S - n <
tagOverhead`: in every reachable state, for every request size `n > 0` and
every free block at address `a` with payload size `S` such that `0 < S - n <
tagOverhead`, `alloc(n)` returns and rejects that block: the block is in the
tiling after the call with the same address and size, still free and still on
the free list, and when it is the only free block `alloc(n)` returns null and
leaves the state unchanged. -/
theorem reject_unsplittable {st : SimpleAllocator} {live : List (Nat × Nat)}
    (h : Reach st live) {n a S : Nat} {bl : List (Nat × Nat × Bool)} (hn : 0 < n)
    (ht : tiling st = some bl) (hb : (a, S, true) ∈ bl)
    (h1 : 0 < S - n) (h2 : S - n < tagOverhead) :
    ∃ r st2, st.alloc n = some (r, st2)
      ∧ (∃ bl2, tiling st2 = some bl2 ∧ (a, S, true) ∈ bl2)
      ∧ (∃ fl2, freeList st2 = some fl2 ∧ a ∈ fl2)
      ∧ (freeList st = some [a] → r = none ∧ st2 = st) := by
  have hto : tagOverhead = 48 := rfl
  rw [hto] at h2
  obtain ⟨bs, fl, hI, -⟩ := h.inv
  rw [hI.tiling_eq] at ht
  cases ht
  have hbd := hI.block_bounds hb
  have htot := hI.total_lt
  simp only at hbd
  obtain ⟨r, st2, bs2, fl2, e, m2, I2, hb2, hsole⟩ :=
    hI.alloc_rejects (a := a) (S := S) (by omega : n ≠ 0) (by omega) hb (by omega) (by omega)
      (by omega)
  refine ⟨r, st2, e, ⟨_, I2.tiling_eq, by rw [m2]; exact hb2⟩,
    ⟨fl2, I2.freeList_eq, (I2.mem_fl a).2 ⟨S, by rw [m2]; exact hb2⟩⟩, ?_⟩
  intro hf
  rw [hI.freeList_eq] at hf
  cases hf
  exact hsole rfl

theorem reject_unsplittable_witness :
    Reach exampleTwo [(4202, 20), (4270, 10)] ∧ 0 < 10
      ∧ tiling exampleTwo = some [(4096, 26, true), (4170, 20, false), (4238, 10, false)]
      ∧ (4096, 26, true) ∈ [(4096, 26, true), (4170, 20, false), (4238, 10, false)]
      ∧ 0 < 26 - 10 ∧ 26 - 10 < tagOverhead
      ∧ ∃ r st2, exampleTwo.alloc 10 = some (r, st2)
        ∧ (∃ bl2, tiling st2 = some bl2 ∧ (4096, 26, true) ∈ bl2)
        ∧ (∃ fl2, freeList st2 = some fl2 ∧ 4096 ∈ fl2)
        ∧ (freeList exampleTwo = some [4096] → r = none ∧ st2 = exampleTwo) :=
  ⟨reach_exampleTwo, by decide, rfl, by decide, by decide, by decide,
    reject_unsplittable reach_exampleTwo (by decide) rfl (by decide) (by decide) (by decide)⟩

/-! ## The writes of the two successful branches of `alloc` -/

/-- The splitting branch, field by field: which markers it writes and what
they hold afterwards. -/
theorem splitBlock_fields {st : SimpleAllocator} {pre post : List (Nat × Bool)} {s n : Nat}
    {fl : List Nat} (h : Inv st (pre ++ (s, true) :: post) fl) (hn : n + 48 < s) (c : Nat)
    (hc : c = st.memoryBegin + span pre) :
    ∃ st2, st.splitBlock c n = some (some (c + 32 + (s - n)), st2)
      ∧ st2.head = st.head
      ∧ st2.beginAt c = ⟨s - n - 48, true, (st.beginAt c).nextFreeBlock,
          (st.beginAt c).prevFreeBlock⟩
      ∧ st2.endAt (c + 32 + (s - n - 48)) = ⟨s - n - 48, true⟩
      ∧ st2.beginAt (c + (s - n)) = ⟨n, false, none, none⟩
      ∧ st2.endAt (c + 32 + s) = ⟨n, false⟩
      ∧ (∀ x, x ≠ c → x ≠ c + (s - n) → st2.beginAt x = st.beginAt x)
      ∧ (∀ y, y ≠ c + 32 + (s - n - 48) → y ≠ c + 32 + s → st2.endAt y = st.endAt y) := by
  obtain ⟨⟨t1, t2, t3, -⟩, hbnd⟩ := h.mid_tag
  simp only at t1 t2 t3 hbnd
  have htot := h.total_lt
  rw [← hc] at t1 t2 t3 hbnd
  have hle : st.memoryBegin ≤ c := by omega
  clear hc
  have hns : subSize (subSize (subSize (st.beginAt c).blockSize n) 32) 16 = s - n - 48 := by
    rw [t1, subSize_eq s n (by omega) (by omega), subSize_eq _ 32 (by omega) (by omega),
      subSize_eq _ 16 (by omega) (by omega)]
    omega
  obtain ⟨ns, hnsdef⟩ : ∃ ns, ns = s - n - 48 := ⟨_, rfl⟩
  rw [← hnsdef] at hns ⊢
  obtain ⟨e1, he1⟩ : ∃ e1, e1 = c + 32 + ns := ⟨_, rfl⟩
  obtain ⟨nb, hnb⟩ : ∃ nb, nb = e1 + 16 := ⟨_, rfl⟩
  obtain ⟨e2, he2⟩ : ∃ e2, e2 = nb + 32 + n := ⟨_, rfl⟩
  have hev := splitBlock_eval st c n ns e1 nb e2 hns he1 hnb he2 (by omega) (by omega) (by omega)
    (by omega)
  have a1 : c + 32 + (s - n) = nb + 32 := by omega
  have a2 : c + (s - n) = nb := by omega
  have a3 : c + 32 + s = e2 := by omega
  have n1 : c ≠ nb := by omega
  have n2 : e1 ≠ e2 := by omega
  rw [a1, a2, a3, ← he1]
  refine ⟨_, hev, by simp, ?_, ?_, ?_, ?_, ?_, ?_⟩
  · apply beginMarker_eq_of_fields <;> simp [n1, t2]
  · apply endMarker_eq_of_fields <;> simp [n2]
  · apply beginMarker_eq_of_fields <;> simp
  · apply endMarker_eq_of_fields <;> simp
  · intro x hx1 hx2
    apply beginMarker_eq_of_fields <;> simp [hx1, hx2]
  · intro y hy1 hy2
    apply endMarker_eq_of_fields <;> simp [hy1, hy2]

/-- The exact-fit branch, field by field. -/
theorem takeWholeBlock_fields {st : SimpleAllocator} {pre post : List (Nat × Bool)} {s : Nat}
    {fl : List Nat} (h : Inv st (pre ++ (s, true) :: post) fl) (c : Nat)
    (hc : c = st.memoryBegin + span pre) :
    ∃ st2, st.takeWholeBlock c = some (some (c + 32), st2)
      ∧ st2.beginAt c = ⟨s, false, none, none⟩
      ∧ st2.endAt (c + 32 + s) = ⟨s, false⟩
      ∧ (∀ x, x ≠ c → (st2.beginAt x).blockSize = (st.beginAt x).blockSize
          ∧ (st2.beginAt x).isFree = (st.beginAt x).isFree)
      ∧ (∀ y, y ≠ c + 32 + s → st2.endAt y = st.endAt y) := by
  obtain ⟨⟨t1, t2, t3, -⟩, hbnd⟩ := h.mid_tag
  simp only at t1 t2 t3 hbnd
  have hcm := h.mid_mem_fl
  rw [← hc] at t1 t2 t3 hbnd hcm
  have hle : st.memoryBegin ≤ c := by omega
  clear hc
  obtain ⟨st1, hrem, r1, r2, r3, r4, r5, r6, r7, r8⟩ :=
    removeFreeMemoryBlock_spec st fl c (fun x hx => h.fl_valid hx) h.dll h.nodup hcm
  have hvb : st1.memoryBegin ≤ c ∧ c + 32 ≤ st1.memoryBegin + st1.totalMemorySize := by
    rw [r1, r2]; omega
  have hve : st1.memoryBegin ≤ c + s + 32
      ∧ c + s + 32 + 16 ≤ st1.memoryBegin + st1.totalMemorySize := by
    rw [r1, r2]; omega
  have hsz : (st1.beginAt c).blockSize = s := by rw [(r4 c).1]; exact t1
  have a1 : c + 32 + s = c + s + 32 := by omega
  rw [a1]
  refine ⟨(((st1.setIsFree c false).setNext c none).setPrev c none).setEndIsFree (c + s + 32)
    false, ?_, ?_, ?_, ?_, ?_⟩
  · unfold takeWholeBlock getEndMarker
    rw [hrem]
    simp only [Option.bind_eq_bind, Option.some_bind, Option.pure_def, sizeofBeginMarker]
    rw [writeIsFree_eq _ _ _ hvb, Option.some_bind, writeNext_eq (st1.setIsFree c false) _ _ hvb,
      Option.some_bind, writePrev_eq ((st1.setIsFree c false).setNext c none) _ _ hvb,
      Option.some_bind,
      loadBegin_eq (((st1.setIsFree c false).setNext c none).setPrev c none) _ hvb,
      Option.some_bind]
    simp only [setPrev_blockSize, setNext_blockSize, setIsFree_blockSize, hsz, Option.some_bind]
    rw [writeEndIsFree_eq (((st1.setIsFree c false).setNext c none).setPrev c none) _ _ hve,
      Option.some_bind]
  · apply beginMarker_eq_of_fields <;> simp [hsz]
  · apply endMarker_eq_of_fields <;> simp [r3, t3, a1.symm]
  · intro x hx
    simp [hx, r4]
  · intro y hy
    apply endMarker_eq_of_fields <;> simp [hy, r3]

/-! ## The effect of a successful `alloc` -/

theorem blocksFrom_cons_mid (a : Nat) (pre post : List (Nat × Bool)) (b : Nat × Bool) :
    blocksFrom a (pre ++ b :: post)
      = blocksFrom a pre ++ (a + span pre, b.1, b.2)
          :: blocksFrom (a + span pre + b.1 + 48) post := by
  rw [blocksFrom_append]
  rfl

/-- The first free-list member that passes a test of the loop body, located in
the tiling, together with the branch equations of `alloc`. -/
theorem Inv.first_fit {st : SimpleAllocator} {bs : List (Nat × Bool)} {fl : List Nat}
    (h : Inv st bs fl) {n c : Nat} {l1 l2 : List Nat} (hn0 : n ≠ 0)
    (hn : n + 48 < 18446744073709551616) (hfl : fl = l1 ++ c :: l2)
    (hfirst : ∀ y ∈ l1, (st.beginAt y).blockSize ≠ n ∧ (st.beginAt y).blockSize ≠ n + 48
      ∧ ¬ (n + 48 < (st.beginAt y).blockSize)) :
    ∃ pre post, bs = pre ++ ((st.beginAt c).blockSize, true) :: post
      ∧ c = st.memoryBegin + span pre
      ∧ (((st.beginAt c).blockSize = n ∨ (st.beginAt c).blockSize = n + 48) →
          st.alloc n = st.takeWholeBlock c)
      ∧ (n + 48 < (st.beginAt c).blockSize → st.alloc n = st.splitBlock c n) := by
  have ha : addSize (addSize n 32) 16 = n + 48 := by
    rw [addSize_eq n 32 (by omega), addSize_eq _ 16 (by omega)]
  have hcm : c ∈ fl := by rw [hfl]; simp
  obtain ⟨pre, post, hbs, hca⟩ := mem_blocksFrom_split (h.fl_block hcm)
  simp only at hbs hca
  obtain ⟨-, hB⟩ := alloc_scan h hn0
  rw [ha] at hB
  obtain ⟨hW, hS⟩ := hB l1 c l2 hfl (fun y hy => by have := hfirst y hy; tauto)
  exact ⟨pre, post, hbs, hca, hW, fun hlt => hS (by omega) hlt⟩

/-- C14 (split effect): in a reachable state, for `n > 0` with `n +
tagOverhead` not wrapping, let `b` (at address `c`) be the first block in
free-list order whose payload size `S` satisfies `S == n`, `S == n +
tagOverhead` or `S > n + tagOverhead`.  If `S > n + tagOverhead`, `alloc(n)`
leaves `b` free at the same address and the same free-list position (the list
is unchanged, and so are the links of `b`) with `blockSize = S - n -
tagOverhead` mirrored in a relocated end tag; directly after that end tag it
creates a used block of `blockSize` exactly `n` with null links whose end tag
is at the position of the former end tag of `b`; it returns the pointer
`b_payload + (S - n)`; and it changes no other begin tag and no other end
tag. -/
theorem split_effect {st : SimpleAllocator} {live : List (Nat × Nat)} (h : Reach st live)
    {n c S : Nat} {l1 l2 : List Nat} (hn0 : 0 < n) (hn : n + tagOverhead < SIZE_MOD)
    (hfl : freeList st = some (l1 ++ c :: l2))
    (hfirst : ∀ y ∈ l1, (st.beginAt y).blockSize ≠ n
      ∧ (st.beginAt y).blockSize ≠ n + tagOverhead
      ∧ ¬ (n + tagOverhead < (st.beginAt y).blockSize))
    (hS : (st.beginAt c).blockSize = S) (hgt : n + tagOverhead < S) :
    ∃ st2 pre post,
      st.alloc n = some (some (c + sizeofBeginMarker + (S - n)), st2)
      ∧ tiling st = some (pre ++ (c, S, true) :: post)
      ∧ tiling st2
          = some (pre ++ (c, S - n - tagOverhead, true) :: (c + (S - n), n, false) :: post)
      ∧ freeList st2 = some (l1 ++ c :: l2)
      ∧ st2.head = st.head
      ∧ st2.beginAt c = ⟨S - n - tagOverhead, true, (st.beginAt c).nextFreeBlock,
          (st.beginAt c).prevFreeBlock⟩
      ∧ st2.endAt (c + sizeofBeginMarker + (S - n - tagOverhead)) = ⟨S - n - tagOverhead, true⟩
      ∧ st2.beginAt (c + (S - n)) = ⟨n, false, none, none⟩
      ∧ st2.endAt (c + sizeofBeginMarker + S) = ⟨n, false⟩
      ∧ (∀ x, x ≠ c → x ≠ c + (S - n) → st2.beginAt x = st.beginAt x)
      ∧ (∀ y, y ≠ c + sizeofBeginMarker + (S - n - tagOverhead) →
          y ≠ c + sizeofBeginMarker + S → st2.endAt y = st.endAt y) := by
  have hto : tagOverhead = 48 := rfl
  have hsb : sizeofBeginMarker = 32 := rfl
  have hsm : SIZE_MOD = 18446744073709551616 := rfl
  rw [hto] at hfirst hgt
  rw [hto, hsm] at hn
  rw [hto, hsb]
  obtain ⟨bs, fl, hI, -⟩ := h.inv
  rw [hI.freeList_eq] at hfl
  have hfl2 : fl = l1 ++ c :: l2 := Option.some.inj hfl
  obtain ⟨pre, post, hbs, hc, -, hsplit⟩ := hI.first_fit (by omega) hn hfl2 hfirst
  rw [hS] at hbs hsplit
  subst hbs
  obtain ⟨st2, e, f1, f2, f3, f4, f5, f6, f7⟩ := splitBlock_fields hI hgt c hc
  obtain ⟨st3, e3, m3, I3⟩ := splitBlock_spec hI hgt
  rw [← hc, e] at e3
  obtain rfl : st2 = st3 := by
    simp only [Option.some.injEq, Prod.mk.injEq] at e3
    exact e3.2
  refine ⟨st2, blocksFrom st.memoryBegin pre, blocksFrom (c + S + 48) post, ?_, ?_, ?_, ?_,
    f1, f2, f3, f4, f5, f6, f7⟩
  · rw [hsplit hgt, e]
  · rw [hI.tiling_eq, blocksFrom_cons_mid, ← hc]
  · rw [I3.tiling_eq, m3, blocksFrom_cons_mid, ← hc]
    simp only [blocksFrom]
    have a1 : c + (S - n - 48) + 48 = c + (S - n) := by omega
    have a2 : c + (S - n) + n + 48 = c + S + 48 := by omega
    rw [a1, a2]
  · rw [I3.freeList_eq, hfl2]

theorem split_effect_witness :
    Reach exampleOne [(4270, 10)] ∧ 0 < 20 ∧ 20 + tagOverhead < SIZE_MOD
      ∧ freeList exampleOne = some ([] ++ 4096 :: [])
      ∧ (∀ y ∈ ([] : List Nat), (exampleOne.beginAt y).blockSize ≠ 20
        ∧ (exampleOne.beginAt y).blockSize ≠ 20 + tagOverhead
        ∧ ¬ (20 + tagOverhead < (exampleOne.beginAt y).blockSize))
      ∧ (exampleOne.beginAt 4096).blockSize = 94 ∧ 20 + tagOverhead < 94
      ∧ ∃ st2 pre post,
        exampleOne.alloc 20 = some (some (4096 + sizeofBeginMarker + (94 - 20)), st2)
        ∧ tiling exampleOne = some (pre ++ (4096, 94, true) :: post)
        ∧ tiling st2 = some (pre ++ (4096, 94 - 20 - tagOverhead, true)
            :: (4096 + (94 - 20), 20, false) :: post)
        ∧ freeList st2 = some ([] ++ 4096 :: [])
        ∧ st2.head = exampleOne.head
        ∧ st2.beginAt 4096 = ⟨94 - 20 - tagOverhead, true,
            (exampleOne.beginAt 4096).nextFreeBlock, (exampleOne.beginAt 4096).prevFreeBlock⟩
        ∧ st2.endAt (4096 + sizeofBeginMarker + (94 - 20 - tagOverhead))
            = ⟨94 - 20 - tagOverhead, true⟩
        ∧ st2.beginAt (4096 + (94 - 20)) = ⟨20, false, none, none⟩
        ∧ st2.endAt (4096 + sizeofBeginMarker + 94) = ⟨20, false⟩
        ∧ (∀ x, x ≠ 4096 → x ≠ 4096 + (94 - 20) → st2.beginAt x = exampleOne.beginAt x)
        ∧ (∀ y, y ≠ 4096 + sizeofBeginMarker + (94 - 20 - tagOverhead) →
            y ≠ 4096 + sizeofBeginMarker + 94 → st2.endAt y = exampleOne.endAt y) :=
  ⟨reach_exampleOne, by decide, by decide, rfl, by simp, rfl, by decide,
    split_effect reach_exampleOne (by decide) (by decide) rfl (by simp) rfl (by decide)⟩

/-- C15 (exact-fit effect): in a reachable state, for `n > 0` with `n +
tagOverhead` not wrapping, let `b` (at address `c`) be the first block in
free-list order whose payload size `S` satisfies `S == n`, `S == n +
tagOverhead` or `S > n + tagOverhead`.  If `S == n` or `S == n + tagOverhead`,
`alloc(n)` returns the payload pointer of `b`, sets `isFree = false` in both
tags of `b`, leaves the `blockSize` and the address of `b` unchanged, removes
exactly `b` from the free list while keeping the order of all other members,
and changes the size or flag of no other block. -/
theorem exact_fit_effect {st : SimpleAllocator} {live : List (Nat × Nat)} (h : Reach st live)
    {n c S : Nat} {l1 l2 : List Nat} (hn0 : 0 < n) (hn : n + tagOverhead < SIZE_MOD)
    (hfl : freeList st = some (l1 ++ c :: l2))
    (hfirst : ∀ y ∈ l1, (st.beginAt y).blockSize ≠ n
      ∧ (st.beginAt y).blockSize ≠ n + tagOverhead
      ∧ ¬ (n + tagOverhead < (st.beginAt y).blockSize))
    (hS : (st.beginAt c).blockSize = S) (hfit : S = n ∨ S = n + tagOverhead) :
    ∃ st2 pre post,
      st.alloc n = some (some (c + sizeofBeginMarker), st2)
      ∧ tiling st = some (pre ++ (c, S, true) :: post)
      ∧ tiling st2 = some (pre ++ (c, S, false) :: post)
      ∧ freeList st2 = some (l1 ++ l2)
      ∧ st2.beginAt c = ⟨S, false, none, none⟩
      ∧ st2.endAt (c + sizeofBeginMarker + S) = ⟨S, false⟩
      ∧ (∀ x, x ≠ c → (st2.beginAt x).blockSize = (st.beginAt x).blockSize
          ∧ (st2.beginAt x).isFree = (st.beginAt x).isFree)
      ∧ (∀ y, y ≠ c + sizeofBeginMarker + S → st2.endAt y = st.endAt y) := by
  have hto : tagOverhead = 48 := rfl
  have hsb : sizeofBeginMarker = 32 := rfl
  have hsm : SIZE_MOD = 18446744073709551616 := rfl
  rw [hto] at hfirst hfit
  rw [hto, hsm] at hn
  rw [hsb]
  obtain ⟨bs, fl, hI, -⟩ := h.inv
  rw [hI.freeList_eq] at hfl
  have hfl2 : fl = l1 ++ c :: l2 := Option.some.inj hfl
  obtain ⟨pre, post, hbs, hc, hwhole, -⟩ := hI.first_fit (by omega) hn hfl2 hfirst
  rw [hS] at hbs hwhole
  subst hbs
  obtain ⟨st2, e, f1, f2, f3, f4⟩ := takeWholeBlock_fields hI c hc
  obtain ⟨st3, e3, m3, I3⟩ := takeWholeBlock_spec hI
  rw [← hc, e] at e3
  obtain rfl : st2 = st3 := by
    simp only [Option.some.injEq, Prod.mk.injEq] at e3
    exact e3.2
  have hnd := hI.nodup
  rw [hfl2] at hnd
  have hcl1 : c ∉ l1 := by
    intro hm
    have := (List.nodup_append.1 hnd).2.2
    exact this hm (List.mem_cons_self _ _)
  refine ⟨st2, blocksFrom st.memoryBegin pre, blocksFrom (c + S + 48) post, ?_, ?_, ?_, ?_,
    f1, f2, f3, f4⟩
  · rw [hwhole hfit, e]
  · rw [hI.tiling_eq, blocksFrom_cons_mid, ← hc]
  · rw [I3.tiling_eq, m3, blocksFrom_cons_mid, ← hc]
  · rw [I3.freeList_eq, ← hc, hfl2, List.erase_append_right _ hcl1, List.erase_cons_head]

theorem exact_fit_effect_witness :
    Reach exampleTwo [(4202, 20), (4270, 10)] ∧ 0 < 26 ∧ 26 + tagOverhead < SIZE_MOD
      ∧ freeList exampleTwo = some ([] ++ 4096 :: [])
      ∧ (∀ y ∈ ([] : List Nat), (exampleTwo.beginAt y).blockSize ≠ 26
        ∧ (exampleTwo.beginAt y).blockSize ≠ 26 + tagOverhead
        ∧ ¬ (26 + tagOverhead < (exampleTwo.beginAt y).blockSize))
      ∧ (exampleTwo.beginAt 4096).blockSize = 26 ∧ (26 = 26 ∨ 26 = 26 + tagOverhead)
      ∧ ∃ st2 pre post,
        exampleTwo.alloc 26 = some (some (4096 + sizeofBeginMarker), st2)
        ∧ tiling exampleTwo = some (pre ++ (4096, 26, true) :: post)
        ∧ tiling st2 = some (pre ++ (4096, 26, false) :: post)
        ∧ freeList st2 = some ([] ++ [])
        ∧ st2.beginAt 4096 = ⟨26, false, none, none⟩
        ∧ st2.endAt (4096 + sizeofBeginMarker + 26) = ⟨26, false⟩
        ∧ (∀ x, x ≠ 4096 → (st2.beginAt x).blockSize = (exampleTwo.beginAt x).blockSize
            ∧ (st2.beginAt x).isFree = (exampleTwo.beginAt x).isFree)
        ∧ (∀ y, y ≠ 4096 + sizeofBeginMarker + 26 → st2.endAt y = exampleTwo.endAt y) :=
  ⟨reach_exampleTwo, by decide, by decide, rfl, by simp, rfl, Or.inl rfl,
    exact_fit_effect reach_exampleTwo (by decide) (by decide) rfl (by simp) rfl (Or.inl rfl)⟩

/-! ## No two neighbouring blocks are both free -/

theorem blocksFrom_map_snd (a : Nat) (l : List (Nat × Bool)) :
    (blocksFrom a l).map Prod.snd = l := by
  induction l generalizing a with
  | nil => rfl
  | cons b r ih => simp only [blocksFrom, List.map_cons, ih]

/-- The tiling of a state determines the list of blocks of the invariant. -/
theorem Inv.bs_unique {st : SimpleAllocator} {bs bs2 : List (Nat × Bool)} {fl fl2 : List Nat}
    (h : Inv st bs fl) (h2 : Inv st bs2 fl2) : bs2 = bs := by
  have e := h.tiling_eq
  rw [h2.tiling_eq] at e
  have e2 := congrArg (List.map Prod.snd) (Option.some.inj e)
  rw [blocksFrom_map_snd, blocksFrom_map_snd] at e2
  exact e2

/-- A chain condition around one member of a list. -/
theorem chain_mid (R : Nat × Bool → Nat × Bool → Prop) (pre post : List (Nat × Bool))
    (m : Nat × Bool) :
    List.Chain' R (pre ++ m :: post) ↔
      List.Chain' R pre ∧ List.Chain' R post ∧ (∀ x ∈ pre.getLast?, R x m)
        ∧ (∀ y ∈ post.head?, R m y) := by
  rw [List.chain'_append, List.chain'_cons']
  simp only [List.head?_cons, Option.mem_def, Option.some.injEq, forall_eq']
  tauto

theorem getLast_concat_iff (l : List (Nat × Bool)) (x : Nat × Bool) :
    x ∈ l.getLast? ↔ ∃ q, l = q ++ [x] := by
  constructor
  · intro h
    rcases List.eq_nil_or_concat l with rfl | ⟨q, b, rfl⟩
    · simp at h
    · simp only [List.concat_eq_append, List.getLast?_append, List.getLast?_singleton,
        Option.or, Option.mem_def, Option.some.injEq] at h
      exact ⟨q, by rw [List.concat_eq_append, h]⟩
  · rintro ⟨q, rfl⟩
    simp

/-- In a list without two neighbouring free blocks, the neighbours of a free
block are used. -/
theorem chain_free_neighbours {pre post : List (Nat × Bool)} {s : Nat}
    (h : List.Chain' (fun a b : Nat × Bool => ¬ (a.2 = true ∧ b.2 = true))
      (pre ++ (s, true) :: post)) :
    (∀ pre2 sp, pre ≠ pre2 ++ [(sp, true)]) ∧ (∀ sn post2, post ≠ (sn, true) :: post2) := by
  rw [chain_mid] at h
  obtain ⟨-, -, h3, h4⟩ := h
  constructor
  · intro pre2 sp he
    exact h3 (sp, true) ((getLast_concat_iff _ _).2 ⟨pre2, he⟩) ⟨rfl, rfl⟩
  · intro sn post2 he
    rw [he] at h4
    exact h4 (sn, true) rfl ⟨rfl, rfl⟩

theorem chain_whole {pre post : List (Nat × Bool)} {s : Nat}
    (h : List.Chain' (fun a b : Nat × Bool => ¬ (a.2 = true ∧ b.2 = true))
      (pre ++ (s, true) :: post)) :
    List.Chain' (fun a b : Nat × Bool => ¬ (a.2 = true ∧ b.2 = true))
      (pre ++ (s, false) :: post) := by
  rw [chain_mid] at h ⊢
  obtain ⟨h1, h2, -, -⟩ := h
  exact ⟨h1, h2, fun x _ hx => by simp at hx, fun y _ hy => by simp at hy⟩

theorem chain_split {pre post : List (Nat × Bool)} {s r n : Nat}
    (h : List.Chain' (fun a b : Nat × Bool => ¬ (a.2 = true ∧ b.2 = true))
      (pre ++ (s, true) :: post)) :
    List.Chain' (fun a b : Nat × Bool => ¬ (a.2 = true ∧ b.2 = true))
      (pre ++ (r, true) :: (n, false) :: post) := by
  rw [chain_mid] at h ⊢
  obtain ⟨h1, h2, h3, -⟩ := h
  refine ⟨h1, ?_, fun x hx hb => h3 x hx ⟨hb.1, rfl⟩, fun y hy hb => ?_⟩
  · rw [List.chain'_cons']
    exact ⟨fun y _ hy => by simp at hy, h2⟩
  · simp only [List.head?_cons, Option.mem_def, Option.some.injEq] at hy
    rw [← hy] at hb
    simp at hb

theorem chain_free {pre post pre0 post0 : List (Nat × Bool)} {s A B : Nat}
    (h : List.Chain' (fun a b : Nat × Bool => ¬ (a.2 = true ∧ b.2 = true))
      (pre ++ (s, false) :: post))
    (hA : (pre0 = pre ∧ A = 0 ∧ ∀ pre2 sp, pre ≠ pre2 ++ [(sp, true)])
      ∨ ∃ sp, pre = pre0 ++ [(sp, true)] ∧ A = sp + 48)
    (hB : (post0 = post ∧ B = 0 ∧ ∀ sn post2, post ≠ (sn, true) :: post2)
      ∨ ∃ sn, post = (sn, true) :: post0 ∧ B = sn + 48) :
    List.Chain' (fun a b : Nat × Bool => ¬ (a.2 = true ∧ b.2 = true))
      (pre0 ++ (A + s + B, true) :: post0) := by
  rw [chain_mid] at h ⊢
  obtain ⟨h1, h2, -, -⟩ := h
  refine ⟨?_, ?_, ?_, ?_⟩
  · rcases hA with ⟨rfl, -, -⟩ | ⟨sp, rfl, -⟩
    · exact h1
    · exact (List.chain'_append.1 h1).1
  · rcases hB with ⟨rfl, -, -⟩ | ⟨sn, rfl, -⟩
    · exact h2
    · exact (List.chain'_cons'.1 h2).2
  · intro x hx hb
    obtain ⟨sx, fx⟩ := x
    simp only at hb
    obtain ⟨rfl, -⟩ := hb
    rcases hA with ⟨rfl, -, hno⟩ | ⟨sp, rfl, -⟩
    · obtain ⟨q, hq⟩ := (getLast_concat_iff _ _).1 hx
      exact hno q sx hq
    · have := (chain_mid _ pre0 [] (sp, true)).1 h1
      exact this.2.2.1 _ hx ⟨rfl, rfl⟩
  · intro y hy hb
    obtain ⟨sy, fy⟩ := y
    simp only at hb
    obtain ⟨-, rfl⟩ := hb
    rcases hB with ⟨rfl, -, hno⟩ | ⟨sn, rfl, -⟩
    · cases post0 with
      | nil => simp at hy
      | cons b r =>
        simp only [List.head?_cons, Option.mem_def, Option.some.injEq] at hy
        exact hno sy r (by rw [hy])
    · exact (List.chain'_cons'.1 h2).1 _ hy ⟨rfl, rfl⟩

/-- In every reachable state the tiling is not empty and has no two
neighbouring free blocks. -/
theorem Reach.chain {st : SimpleAllocator} {live : List (Nat × Nat)} (h : Reach st live) :
    ∀ bs fl, Inv st bs fl →
      bs ≠ [] ∧ List.Chain' (fun a b : Nat × Bool => ¬ (a.2 = true ∧ b.2 = true)) bs := by
  induction h with
  | init B E base S st hS hW hnew =>
    intro bs fl hI
    obtain ⟨st0, h0, -, -, hI0⟩ := new_spec B E base S hS hW
    rw [h0] at hnew
    cases hnew
    rw [hI0.bs_unique hI]
    exact ⟨by simp, List.chain'_singleton _⟩
  | allocSome st st2 live n p hr hn ha ih =>
    intro bs2 fl2 hI2
    obtain ⟨bs, fl, hI, -⟩ := hr.inv
    obtain ⟨-, hch⟩ := ih bs fl hI
    have hn0 : n ≠ 0 := by
      rintro rfl
      simp [alloc] at ha
    rcases alloc_spec hI hn0 hn with ⟨e, -⟩ |
      ⟨pre, s, post, st3, l1, l2, hbs, hs, -, -, e, eb, hI3⟩ |
      ⟨pre, s, post, st3, l1, l2, hbs, hs, -, -, e, eb, hI3⟩
    · rw [e] at ha; simp at ha
    · rw [e] at ha
      simp only [Option.some.injEq, Prod.mk.injEq] at ha
      obtain ⟨-, rfl⟩ := ha
      subst hbs
      rw [hI3.bs_unique hI2]
      exact ⟨by simp, chain_whole hch⟩
    · rw [e] at ha
      simp only [Option.some.injEq, Prod.mk.injEq] at ha
      obtain ⟨-, rfl⟩ := ha
      subst hbs
      rw [hI3.bs_unique hI2]
      exact ⟨by simp, chain_split hch⟩
  | allocNone st st2 live n hr hn ha ih =>
    have hsame : st2 = st := by
      unfold alloc at ha
      split_ifs at ha with h0
      · simp only [Option.some.injEq, Prod.mk.injEq, true_and] at ha
        exact ha.symm
      · exact allocLoop_null n _ _ _ _ ha
    subst hsame
    exact ih
  | release st st2 live p n hr hm hf ih =>
    intro bs2 fl2 hI2
    obtain ⟨bs, fl, hI, hL⟩ := hr.inv
    obtain ⟨-, hch⟩ := ih bs fl hI
    obtain ⟨hp, s, hs, -⟩ := hL.2.1 p n hm
    obtain ⟨pre, post, hbs, hc⟩ := mem_blocksFrom_split hs
    simp only at hbs hc
    have hpc : p = st.memoryBegin + span pre + 32 := by omega
    subst hbs
    obtain ⟨st3, pre0, post0, A, B, fl1, fl3, e1, e2, e3, e4, e5⟩ := free_spec hI
    rw [hpc] at hf
    rw [e1] at hf
    cases hf
    rw [e3.bs_unique hI2]
    refine ⟨by simp, chain_free hch ?_ ?_⟩
    · rcases e4 with ⟨g1, g2, g3, -⟩ | ⟨sp, g1, g2, -⟩
      · exact Or.inl ⟨g1, g2, g3⟩
      · exact Or.inr ⟨sp, g1, g2⟩
    · rcases e5 with ⟨g1, g2, g3, -⟩ | ⟨sn, g1, g2, -⟩
      · exact Or.inl ⟨g1, g2, g3⟩
      · exact Or.inr ⟨sn, g1, g2⟩

theorem exampleMerged_eq : exampleTwo.free 4202 = some exampleMerged := rfl

theorem exampleDrained_eq : exampleMerged.free 4270 = some exampleDrained := rfl

theorem reach_exampleMerged : Reach exampleMerged [(4270, 10)] :=
  Reach.release exampleTwo exampleMerged [(4202, 20), (4270, 10)] 4202 20 reach_exampleTwo
    (by decide) exampleMerged_eq

theorem reach_exampleDrained : Reach exampleDrained [] :=
  Reach.release exampleMerged exampleDrained [(4270, 10)] 4270 10 reach_exampleMerged
    (by decide) exampleDrained_eq

/-- A list of free blocks without two neighbouring free blocks has at most one
member. -/
theorem chain_all_free {bs : List (Nat × Bool)}
    (h : List.Chain' (fun a b : Nat × Bool => ¬ (a.2 = true ∧ b.2 = true)) bs)
    (hf : ∀ b ∈ bs, b.2 = true) (hne : bs ≠ []) : ∃ s, bs = [(s, true)] := by
  cases bs with
  | nil => exact absurd rfl hne
  | cons a r =>
    cases r with
    | nil =>
      obtain ⟨s, f⟩ := a
      have := hf (s, f) (List.mem_cons_self _ _)
      simp only at this
      subst this
      exact ⟨s, rfl⟩
    | cons b r2 =>
      have h1 := (List.chain'_cons.1 h).1
      exact absurd ⟨hf a (by simp), hf b (by simp)⟩ h1

/-- C18 (no adjacent free blocks): in every state reached from construction by
in-contract `alloc` calls and releases of live pointers, no two blocks that are
neighbours in address order are both marked free; consequently, when no live
pointer is left the arena consists of exactly one free block of size
`totalMemorySize - tagOverhead`. -/
theorem no_adjacent_free {st : SimpleAllocator} {live : List (Nat × Nat)} (h : Reach st live) :
    ∃ bl, tiling st = some bl
      ∧ List.Chain' (fun t u : Nat × Nat × Bool => ¬ (t.2.2 = true ∧ u.2.2 = true)) bl
      ∧ (live = [] → bl = [(st.memoryBegin, st.totalMemorySize - tagOverhead, true)]) := by
  obtain ⟨bs, fl, hI, hL⟩ := h.inv
  obtain ⟨hne, hch⟩ := h.chain bs fl hI
  refine ⟨_, hI.tiling_eq, ?_, ?_⟩
  · have e := blocksFrom_map_snd st.memoryBegin bs
    rw [← e, List.chain'_map] at hch
    exact hch
  · intro hl
    subst hl
    have hall : ∀ b ∈ bs, b.2 = true := by
      intro b hb
      obtain ⟨s, f⟩ := b
      cases f with
      | true => rfl
      | false =>
        rw [← blocksFrom_map_snd st.memoryBegin bs, List.mem_map] at hb
        obtain ⟨t, ht, hts⟩ := hb
        obtain ⟨a, s2, f2⟩ := t
        simp only [Prod.mk.injEq] at hts
        obtain ⟨rfl, rfl⟩ := hts
        obtain ⟨m, hm⟩ := hL.2.2 a s2 ht
        simp at hm
    obtain ⟨s, rfl⟩ := chain_all_free hch hall hne
    have hsp := hI.span_eq
    simp only [span] at hsp
    have hto : tagOverhead = 48 := rfl
    have : st.totalMemorySize - tagOverhead = s := by rw [hto]; omega
    rw [this]
    rfl

theorem no_adjacent_free_witness :
    (Reach exampleTwo [(4202, 20), (4270, 10)]
      ∧ tiling exampleTwo = some [(4096, 26, true), (4170, 20, false), (4238, 10, false)]
      ∧ ∃ bl, tiling exampleTwo = some bl
        ∧ List.Chain' (fun t u : Nat × Nat × Bool => ¬ (t.2.2 = true ∧ u.2.2 = true)) bl
        ∧ ([(4202, 20), (4270, 10)] = [] →
            bl = [(exampleTwo.memoryBegin, exampleTwo.totalMemorySize - tagOverhead, true)]))
    ∧ (exampleTwo.free 4202 = some exampleMerged
      ∧ Reach exampleMerged [(4270, 10)]
      ∧ tiling exampleMerged = some [(4096, 94, true), (4238, 10, false)]
      ∧ ∃ bl, tiling exampleMerged = some bl
        ∧ List.Chain' (fun t u : Nat × Nat × Bool => ¬ (t.2.2 = true ∧ u.2.2 = true)) bl
        ∧ ([(4270, 10)] = [] →
            bl = [(exampleMerged.memoryBegin, exampleMerged.totalMemorySize - tagOverhead,
              true)]))
    ∧ (exampleMerged.free 4270 = some exampleDrained
      ∧ Reach exampleDrained []
      ∧ tiling exampleDrained = some [(4096, 152, true)]
      ∧ ∃ bl, tiling exampleDrained = some bl
        ∧ List.Chain' (fun t u : Nat × Nat × Bool => ¬ (t.2.2 = true ∧ u.2.2 = true)) bl
        ∧ (([] : List (Nat × Nat)) = [] →
            bl = [(exampleDrained.memoryBegin, exampleDrained.totalMemorySize - tagOverhead,
              true)])) :=
  ⟨⟨reach_exampleTwo, rfl, no_adjacent_free reach_exampleTwo⟩,
    ⟨exampleMerged_eq, reach_exampleMerged, rfl, no_adjacent_free reach_exampleMerged⟩,
    ⟨exampleDrained_eq, reach_exampleDrained, rfl, no_adjacent_free reach_exampleDrained⟩⟩

/-- C19 (general alloc/release round trip): for every reachable state and every
`n` with `n + tagOverhead` not wrapping such that `p = alloc(n)` is non-null,
`free(p)` returns and the state after it has the same address-ordered sequence
of blocks (address, `blockSize`, flag) and the same set of free-list members as
the state before `alloc(n)`; the free-list order differs at most in that the
block `c` that served the request is now at the head, the other members
keeping their order. -/
theorem alloc_release_round_trip {st st1 : SimpleAllocator} {live : List (Nat × Nat)}
    (h : Reach st live) {n p : Nat} (hn : n + tagOverhead < SIZE_MOD)
    (ha : st.alloc n = some (some p, st1)) :
    ∃ st2 bl fl c s, st1.free p = some st2
      ∧ tiling st = some bl ∧ tiling st2 = some bl
      ∧ freeList st = some fl ∧ freeList st2 = some (c :: fl.erase c)
      ∧ (∀ x, x ∈ c :: fl.erase c ↔ x ∈ fl)
      ∧ (c, s, true) ∈ bl
      ∧ c + sizeofBeginMarker ≤ p ∧ p + n ≤ c + sizeofBeginMarker + s := by
  have hto : tagOverhead = 48 := rfl
  have hsb : sizeofBeginMarker = 32 := rfl
  have hsm : SIZE_MOD = 18446744073709551616 := rfl
  rw [hto, hsm] at hn
  rw [hsb]
  obtain ⟨bs, fl, hI, -⟩ := h.inv
  obtain ⟨-, hch⟩ := h.chain bs fl hI
  have hn0 : n ≠ 0 := by
    rintro rfl
    simp [alloc] at ha
  have hmem : ∀ c, c ∈ fl → ∀ x, x ∈ c :: fl.erase c ↔ x ∈ fl := by
    intro c hc x
    by_cases hx : x = c
    · subst hx; simp [hc]
    · simp [hx, List.mem_erase_of_ne hx]
  rcases alloc_spec hI hn0 hn with ⟨e, -⟩ |
    ⟨pre, s, post, st3, l1, l2, hbs, hs, hfl, -, e, m1, I1⟩ |
    ⟨pre, s, post, st3, l1, l2, hbs, hs, hfl, -, e, m1, I1⟩
  · rw [e] at ha; simp at ha
  · rw [e] at ha
    simp only [Option.some.injEq, Prod.mk.injEq] at ha
    obtain ⟨hp, rfl⟩ := ha
    subst hbs
    obtain ⟨hpre, hpost⟩ := chain_free_neighbours hch
    obtain ⟨st2, f2, m2, I2⟩ := free_isolated pre s post p I1 (by rw [m1, hp]) hpre hpost
    rw [m1] at I2 m2
    have hcm : st.memoryBegin + span pre ∈ fl := by rw [hfl]; simp
    refine ⟨st2, _, fl, st.memoryBegin + span pre, s, f2, hI.tiling_eq, ?_, hI.freeList_eq,
      I2.freeList_eq, hmem _ hcm, mem_blocksFrom_mid _ pre post (s, true), by omega, by omega⟩
    rw [I2.tiling_eq, m2]
  · rw [e] at ha
    simp only [Option.some.injEq, Prod.mk.injEq] at ha
    obtain ⟨hp, rfl⟩ := ha
    subst hbs
    obtain ⟨-, hpost⟩ := chain_free_neighbours hch
    obtain ⟨st2, f2, m2, I2⟩ := free_back pre (s - n - 48) n post p I1
      (by rw [m1]; exact hp.symm) hpost
    rw [m1] at I2 m2
    have hsz : s - n - 48 + 48 + n = s := by omega
    rw [hsz] at I2
    have hcm : st.memoryBegin + span pre ∈ fl := by rw [hfl]; simp
    refine ⟨st2, _, fl, st.memoryBegin + span pre, s, f2, hI.tiling_eq, ?_, hI.freeList_eq,
      I2.freeList_eq, hmem _ hcm, mem_blocksFrom_mid _ pre post (s, true), by omega, by omega⟩
    rw [I2.tiling_eq, m2]

theorem alloc_release_round_trip_witness :
    Reach exampleOne [(4270, 10)] ∧ 20 + tagOverhead < SIZE_MOD
      ∧ exampleOne.alloc 20 = some (some 4202, exampleTwo)
      ∧ ∃ st2 bl fl c s, exampleTwo.free 4202 = some st2
        ∧ tiling exampleOne = some bl ∧ tiling st2 = some bl
        ∧ freeList exampleOne = some fl ∧ freeList st2 = some (c :: fl.erase c)
        ∧ (∀ x, x ∈ c :: fl.erase c ↔ x ∈ fl)
        ∧ (c, s, true) ∈ bl
        ∧ c + sizeofBeginMarker ≤ 4202 ∧ 4202 + 20 ≤ c + sizeofBeginMarker + s :=
  ⟨reach_exampleOne, by decide, exampleTwo_eq,
    alloc_release_round_trip reach_exampleOne (by decide) exampleTwo_eq⟩

/-! ## The effect of `free` on the tiling and on the free list -/

theorem blocksFrom_concat (a : Nat) (l : List (Nat × Bool)) (b : Nat × Bool) :
    blocksFrom a (l ++ [b]) = blocksFrom a l ++ [(a + span l, b.1, b.2)] := by
  rw [blocksFrom_append]
  rfl

theorem blocksFrom_no_free_last {a : Nat} {pre : List (Nat × Bool)}
    (h : ∀ pre2 sp, pre ≠ pre2 ++ [(sp, true)]) :
    ∀ (q : List (Nat × Nat × Bool)) (x sp : Nat), blocksFrom a pre ≠ q ++ [(x, sp, true)] := by
  intro q x sp he
  have e2 := congrArg (List.map Prod.snd) he
  rw [blocksFrom_map_snd] at e2
  simp only [List.map_append, List.map_cons, List.map_nil] at e2
  exact h _ sp e2

theorem blocksFrom_no_free_head {a : Nat} {post : List (Nat × Bool)}
    (h : ∀ sn post2, post ≠ (sn, true) :: post2) :
    ∀ (x sn : Nat) (q : List (Nat × Nat × Bool)), blocksFrom a post ≠ (x, sn, true) :: q := by
  intro x sn q he
  have e2 := congrArg (List.map Prod.snd) he
  rw [blocksFrom_map_snd] at e2
  simp only [List.map_cons] at e2
  exact h sn _ e2

/-- A live pointer located in the tiling of the invariant. -/
theorem Reach.live_split {st : SimpleAllocator} {live : List (Nat × Nat)} (h : Reach st live)
    {p n : Nat} (hm : (p, n) ∈ live) :
    ∃ pre s post fl, Inv st (pre ++ (s, false) :: post) fl
      ∧ p = st.memoryBegin + span pre + 32 := by
  obtain ⟨bs, fl, hI, hL⟩ := h.inv
  obtain ⟨hp, s, hs, -⟩ := hL.2.1 p n hm
  obtain ⟨pre, post, hbs, hc⟩ := mem_blocksFrom_split hs
  simp only at hbs hc
  subst hbs
  exact ⟨pre, s, post, fl, hI, by omega⟩

/-- C17 (head insertion on release): for every reachable state and every live
pointer `p`, `free(p)` returns and afterwards the free-list head is the begin
tag `c` of the resulting (possibly merged) free block, with `prevFreeBlock`
null, and the rest of the list is the previous free list with the absorbed
neighbours erased, the remaining members keeping their relative order. -/
theorem head_insertion {st : SimpleAllocator} {live : List (Nat × Nat)} (h : Reach st live)
    {p n : Nat} (hm : (p, n) ∈ live) :
    ∃ st2 fl s pre post c fl1 fl2, st.free p = some st2
      ∧ freeList st = some fl
      ∧ tiling st = some (pre ++ (p - sizeofBeginMarker, s, false) :: post)
      ∧ ((c = p - sizeofBeginMarker ∧ fl1 = fl ∧ ∀ q a sp, pre ≠ q ++ [(a, sp, true)])
        ∨ ∃ q sp, pre = q ++ [(c, sp, true)] ∧ fl1 = fl.erase c)
      ∧ ((fl2 = fl1 ∧ ∀ a sn q, post ≠ (a, sn, true) :: q)
        ∨ ∃ a sn q, post = (a, sn, true) :: q ∧ fl2 = fl1.erase a)
      ∧ freeList st2 = some (c :: fl2) ∧ fl2.Sublist fl
      ∧ st2.head = some c ∧ (st2.beginAt c).prevFreeBlock = none
      ∧ ∃ bl2 s2, tiling st2 = some bl2 ∧ (c, s2, true) ∈ bl2
        ∧ c + sizeofBeginMarker ≤ p ∧ p + s ≤ c + sizeofBeginMarker + s2 := by
  have hsb : sizeofBeginMarker = 32 := rfl
  rw [hsb]
  obtain ⟨pre, s, post, fl, hI, hp⟩ := h.live_split hm
  obtain ⟨st2, pre0, post0, A, B, fl1, fl2, e1, e2, e3, e4, e5⟩ := free_spec hI
  rw [← hp] at e1
  have hA : st.memoryBegin + span pre0 + A = st.memoryBegin + span pre := by
    rcases e4 with ⟨rfl, rfl, -, -⟩ | ⟨sp, rfl, rfl, -⟩
    · rfl
    · simp only [span_append, span]; omega
  have hc1 : st.memoryBegin + span pre = p - 32 := by omega
  obtain ⟨d1, d2, -⟩ := e3.dll
  have hsub : fl2.Sublist fl := by
    have s1 : fl1.Sublist fl := by
      rcases e4 with ⟨-, -, -, rfl⟩ | ⟨sp, -, -, rfl⟩
      · exact List.Sublist.refl _
      · exact List.erase_sublist _ _
    rcases e5 with ⟨-, -, -, rfl⟩ | ⟨sn, -, -, rfl⟩
    · exact s1
    · exact (List.erase_sublist _ _).trans s1
  refine ⟨st2, fl, s, blocksFrom st.memoryBegin pre, blocksFrom (p + s + 16) post,
    st.memoryBegin + span pre0, fl1, fl2, e1, hI.freeList_eq, ?_, ?_, ?_, e3.freeList_eq, hsub,
    d1, d2, _, A + s + B, e3.tiling_eq, ?_, by omega, by omega⟩
  · rw [hI.tiling_eq, blocksFrom_cons_mid, hc1]
    have : p - 32 + s + 48 = p + s + 16 := by omega
    simp only [this]
  · rcases e4 with ⟨rfl, rfl, g, rfl⟩ | ⟨sp, rfl, rfl, rfl⟩
    · exact Or.inl ⟨by omega, rfl, fun q a sp => blocksFrom_no_free_last g q a sp⟩
    · exact Or.inr ⟨_, sp, blocksFrom_concat _ _ _, rfl⟩
  · rcases e5 with ⟨rfl, rfl, g, rfl⟩ | ⟨sn, rfl, rfl, rfl⟩
    · exact Or.inl ⟨rfl, fun a sn q => blocksFrom_no_free_head g a sn q⟩
    · refine Or.inr ⟨p + s + 16, sn, _, rfl, ?_⟩
      have : st.memoryBegin + span pre + s + 48 = p + s + 16 := by omega
      rw [this]
  · rw [e2]
    exact mem_blocksFrom_mid _ pre0 post0 (A + s + B, true)

theorem head_insertion_witness :
    Reach exampleTwo [(4202, 20), (4270, 10)] ∧ (4270, 10) ∈ [(4202, 20), (4270, 10)]
      ∧ ∃ st2 fl s pre post c fl1 fl2, exampleTwo.free 4270 = some st2
        ∧ freeList exampleTwo = some fl
        ∧ tiling exampleTwo = some (pre ++ (4270 - sizeofBeginMarker, s, false) :: post)
        ∧ ((c = 4270 - sizeofBeginMarker ∧ fl1 = fl ∧ ∀ q a sp, pre ≠ q ++ [(a, sp, true)])
          ∨ ∃ q sp, pre = q ++ [(c, sp, true)] ∧ fl1 = fl.erase c)
        ∧ ((fl2 = fl1 ∧ ∀ a sn q, post ≠ (a, sn, true) :: q)
          ∨ ∃ a sn q, post = (a, sn, true) :: q ∧ fl2 = fl1.erase a)
        ∧ freeList st2 = some (c :: fl2) ∧ fl2.Sublist fl
        ∧ st2.head = some c ∧ (st2.beginAt c).prevFreeBlock = none
        ∧ ∃ bl2 s2, tiling st2 = some bl2 ∧ (c, s2, true) ∈ bl2
          ∧ c + sizeofBeginMarker ≤ 4270 ∧ 4270 + s ≤ c + sizeofBeginMarker + s2 :=
  ⟨reach_exampleTwo, by decide, head_insertion reach_exampleTwo
      (show (4270, 10) ∈ [(4202, 20), (4270, 10)] by decide)⟩

/-! ## Marker accesses stay inside the arena -/

theorem span_eq_zero {l : List (Nat × Bool)} (h : span l = 0) : l = [] := by
  cases l with
  | nil => rfl
  | cons b r => simp only [span] at h; omega

/-- C20 (in-bounds tag access): in every reachable state, every in-contract
`alloc(n)` and every `free(p)` of a live pointer has a defined result, that
is, every begin tag or end tag the call reads or writes lies wholly within
`[memoryBegin, memoryBegin + totalMemorySize)` (an access outside yields
`none`) and the search loop ends.  In particular, for the block at offset 0 the
test `hasPreviousMemoryBlock` guarding the read of the predecessor end tag is
false, and for the block ending at the arena end the test `hasNextMemoryBlock`
guarding the read of the successor begin tag, evaluated after the backward
step, is false. -/
theorem in_bounds_access {st : SimpleAllocator} {live : List (Nat × Nat)} (h : Reach st live) :
    (∀ n, n + tagOverhead < SIZE_MOD → ∃ r st2, st.alloc n = some (r, st2))
      ∧ ∀ p n, (p, n) ∈ live →
        (∃ st2, st.free p = some st2)
        ∧ (p = st.memoryBegin + sizeofBeginMarker → st.hasPreviousMemoryBlock p = false)
        ∧ (∀ bl s, tiling st = some bl → (p - sizeofBeginMarker, s, false) ∈ bl →
            p + s + sizeofEndMarker = st.memoryBegin + st.totalMemorySize →
            ∃ st1 q, st.coalesceBackward p = some (st1, q)
              ∧ st1.hasNextMemoryBlock q = some false) := by
  have hto : tagOverhead = 48 := rfl
  have hsb : sizeofBeginMarker = 32 := rfl
  have hse : sizeofEndMarker = 16 := rfl
  have hsm : SIZE_MOD = 18446744073709551616 := rfl
  rw [hto, hsb, hse, hsm]
  constructor
  · intro n hn
    obtain ⟨r, hr⟩ := h.alloc_defined n hn
    exact ⟨r.1, r.2, hr⟩
  · intro p n hm
    refine ⟨h.free_defined hm, ?_, ?_⟩
    · intro hp
      unfold hasPreviousMemoryBlock
      rw [hsb, hp]
      simp
    · intro bl s ht hb hend
      obtain ⟨pre, s2, post, fl, hI, hp⟩ := h.live_split hm
      rw [hI.tiling_eq] at ht
      cases ht
      obtain ⟨⟨t1, -⟩, -⟩ := hI.mid_tag
      have t2 := (hI.tags _ hb).1
      simp only at t1 t2
      have hc : p - 32 = st.memoryBegin + span pre := by omega
      rw [hc, t1] at t2
      subst t2
      have hsp := hI.span_eq
      simp only [span_append, span] at hsp
      have hpost : post = [] := span_eq_zero (by omega)
      subst hpost
      obtain ⟨st1, pre0, A, fl1, e1, m1, I1, -⟩ := coalesceBackward_spec hI
      rw [← hp] at e1
      refine ⟨st1, _, e1, ?_⟩
      obtain ⟨⟨u1, -⟩, hbnd⟩ := I1.mid_tag
      simp only at u1 hbnd
      have hsp1 := I1.span_eq
      simp only [span_append, span] at hsp1
      rw [m1] at u1 hbnd
      have hle : st.memoryBegin ≤ st.memoryBegin + span pre0 := by omega
      generalize hcdef : st.memoryBegin + span pre0 = c at *
      unfold hasNextMemoryBlock
      simp only [sizeofBeginMarker, sizeofEndMarker, Nat.add_sub_cancel]
      rw [loadBegin_eq _ _ (by rw [m1]; omega)]
      have : ¬ (c + 32 + (A + s2) + 16 < st1.memoryBegin + st1.totalMemorySize) := by
        rw [m1]; omega
      simp [u1, this]

theorem in_bounds_access_witness :
    Reach exampleTwo [(4202, 20), (4270, 10)]
      ∧ (∀ n, n + tagOverhead < SIZE_MOD → ∃ r st2, exampleTwo.alloc n = some (r, st2))
      ∧ ∀ p n, (p, n) ∈ [(4202, 20), (4270, 10)] →
        (∃ st2, exampleTwo.free p = some st2)
        ∧ (p = exampleTwo.memoryBegin + sizeofBeginMarker →
            exampleTwo.hasPreviousMemoryBlock p = false)
        ∧ (∀ bl s, tiling exampleTwo = some bl → (p - sizeofBeginMarker, s, false) ∈ bl →
            p + s + sizeofEndMarker = exampleTwo.memoryBegin + exampleTwo.totalMemorySize →
            ∃ st1 q, exampleTwo.coalesceBackward p = some (st1, q)
              ∧ st1.hasNextMemoryBlock q = some false) :=
  ⟨reach_exampleTwo, in_bounds_access reach_exampleTwo⟩

end SimpleAllocator
